import Mathlib

/-!
Shallow embedding of the `quick-hash-cache` repository (a sharded concurrent
hash map `CHashMap` plus an approximate-LRU cache `LruCache` built on an
`IndexedShard`), together with proofs about the claims of its specification.

The embedding is sequential (the cache is quiescent): tokio lock
acquisitions are no-ops, atomics are plain fields.  Rust panics and
`get_unchecked` out-of-bounds accesses are modelled by returning `none`
from the corresponding Lean function.  The external 64-bit hasher is
modelled by an arbitrary function `hf : K → Nat`; the monotonic timestamp
(`quanta::Instant::now().as_u64()`) is a natural number and
`AtomicInstant::is_before` is numeric less-than.  The random number
generator is an abstract stream `ρ : Nat → Nat` with a draw counter;
`rng.gen_range(0..n)` consumes one stream element and reduces it mod `n`.
-/

set_option linter.unusedSectionVars false

namespace QHC

/-- Model of `AtomicInstant::is_before` (src/lru/mod.rs): comparison of the
two stored `u64` readings, `self.0 < other.0`. -/
def is_before (a b : Nat) : Bool := a < b

/-- Model of `TimestampedValue<V, T>` (src/lru/mod.rs). -/
structure TSValue (V : Type) where
  value : V
  timestamp : Nat
deriving Repr, DecidableEq

/-- Model of `Bucket<K, V>` (src/lru/shard.rs): the precomputed hash, the
key and the value stored in one slot of an `IndexedShard`'s entry vector. -/
structure Bucket (K V : Type) where
  hash : Nat
  key : K
  value : V
deriving Repr, DecidableEq

/-- Model of `hashbrown::raw::RawTable<usize>` as used by `IndexedShard`:
a finite collection of slot indices, each stored under the 64-bit hash it
was inserted with.  `tableGet t h eq` models `RawTable::get(h, eq)`:
it returns a stored value whose insertion hash is `h` and which satisfies
`eq` (the model returns the first such element of the list). -/
def tableGet (t : List (Nat × Nat)) (h : Nat) (eq : Nat → Bool) : Option Nat :=
  (t.find? fun p => p.1 == h && eq p.2).map (·.2)

/-- Model of `RawTable::erase_entry(h, eq)`: remove the first stored value
matching hash `h` and predicate `eq` (no-op when nothing matches). -/
def tableErase (t : List (Nat × Nat)) (h : Nat) (eq : Nat → Bool) : List (Nat × Nat) :=
  match t with
  | [] => []
  | p :: rest =>
    if p.1 == h && eq p.2 then rest else p :: tableErase rest h eq

/-- Model of `*RawTable::get_mut(h, eq).expect(..) = newV`: replace the first
stored value matching `(h, eq)` by `newV`; `none` models the `expect` panic
when nothing matches. -/
def tableUpdate (t : List (Nat × Nat)) (h : Nat) (eq : Nat → Bool) (newV : Nat) :
    Option (List (Nat × Nat)) :=
  match t with
  | [] => none
  | p :: rest =>
    if p.1 == h && eq p.2 then some ((p.1, newV) :: rest)
    else (tableUpdate rest h eq newV).map (p :: ·)

/-- Model of `IndexedShard<K, V>` (src/lru/shard.rs): a dense entry vector
plus the raw index table mapping each entry's hash to its slot. -/
structure IndexedShard (K V : Type) where
  indices : List (Nat × Nat)
  entries : List (Bucket K V)
deriving Repr, DecidableEq

/-- Model of `Vec::swap_remove(i)`: overwrite slot `i` with the last element
and pop the last element.  (For `i = len - 1` this just pops; for an empty
vector the caller has already detected the panic case.) -/
def swapRemoveVec {α : Type} (l : List α) (i : Nat) : List α :=
  match l.getLast? with
  | none => l
  | some last => (l.set i last).dropLast

variable {K V : Type} [DecidableEq K]

namespace IndexedShard

/-- Model of `IndexedShard::new`. -/
def new : IndexedShard K V := ⟨[], []⟩

/-- Model of `IndexedShard::len`: the length of the `indices` table. -/
def len (s : IndexedShard K V) : Nat := s.indices.length

/-- Model of `IndexedShard::clear`. -/
def clear (_s : IndexedShard K V) : IndexedShard K V := ⟨[], []⟩

/-- Model of `IndexedShard::clone` (src/lru/shard.rs `impl Clone`): clones
both vectors (`clone`, not `clone_from`; capacity bookkeeping is not
observable in the model). -/
def clone (s : IndexedShard K V) : IndexedShard K V := ⟨s.indices, s.entries⟩

/-- Model of `IndexedShard::push`: append a bucket and install
`hash → new slot` in the index table.  Returns the new slot.  (The
`reserve_entries` capacity discipline has no observable effect here.) -/
def push (s : IndexedShard K V) (h : Nat) (k : K) (v : V) : Nat × IndexedShard K V :=
  let index := s.entries.length
  (index, ⟨s.indices ++ [(h, index)], s.entries ++ [⟨h, k, v⟩]⟩)

/-- Model of `IndexedShard::get_index_of`: look `hash` up in `indices`,
disambiguating by key equality at the referenced slot.  The source predicate
`self.entries[idx].key.borrow() == key` uses checked indexing; the model
treats an out-of-range slot as a non-match (the invariant proved below rules
that case out on all reachable states). -/
def get_index_of (s : IndexedShard K V) (h : Nat) (k : K) : Option Nat :=
  tableGet s.indices h fun idx =>
    match s.entries[idx]? with
    | some b => b.key == k
    | none => false

/-- Model of `IndexedShard::get` (value lookup); `get_unchecked` is modelled
by the optional index access. -/
def get (s : IndexedShard K V) (h : Nat) (k : K) : Option V :=
  (s.get_index_of h k).bind fun idx => (s.entries[idx]?).map (·.value)

/-- Model of `IndexedShard::insert_full`.  Returns `((slot, previous value),
vacant?, new shard)`; `vacant? = true` reports that the `before_insert`
callback ran (the owner uses it to bump its size counters). -/
def insert_full (s : IndexedShard K V) (h : Nat) (k : K) (v : V) :
    (Nat × Option V) × Bool × IndexedShard K V :=
  match s.get_index_of h k with
  | some i =>
    match s.entries[i]? with
    | some b => ((i, some b.value), false, ⟨s.indices, s.entries.set i ⟨b.hash, b.key, v⟩⟩)
    | none => ((i, none), false, s)
  | none =>
    let (idx, s1) := s.push h k v
    ((idx, none), true, s1)

/-- Model of `IndexedShard::swap_remove_finish`: swap-remove slot `index`
from `entries`, then repair the index entry of the moved bucket (which was
keyed at the old last position).  `none` models the `expect("index not
found")` panic and the out-of-bounds `swap_remove` panic. -/
def swap_remove_finish (s : IndexedShard K V) (index : Nat) :
    Option ((K × V) × IndexedShard K V) :=
  match s.entries[index]? with
  | none => none
  | some entry =>
    let entries1 := swapRemoveVec s.entries index
    match entries1[index]? with
    | some moved =>
      let last := entries1.length
      match tableUpdate s.indices moved.hash (fun idx => idx == last) index with
      | none => none
      | some indices1 => some ((entry.key, entry.value), ⟨indices1, entries1⟩)
    | none => some ((entry.key, entry.value), ⟨s.indices, entries1⟩)

/-- Model of `IndexedShard::swap_remove_full`: the outer `Option` models a
panic, the inner one absence of the key. -/
def swap_remove_full (s : IndexedShard K V) (h : Nat) (k : K) :
    Option (Option (K × V) × IndexedShard K V) :=
  match s.get_index_of h k with
  | some index =>
    let indices1 := tableErase s.indices h (fun idx => idx == index)
    ((IndexedShard.mk indices1 s.entries).swap_remove_finish index).map
      fun r => (some r.1, r.2)
  | none => some (none, s)

/-- Model of `IndexedShard::swap_remove_index_raw`: removal addressed by
slot (used by the evictor); `none` models the `get_unchecked` UB /
`expect` panic on an invalid slot. -/
def swap_remove_index_raw (s : IndexedShard K V) (index : Nat) :
    Option ((K × V) × IndexedShard K V) :=
  match s.entries[index]? with
  | none => none
  | some b =>
    let indices1 := tableErase s.indices b.hash (fun idx => idx == index)
    (IndexedShard.mk indices1 s.entries).swap_remove_finish index

/-- Loop body of `IndexedShard::retain`.  The predicate may mutate the value
(`&mut V`), modelled by returning the new value together with the verdict.
Fuel bounds the loop; `retain` below supplies enough for every state
satisfying the invariant. -/
def retainGo (f : K → V → Bool × V) : Nat → Nat → IndexedShard K V → Option (IndexedShard K V)
  | 0, _, _ => none
  | fuel + 1, i, s =>
    if i < s.len then
      match s.entries[i]? with
      | none => none
      | some b =>
        let (keep, v1) := f b.key b.value
        let s1 : IndexedShard K V := ⟨s.indices, s.entries.set i ⟨b.hash, b.key, v1⟩⟩
        if keep then retainGo f fuel (i + 1) s1
        else
          let indices1 := tableErase s1.indices b.hash (fun idx => idx == i)
          match (IndexedShard.mk indices1 s1.entries).swap_remove_finish i with
          | none => none
          | some (_, s2) => retainGo f fuel i s2
    else some s

/-- Model of `IndexedShard::retain`. -/
def retain (f : K → V → Bool × V) (s : IndexedShard K V) : Option (IndexedShard K V) :=
  retainGo f (s.len + 1) 0 s

/-- A bucket with this hash and key is resident in the shard. -/
def containsKey (s : IndexedShard K V) (h : Nat) (k : K) : Prop :=
  ∃ b ∈ s.entries, b.hash = h ∧ b.key = k

instance (s : IndexedShard K V) (h : Nat) (k : K) : Decidable (s.containsKey h k) := by
  unfold containsKey; infer_instance

end IndexedShard

/-- The `IndexedShard` invariant (spec §3 "Invariants (IndexedShard)"),
strengthened to an inductive form:
`lenEq`  — `|indices| == |entries|`;
`valid`  — every stored pair references an in-range slot and carries that
           slot's hash;
`complete` — every slot is reachable from its hash;
`nodupSlots` — no slot is referenced twice;
`uniq`   — keys are unique by the (hash, key-equality) relation. -/
def Inv (s : IndexedShard K V) : Prop :=
  s.indices.length = s.entries.length
  ∧ (∀ p ∈ s.indices, (s.entries[p.2]?).map (·.hash) = some p.1)
  ∧ (∀ i, (hi : i < s.entries.length) → (s.entries[i].hash, i) ∈ s.indices)
  ∧ (s.indices.map (·.2)).Nodup
  ∧ (∀ i, (hi : i < s.entries.length) → ∀ j, (hj : j < s.entries.length) →
      s.entries[i].hash = s.entries[j].hash → s.entries[i].key = s.entries[j].key → i = j)

instance (s : IndexedShard K V) : Decidable (Inv s) := by
  unfold Inv; infer_instance

/-! Helper lemmas about the raw-table model. -/

theorem tableErase_sublist (t : List (Nat × Nat)) (h : Nat) (eq : Nat → Bool) :
    List.Sublist (tableErase t h eq) t := by
  induction t with
  | nil => simp [tableErase]
  | cons p rest ih =>
    rw [tableErase]
    split
    · exact List.sublist_cons_self p rest
    · exact List.Sublist.cons₂ p ih

theorem mem_of_mem_tableErase {t : List (Nat × Nat)} {h : Nat} {eq : Nat → Bool}
    {q : Nat × Nat} (hq : q ∈ tableErase t h eq) : q ∈ t :=
  (tableErase_sublist t h eq).mem hq

theorem mem_tableErase_of_not_match {t : List (Nat × Nat)} {h : Nat} {eq : Nat → Bool}
    {q : Nat × Nat} (hq : q ∈ t) (hnm : ¬(q.1 = h ∧ eq q.2 = true)) :
    q ∈ tableErase t h eq := by
  induction t with
  | nil => cases hq
  | cons p rest ih =>
    rw [tableErase]
    split
    next hp =>
      rcases List.mem_cons.mp hq with rfl | hq2
      · exact absurd (by simpa using hp) hnm
      · exact hq2
    next hp =>
      rcases List.mem_cons.mp hq with rfl | hq2
      · exact List.mem_cons_self _ _
      · exact List.mem_cons_of_mem _ (ih hq2)

theorem not_mem_tableErase_self {t : List (Nat × Nat)} {h i : Nat}
    (hnd : (t.map (·.2)).Nodup) (hmem : (h, i) ∈ t) :
    (h, i) ∉ tableErase t h (fun idx => idx == i) := by
  induction t with
  | nil => cases hmem
  | cons p rest ih =>
    rw [tableErase]
    rw [List.map_cons, List.nodup_cons] at hnd
    split
    next hp =>
      -- head matched and was removed; slot i cannot recur in the tail
      intro hbad
      have hp2 : p.2 = i := (show p.1 = h ∧ p.2 = i by simpa using hp).2
      exact hnd.1 (hp2 ▸ List.mem_map.mpr ⟨(h, i), hbad, rfl⟩)
    next hp =>
      -- head did not match, but (h, i) does match, so (h, i) is in the tail
      have hne : p ≠ (h, i) := by
        rintro rfl
        simp at hp
      have hmem2 : (h, i) ∈ rest := by
        rcases List.mem_cons.mp hmem with heq | h2
        · exact absurd heq.symm hne
        · exact h2
      intro hbad
      rcases List.mem_cons.mp hbad with heq | h2
      · exact hne heq.symm
      · exact ih hnd.2 hmem2 h2

theorem length_tableErase_of_match {t : List (Nat × Nat)} {h : Nat} {eq : Nat → Bool}
    {q : Nat × Nat} (hq : q ∈ t) (hm : q.1 = h ∧ eq q.2 = true) :
    (tableErase t h eq).length + 1 = t.length := by
  induction t with
  | nil => cases hq
  | cons p rest ih =>
    rw [tableErase]
    split
    · simp
    next hp =>
      have hq2 : q ∈ rest := by
        rcases List.mem_cons.mp hq with rfl | h2
        · exact absurd (by simp [hm.1, hm.2]) hp
        · exact h2
      simpa using ih hq2

theorem tableUpdate_isSome {t : List (Nat × Nat)} {h : Nat} (eq : Nat → Bool) (v : Nat)
    {q : Nat × Nat} (hq : q ∈ t) (hm : q.1 = h ∧ eq q.2 = true) :
    ∃ t1, tableUpdate t h eq v = some t1 := by
  induction t with
  | nil => cases hq
  | cons p rest ih =>
    rw [tableUpdate]
    split
    · exact ⟨_, rfl⟩
    next hp =>
      have hq2 : q ∈ rest := by
        rcases List.mem_cons.mp hq with rfl | h2
        · exact absurd (by simp [hm.1, hm.2]) hp
        · exact h2
      obtain ⟨t2, ht2⟩ := ih hq2
      exact ⟨p :: t2, by rw [ht2]; rfl⟩

theorem tableUpdate_spec {t : List (Nat × Nat)} {h : Nat} {eq : Nat → Bool} {v : Nat}
    {t1 : List (Nat × Nat)} (hu : tableUpdate t h eq v = some t1) :
    ∃ l1 q l2, t = l1 ++ q :: l2 ∧ t1 = l1 ++ (q.1, v) :: l2
      ∧ q.1 = h ∧ eq q.2 = true := by
  induction t generalizing t1 with
  | nil => simp [tableUpdate] at hu
  | cons p rest ih =>
    rw [tableUpdate] at hu
    split at hu
    next hp =>
      have hp' : p.1 = h ∧ eq p.2 = true := by simpa using hp
      exact ⟨[], p, rest, rfl, by simpa using hu.symm, hp'.1, hp'.2⟩
    next hp =>
      rcases Option.map_eq_some'.mp hu with ⟨t2, ht2, rfl⟩
      obtain ⟨l1, q, l2, rfl, rfl, hq1, hq2⟩ := ih ht2
      exact ⟨p :: l1, q, l2, rfl, rfl, hq1, hq2⟩

/-! Lookup lemmas for `IndexedShard::get_index_of` under the invariant. -/

theorem get_index_of_some {s : IndexedShard K V} {h : Nat} {k : K} {i : Nat}
    (hval : ∀ p ∈ s.indices, (s.entries[p.2]?).map (·.hash) = some p.1)
    (hfind : s.get_index_of h k = some i) :
    ∃ hi : i < s.entries.length, s.entries[i].hash = h ∧ s.entries[i].key = k := by
  unfold IndexedShard.get_index_of tableGet at hfind
  cases hq : s.indices.find? (fun p => p.1 == h &&
      match s.entries[p.2]? with
      | some b => b.key == k
      | none => false) with
  | none => rw [hq] at hfind; cases hfind
  | some q =>
    rw [hq] at hfind
    have hmem := List.mem_of_find?_eq_some hq
    have hpred := List.find?_some hq
    cases hfind
    rw [Bool.and_eq_true] at hpred
    have hq1 : q.1 = h := by simpa using hpred.1
    have hv := hval q hmem
    cases hb : s.entries[q.2]? with
    | none => rw [hb] at hv; cases hv
    | some b =>
      rw [hb] at hv
      have hbh : b.hash = q.1 := by simpa using hv
      have hlt : q.2 < s.entries.length := (List.getElem?_eq_some.mp hb).1
      have hbe : s.entries[q.2] = b := by
        have := List.getElem?_eq_getElem hlt
        rw [hb] at this; exact (Option.some.inj this).symm
      have hbk : b.key = k := by
        have := hpred.2
        rw [hb] at this
        simpa using this
      exact ⟨hlt, by rw [hbe, hbh, hq1], by rw [hbe, hbk]⟩

theorem get_index_of_resident {s : IndexedShard K V} (hs : Inv s)
    {i : Nat} (hi : i < s.entries.length) :
    s.get_index_of (s.entries[i].hash) (s.entries[i].key) = some i := by
  obtain ⟨hlen, hval, hcomp, hnd, huniq⟩ := hs
  unfold IndexedShard.get_index_of tableGet
  cases hq : s.indices.find? (fun p => p.1 == s.entries[i].hash &&
      match s.entries[p.2]? with
      | some b => b.key == s.entries[i].key
      | none => false) with
  | none =>
    exfalso
    rw [List.find?_eq_none] at hq
    refine hq _ (hcomp i hi) ?_
    rw [Bool.and_eq_true]
    refine ⟨by simp, ?_⟩
    rw [List.getElem?_eq_getElem hi]
    simp
  | some q =>
    have hmem := List.mem_of_find?_eq_some hq
    have hpred := List.find?_some hq
    rw [Bool.and_eq_true] at hpred
    have hq1 : q.1 = s.entries[i].hash := by simpa using hpred.1
    have hv := hval q hmem
    cases hb : s.entries[q.2]? with
    | none => rw [hb] at hv; cases hv
    | some b =>
      rw [hb] at hv
      have hbh : b.hash = q.1 := by simpa using hv
      have hlt : q.2 < s.entries.length := (List.getElem?_eq_some.mp hb).1
      have hbe : s.entries[q.2] = b := by
        have := List.getElem?_eq_getElem hlt
        rw [hb] at this; exact (Option.some.inj this).symm
      have hbk : b.key = s.entries[i].key := by
        have := hpred.2
        rw [hb] at this
        simpa using this
      have : q.2 = i := huniq q.2 hlt i hi (by rw [hbe, hbh, hq1]) (by rw [hbe, hbk])
      simp [this]

theorem get_index_of_eq_none {s : IndexedShard K V} (hs : Inv s) {h : Nat} {k : K} :
    s.get_index_of h k = none ↔ ¬ s.containsKey h k := by
  constructor
  · intro hn ⟨b, hb, hbh, hbk⟩
    obtain ⟨j, hj, hbe⟩ := List.mem_iff_getElem.mp hb
    have := get_index_of_resident hs hj
    rw [hbe, hbh, hbk, hn] at this
    cases this
  · intro habs
    cases hfind : s.get_index_of h k with
    | none => rfl
    | some i =>
      obtain ⟨hi, hih, hik⟩ := get_index_of_some hs.2.1 hfind
      exact absurd ⟨s.entries[i], List.getElem_mem _, hih, hik⟩ habs

theorem get_index_of_isSome {s : IndexedShard K V} (hs : Inv s) {h : Nat} {k : K} :
    (s.get_index_of h k).isSome ↔ s.containsKey h k := by
  rw [← Decidable.not_iff_not, Option.not_isSome_iff_eq_none, get_index_of_eq_none hs]

/-! Invariant preservation for the vacant-insert path (`push`). -/

theorem Inv_push {s : IndexedShard K V} (hs : Inv s) {h : Nat} {k : K} {v : V}
    (habs : ¬ s.containsKey h k) : Inv (s.push h k v).2 := by
  obtain ⟨hlen, hval, hcomp, hnd, huniq⟩ := hs
  have slot_lt : ∀ p ∈ s.indices, p.2 < s.entries.length := by
    intro p hp
    have := hval p hp
    cases hb : s.entries[p.2]? with
    | none => rw [hb] at this; cases this
    | some b => exact (List.getElem?_eq_some.mp hb).1
  refine ⟨by simp [IndexedShard.push, hlen], ?_, ?_, ?_, ?_⟩
  · intro p hp
    rcases List.mem_append.mp hp with hold | hnew
    · have hlt := slot_lt p hold
      have : (s.entries ++ [⟨h, k, v⟩])[p.2]? = s.entries[p.2]? := by
        rw [List.getElem?_append]
        simp [hlt]
      rw [IndexedShard.push]
      simpa [this] using hval p hold
    · have : p = (h, s.entries.length) := by simpa using hnew
      subst this
      simp [IndexedShard.push]
  · intro i hi
    simp only [IndexedShard.push, List.length_append, List.length_singleton] at hi
    rcases Nat.lt_or_ge i s.entries.length with hlt | hge
    · have he : (s.entries ++ [(⟨h, k, v⟩ : Bucket K V)])[i] = s.entries[i] :=
        List.getElem_append_left hlt
      simp only [IndexedShard.push, he]
      exact List.mem_append_left _ (hcomp i hlt)
    · have : i = s.entries.length := by omega
      subst this
      simp [IndexedShard.push, List.getElem_concat_length]
  · simp only [IndexedShard.push, List.map_append]
    rw [List.nodup_append]
    refine ⟨hnd, by simp, ?_⟩
    intro a ha hb
    have : a = s.entries.length := by simpa using hb
    subst this
    obtain ⟨p, hp, hpe⟩ := List.mem_map.mp ha
    exact absurd (hpe ▸ slot_lt p hp) (by omega)
  · intro i hi j hj hhash hkey
    simp only [IndexedShard.push, List.length_append, List.length_singleton] at hi hj
    rcases Nat.lt_or_ge i s.entries.length with hilt | hige
      <;> rcases Nat.lt_or_ge j s.entries.length with hjlt | hjge
    · have hei : (s.entries ++ [(⟨h, k, v⟩ : Bucket K V)])[i] = s.entries[i] :=
        List.getElem_append_left hilt
      have hej : (s.entries ++ [(⟨h, k, v⟩ : Bucket K V)])[j] = s.entries[j] :=
        List.getElem_append_left hjlt
      simp only [IndexedShard.push, hei, hej] at hhash hkey
      exact huniq i hilt j hjlt hhash hkey
    · exfalso
      have hj' : j = s.entries.length := by omega
      subst hj'
      have hei : (s.entries ++ [(⟨h, k, v⟩ : Bucket K V)])[i] = s.entries[i] :=
        List.getElem_append_left hilt
      have hej : (s.entries ++ [(⟨h, k, v⟩ : Bucket K V)])[s.entries.length]
          = (⟨h, k, v⟩ : Bucket K V) := List.getElem_concat_length _ _ _ rfl _
      simp only [IndexedShard.push, hei, hej] at hhash hkey
      exact habs ⟨s.entries[i], List.getElem_mem _, hhash, hkey⟩
    · exfalso
      have hi' : i = s.entries.length := by omega
      subst hi'
      have hej : (s.entries ++ [(⟨h, k, v⟩ : Bucket K V)])[j] = s.entries[j] :=
        List.getElem_append_left hjlt
      have hei : (s.entries ++ [(⟨h, k, v⟩ : Bucket K V)])[s.entries.length]
          = (⟨h, k, v⟩ : Bucket K V) := List.getElem_concat_length _ _ _ rfl _
      simp only [IndexedShard.push, hei, hej] at hhash hkey
      exact habs ⟨s.entries[j], List.getElem_mem _, hhash.symm, hkey.symm⟩
    · omega

/-! Invariant preservation for a hash- and key-preserving value update
(occupied insert, the retain / evict predicate's `&mut V` access). -/

theorem Inv_setValue {s : IndexedShard K V} (hs : Inv s) {i : Nat} {b : Bucket K V}
    (hb : s.entries[i]? = some b) {v : V} :
    Inv ⟨s.indices, s.entries.set i ⟨b.hash, b.key, v⟩⟩ := by
  obtain ⟨hlen, hval, hcomp, hnd, huniq⟩ := hs
  have hi : i < s.entries.length := (List.getElem?_eq_some.mp hb).1
  have hbe : s.entries[i] = b := by
    have := List.getElem?_eq_getElem hi
    rw [hb] at this; exact (Option.some.inj this).symm
  have hpt : ∀ j, (hj : j < s.entries.length) →
      ∀ (hj2 : j < (s.entries.set i ⟨b.hash, b.key, v⟩).length),
      ((s.entries.set i ⟨b.hash, b.key, v⟩)[j]).hash = s.entries[j].hash
      ∧ ((s.entries.set i ⟨b.hash, b.key, v⟩)[j]).key = s.entries[j].key := by
    intro j hj hj2
    rw [List.getElem_set]
    split
    next heq => subst heq; rw [hbe]; exact ⟨rfl, rfl⟩
    · exact ⟨rfl, rfl⟩
  refine ⟨by simpa using hlen, ?_, ?_, hnd, ?_⟩
  · intro p hp
    have hv := hval p hp
    cases hb2 : s.entries[p.2]? with
    | none => rw [hb2] at hv; cases hv
    | some b2 =>
      have hlt : p.2 < s.entries.length := (List.getElem?_eq_some.mp hb2).1
      have hlt2 : p.2 < (s.entries.set i ⟨b.hash, b.key, v⟩).length := by simpa using hlt
      rw [List.getElem?_eq_getElem hlt2]
      rw [hb2] at hv
      have hb2e : s.entries[p.2] = b2 := by
        have := List.getElem?_eq_getElem hlt
        rw [hb2] at this; exact (Option.some.inj this).symm
      simp only [Option.map_some']
      rw [(hpt p.2 hlt hlt2).1, hb2e]
      exact hv
  · intro j hj
    simp only [List.length_set] at hj
    rw [(hpt j hj (by simpa using hj)).1]
    exact hcomp j hj
  · intro j hj j' hj' hhash hkey
    simp only [List.length_set] at hj hj'
    rw [(hpt j hj (by simpa using hj)).1, (hpt j' hj' (by simpa using hj')).1] at hhash
    rw [(hpt j hj (by simpa using hj)).2, (hpt j' hj' (by simpa using hj')).2] at hkey
    exact huniq j hj j' hj' hhash hkey

/-! Further generic list facts used by the removal lemma. -/

theorem mem_middle_of_mem_append {α : Type} {l1 l2 : List α} {q r : α}
    (hq : q ∈ l1 ++ l2) : q ∈ l1 ++ r :: l2 := by
  rcases List.mem_append.mp hq with h1 | h1
  · exact List.mem_append_left _ h1
  · exact List.mem_append_right _ (List.mem_cons_of_mem _ h1)

theorem mem_append_of_mem_middle {α : Type} {l1 l2 : List α} {q r : α}
    (hq : q ∈ l1 ++ r :: l2) (hne : q ≠ r) : q ∈ l1 ++ l2 := by
  rcases List.mem_append.mp hq with h1 | h1
  · exact List.mem_append_left _ h1
  · rcases List.mem_cons.mp h1 with h2 | h2
    · exact absurd h2 hne
    · exact List.mem_append_right _ h2

theorem nodup_replace_middle {α : Type} {l1 l2 : List α} {a b : α}
    (h : (l1 ++ a :: l2).Nodup) (hb : b ∉ l1 ++ a :: l2) : (l1 ++ b :: l2).Nodup := by
  rw [List.nodup_middle, List.nodup_cons] at h ⊢
  exact ⟨fun hmem => hb (mem_middle_of_mem_append hmem), h.2⟩

theorem not_mem_append_of_nodup_middle {α : Type} {l1 l2 : List α} {a : α}
    (h : (l1 ++ a :: l2).Nodup) : a ∉ l1 ++ l2 := by
  rw [List.nodup_middle, List.nodup_cons] at h
  exact h.1

/-! Pointwise description of `Vec::swap_remove` (proved in a small context so
that the embedded bound proofs stay small). -/

theorem swapRemoveVec_eq {α : Type} (l : List α) (i : Nat) (h0 : 0 < l.length) :
    swapRemoveVec l i = (l.set i (l[l.length - 1])).dropLast := by
  rw [swapRemoveVec, List.getLast?_eq_getElem?,
    List.getElem?_eq_getElem (Nat.sub_lt h0 Nat.one_pos)]

theorem length_swapRemoveVec {α : Type} (l : List α) (i : Nat) (h0 : 0 < l.length) :
    (swapRemoveVec l i).length = l.length - 1 := by
  rw [swapRemoveVec_eq l i h0]
  simp

theorem getElem_swapRemoveVec {α : Type} (l : List α) (i j : Nat) (h0 : 0 < l.length)
    (hj : j < l.length - 1) (hp : j < (swapRemoveVec l i).length) :
    (swapRemoveVec l i)[j]
      = if i = j then l[l.length - 1]
        else l[j] := by
  rw [List.getElem_of_eq (swapRemoveVec_eq l i h0) hp, List.getElem_dropLast,
    List.getElem_set]

theorem getElem?_swapRemoveVec {α : Type} (l : List α) (i j : Nat) (h0 : 0 < l.length)
    (hj : j < l.length - 1) :
    (swapRemoveVec l i)[j]?
      = some (if i = j then l[l.length - 1]
          else l[j]) := by
  have hp : j < (swapRemoveVec l i).length := by
    rw [length_swapRemoveVec l i h0]; exact hj
  rw [List.getElem?_eq_getElem hp, getElem_swapRemoveVec l i j h0 hj hp]

theorem mem_swapRemoveVec {α : Type} {l : List α} (i : Nat) (h0 : 0 < l.length) :
    ∀ b ∈ swapRemoveVec l i, ∃ j, ∃ hj : j < l.length, j ≠ i ∧ l[j] = b := by
  intro b hb
  obtain ⟨j, hjp, hbe⟩ := List.mem_iff_getElem.mp hb
  have hj1 : j < l.length - 1 := by
    have := length_swapRemoveVec l i h0; omega
  rw [getElem_swapRemoveVec l i j h0 hj1 hjp] at hbe
  by_cases hij : i = j
  · rw [if_pos hij] at hbe
    exact ⟨l.length - 1, Nat.sub_lt h0 Nat.one_pos, by omega, hbe⟩
  · rw [if_neg hij] at hbe
    exact ⟨j, Nat.lt_of_lt_of_le hj1 (Nat.sub_le _ _), fun h => hij h.symm, hbe⟩

theorem uniq_swapRemoveVec {K V : Type} {l : List (Bucket K V)} {i : Nat} (h0 : 0 < l.length)
    (huniq : ∀ a, (ha : a < l.length) → ∀ b, (hb : b < l.length) →
      l[a].hash = l[b].hash → l[a].key = l[b].key → a = b) :
    ∀ a, (ha : a < (swapRemoveVec l i).length) → ∀ c, (hc : c < (swapRemoveVec l i).length) →
      (swapRemoveVec l i)[a].hash = (swapRemoveVec l i)[c].hash →
      (swapRemoveVec l i)[a].key = (swapRemoveVec l i)[c].key → a = c := by
  intro a ha c hc hh hk
  have hlen := length_swapRemoveVec l i h0
  have ha1 : a < l.length - 1 := by omega
  have hc1 : c < l.length - 1 := by omega
  rw [getElem_swapRemoveVec l i a h0 ha1 ha, getElem_swapRemoveVec l i c h0 hc1 hc] at hh hk
  by_cases hia : i = a <;> by_cases hic : i = c
  · omega
  · rw [if_pos hia, if_neg hic] at hh hk
    have := huniq (l.length - 1) (by omega) c (by omega) hh hk
    omega
  · rw [if_neg hia, if_pos hic] at hh hk
    have := huniq a (by omega) (l.length - 1) (by omega) hh hk
    omega
  · rw [if_neg hia, if_neg hic] at hh hk
    exact huniq a (by omega) c (by omega) hh hk

set_option maxHeartbeats 1000000 in
/-- Central removal lemma: under the invariant, erasing slot `i`'s index
entry (under its own hash) followed by `swap_remove_finish i` succeeds,
returns the bucket that lived at slot `i`, preserves the invariant, shrinks
both vectors by one, and keeps only buckets from other slots. -/
theorem remove_core {s : IndexedShard K V} (hs : Inv s) {i : Nat}
    (hi : i < s.entries.length) :
    ∃ s1, (IndexedShard.mk (tableErase s.indices s.entries[i].hash (fun idx => idx == i))
            s.entries).swap_remove_finish i
          = some ((s.entries[i].key, s.entries[i].value), s1)
      ∧ Inv s1
      ∧ s1.entries.length + 1 = s.entries.length
      ∧ s1.indices.length + 1 = s.indices.length
      ∧ (∀ b ∈ s1.entries, ∃ j, ∃ hj : j < s.entries.length, j ≠ i ∧ s.entries[j] = b) := by
  obtain ⟨hlen, hval, hcomp, hnd, huniq⟩ := hs
  have valid_getElem : ∀ p ∈ s.indices,
      ∃ h2 : p.2 < s.entries.length, s.entries[p.2].hash = p.1 := by
    intro p hp
    have hv := hval p hp
    cases hb : s.entries[p.2]? with
    | none => rw [hb] at hv; cases hv
    | some b =>
      have hlt : p.2 < s.entries.length := (List.getElem?_eq_some.mp hb).1
      have hbe : s.entries[p.2] = b := by
        have := List.getElem?_eq_getElem hlt
        rw [hb] at this; exact (Option.some.inj this).symm
      rw [hb] at hv
      exact ⟨hlt, by rw [hbe]; simpa using hv⟩
  have hnpos : 0 < s.entries.length := Nat.lt_of_le_of_lt (Nat.zero_le i) hi
  set ind1 := tableErase s.indices s.entries[i].hash (fun idx => idx == i) with hind1
  have hmem_hi : (s.entries[i].hash, i) ∈ s.indices := hcomp i hi
  have len1 : ind1.length + 1 = s.indices.length :=
    length_tableErase_of_match hmem_hi ⟨rfl, by simp⟩
  have self_out : (s.entries[i].hash, i) ∉ ind1 := not_mem_tableErase_self hnd hmem_hi
  have slot_ne : ∀ q ∈ ind1, q.2 ≠ i := by
    intro q hq h2
    have hq0 := mem_of_mem_tableErase hq
    obtain ⟨hlt, hh⟩ := valid_getElem q hq0
    obtain ⟨q1, q2⟩ := q
    have h2' : q2 = i := h2
    subst h2'
    have hh2 : s.entries[q2].hash = q1 := hh
    rw [← hh2] at hq
    exact self_out hq
  have keep : ∀ q ∈ s.indices, q.2 ≠ i → q ∈ ind1 := by
    intro q hq hne
    refine mem_tableErase_of_not_match hq ?_
    rintro ⟨-, h2⟩
    exact hne (by simpa using h2)
  have nd1 : (ind1.map (·.2)).Nodup := hnd.sublist ((tableErase_sublist ..).map _)
  have comp1 : ∀ j, (hj : j < s.entries.length) → j ≠ i → (s.entries[j].hash, j) ∈ ind1 :=
    fun j hj hne => keep _ (hcomp j hj) hne
  have len_e1 : (swapRemoveVec s.entries i).length = s.entries.length - 1 :=
    length_swapRemoveVec s.entries i hnpos
  have uniq1 := uniq_swapRemoveVec (i := i) hnpos huniq
  have memsrv := mem_swapRemoveVec (l := s.entries) i hnpos
  have hent : s.entries[i]? = some (s.entries[i]) := List.getElem?_eq_getElem hi
  have hlast : s.entries.length - 1 < s.entries.length := Nat.sub_lt hnpos Nat.one_pos
  rcases Nat.lt_or_ge i (s.entries.length - 1) with hilt | hige
  · -- Case B: the removed slot was not the last one; the index of the moved
    -- bucket is repaired from the old last slot to `i`.
    have hmoved : (swapRemoveVec s.entries i)[i]?
        = some (s.entries[s.entries.length - 1]) := by
      rw [getElem?_swapRemoveVec s.entries i i hnpos hilt, if_pos rfl]
    have hq_upd : ((s.entries[s.entries.length - 1]).hash,
          s.entries.length - 1).1
          = (s.entries[s.entries.length - 1]).hash
        ∧ (fun idx => idx == (swapRemoveVec s.entries i).length)
            ((s.entries[s.entries.length - 1]).hash,
              s.entries.length - 1).2 = true := by
      refine ⟨rfl, ?_⟩
      show ((s.entries.length - 1 : Nat) == (swapRemoveVec s.entries i).length) = true
      rw [len_e1]
      simp
    obtain ⟨ind2, hupd⟩ := tableUpdate_isSome
      (fun idx => idx == (swapRemoveVec s.entries i).length) i
      (comp1 (s.entries.length - 1) (Nat.sub_lt hnpos Nat.one_pos) (by omega)) hq_upd
    obtain ⟨l1, q0, l2, hdec1, hdec2, hq01, hq02⟩ := tableUpdate_spec hupd
    have hq02' : q0.2 = s.entries.length - 1 := by
      rw [len_e1] at hq02
      simpa using hq02
    have len2 : ind2.length = ind1.length := by
      rw [hdec1, hdec2]; simp
    have unchanged : ∀ q ∈ l1 ++ l2, q ∈ ind1 ∧ q.2 ≠ s.entries.length - 1 ∧ q.2 ≠ i := by
      intro q hq
      have hq_ind1 : q ∈ ind1 := hdec1 ▸ mem_middle_of_mem_append hq
      refine ⟨hq_ind1, ?_, slot_ne q hq_ind1⟩
      intro hq2
      have hnd_dec : ((l1 ++ q0 :: l2).map (·.2)).Nodup := hdec1 ▸ nd1
      rw [List.map_append, List.map_cons] at hnd_dec
      have h3 := not_mem_append_of_nodup_middle hnd_dec
      rw [← List.map_append] at h3
      exact h3 (hq02' ▸ hq2 ▸ List.mem_map.mpr ⟨q, hq, rfl⟩)
    refine ⟨⟨ind2, swapRemoveVec s.entries i⟩, ?_, ?_, ?_, ?_, ?_⟩
    · -- evaluate swap_remove_finish
      simp only [IndexedShard.swap_remove_finish, hent, hmoved, hupd]
    · -- the invariant for the new shard
      refine ⟨?_, ?_, ?_, ?_, ?_⟩
      · show ind2.length = (swapRemoveVec s.entries i).length
        rw [len2, len_e1]; omega
      · -- valid
        intro q hq
        have hq' : q ∈ ind2 := hq
        rw [hdec2] at hq'
        show ((swapRemoveVec s.entries i)[q.2]?).map (·.hash) = some q.1
        rcases eq_or_ne q (q0.1, i) with hqe | hqne
        · subst hqe
          rw [hmoved]
          simp only [Option.map_some']
          rw [hq01]
        · have hq2 : q ∈ l1 ++ l2 := mem_append_of_mem_middle hq' hqne
          obtain ⟨hq_ind1, hne_last, hne_i⟩ := unchanged q hq2
          obtain ⟨hlt, hh⟩ := valid_getElem q (mem_of_mem_tableErase hq_ind1)
          have hlt1 : q.2 < s.entries.length - 1 := by omega
          rw [getElem?_swapRemoveVec s.entries i q.2 hnpos hlt1,
            if_neg (fun h3 => hne_i h3.symm)]
          simp only [Option.map_some']
          rw [hh]
      · -- complete
        intro j hj
        have hj1 : j < (swapRemoveVec s.entries i).length := hj
        have hj2 : j < s.entries.length - 1 := by omega
        show (((swapRemoveVec s.entries i)[j]).hash, j) ∈ ind2
        rw [getElem_swapRemoveVec s.entries i j hnpos hj2 hj1]
        rcases eq_or_ne j i with hje | hne
        · rw [if_pos hje.symm, hdec2, ← hq01, hje]
          exact List.mem_append_right _ (List.mem_cons_self _ _)
        · rw [if_neg (fun h2 => hne h2.symm)]
          have hjs : j < s.entries.length := by omega
          have hj_mem0 : ((s.entries[j]).hash, j) ∈ ind1 := comp1 j hjs hne
          have hj_mem : ((s.entries[j]).hash, j) ∈ l1 ++ q0 :: l2 :=
            hdec1 ▸ hj_mem0
          have hneq0 : ((s.entries[j]).hash, j) ≠ q0 := by
            intro hqe
            have h4 : j = s.entries.length - 1 := by rw [← hq02', ← hqe]
            omega
          rw [hdec2]
          exact mem_middle_of_mem_append (mem_append_of_mem_middle hj_mem hneq0)
      · -- nodup
        show (ind2.map (·.2)).Nodup
        rw [hdec2, List.map_append, List.map_cons]
        have hnd_dec : ((l1 ++ q0 :: l2).map (·.2)).Nodup := hdec1 ▸ nd1
        rw [List.map_append, List.map_cons] at hnd_dec
        refine nodup_replace_middle hnd_dec ?_
        intro hmem
        have h5 : ∀ x ∈ (l1.map (·.2)) ++ q0.2 :: (l2.map (·.2)), x ≠ i := by
          intro x hx
          rw [← List.map_cons, ← List.map_append] at hx
          obtain ⟨q, hq, rfl⟩ := List.mem_map.mp hx
          exact slot_ne q (hdec1 ▸ hq)
        exact h5 i hmem rfl
      · -- key uniqueness: the entry vector after swap-remove keeps unique keys
        exact uniq1
    · show (swapRemoveVec s.entries i).length + 1 = s.entries.length
      rw [len_e1]; omega
    · show ind2.length + 1 = s.indices.length
      rw [len2]; omega
    · exact memsrv
  · -- Case A: the removed slot was the last one; no index repair is needed.
    have hnone : (swapRemoveVec s.entries i)[i]? = none := by
      apply List.getElem?_eq_none
      rw [len_e1]; omega
    refine ⟨⟨ind1, swapRemoveVec s.entries i⟩, ?_, ?_, ?_, ?_, ?_⟩
    · simp only [IndexedShard.swap_remove_finish, hent, hnone]
    · refine ⟨?_, ?_, ?_, nd1, ?_⟩
      · show ind1.length = (swapRemoveVec s.entries i).length
        rw [len_e1]; omega
      · intro q hq
        have hne := slot_ne q hq
        obtain ⟨hlt, hh⟩ := valid_getElem q (mem_of_mem_tableErase hq)
        have hlt1 : q.2 < s.entries.length - 1 := by omega
        show ((swapRemoveVec s.entries i)[q.2]?).map (·.hash) = some q.1
        rw [getElem?_swapRemoveVec s.entries i q.2 hnpos hlt1,
          if_neg (fun h3 => hne h3.symm)]
        simp only [Option.map_some']
        rw [hh]
      · intro j hj
        have hj1 : j < (swapRemoveVec s.entries i).length := hj
        have hj2 : j < s.entries.length - 1 := by omega
        show (((swapRemoveVec s.entries i)[j]).hash, j) ∈ ind1
        rw [getElem_swapRemoveVec s.entries i j hnpos hj2 hj1, if_neg (by omega)]
        exact comp1 j (by omega) (by omega)
      · exact uniq1
    · show (swapRemoveVec s.entries i).length + 1 = s.entries.length
      rw [len_e1]; omega
    · show ind1.length + 1 = s.indices.length
      exact len1
    · exact memsrv

/-! Specifications of the shard operations, derived from the core lemmas. -/

theorem Inv_empty : Inv (⟨[], []⟩ : IndexedShard K V) := by
  refine ⟨rfl, ?_, ?_, ?_, ?_⟩ <;> simp

theorem Inv_new : Inv (IndexedShard.new : IndexedShard K V) := Inv_empty

/-- Specification of `swap_remove_index_raw` on a valid slot. -/
theorem swap_remove_index_raw_spec {s : IndexedShard K V} (hs : Inv s) {i : Nat}
    (hi : i < s.entries.length) :
    ∃ s1, s.swap_remove_index_raw i = some ((s.entries[i].key, s.entries[i].value), s1)
      ∧ Inv s1
      ∧ s1.entries.length + 1 = s.entries.length
      ∧ s1.indices.length + 1 = s.indices.length
      ∧ (∀ b ∈ s1.entries, ∃ j, ∃ hj : j < s.entries.length, j ≠ i ∧ s.entries[j] = b) := by
  obtain ⟨s1, heq, rest⟩ := remove_core hs hi
  refine ⟨s1, ?_, rest⟩
  have hent : s.entries[i]? = some (s.entries[i]) := List.getElem?_eq_getElem hi
  simp only [IndexedShard.swap_remove_index_raw, hent]
  exact heq

/-- Specification of `swap_remove_full` when the key is absent. -/
theorem swap_remove_full_none {s : IndexedShard K V} (hs : Inv s) {h : Nat} {k : K}
    (habs : ¬ s.containsKey h k) :
    s.swap_remove_full h k = some (none, s) := by
  simp only [IndexedShard.swap_remove_full, (get_index_of_eq_none hs).mpr habs]

/-- Specification of `swap_remove_full` when the key is found at slot `i`. -/
theorem swap_remove_full_found {s : IndexedShard K V} (hs : Inv s) {h : Nat} {k : K} {i : Nat}
    (hf : s.get_index_of h k = some i) :
    ∃ hi : i < s.entries.length, ∃ s1,
      s.swap_remove_full h k = some (some (s.entries[i].key, s.entries[i].value), s1)
      ∧ Inv s1
      ∧ s1.entries.length + 1 = s.entries.length
      ∧ s1.indices.length + 1 = s.indices.length
      ∧ (∀ b ∈ s1.entries, ∃ j, ∃ hj : j < s.entries.length, j ≠ i ∧ s.entries[j] = b) := by
  obtain ⟨hlen, hval, hcomp, hnd, huniq⟩ := hs
  obtain ⟨hi, hh, hk⟩ := get_index_of_some hval hf
  obtain ⟨s1, heq, rest⟩ := remove_core ⟨hlen, hval, hcomp, hnd, huniq⟩ hi
  refine ⟨hi, s1, ?_, rest⟩
  simp only [IndexedShard.swap_remove_full, hf]
  rw [← hh]
  rw [heq]
  rfl

/-- Specification of `insert_full` on an absent key (the vacant path). -/
theorem insert_full_vacant {s : IndexedShard K V} (hs : Inv s) {h : Nat} {k : K} {v : V}
    (habs : ¬ s.containsKey h k) :
    s.insert_full h k v = ((s.entries.length, none), true, (s.push h k v).2)
      ∧ Inv (s.push h k v).2
      ∧ (s.push h k v).2.entries = s.entries ++ [⟨h, k, v⟩]
      ∧ (s.push h k v).2.len = s.len + 1 := by
  refine ⟨?_, Inv_push hs habs, rfl, ?_⟩
  · simp only [IndexedShard.insert_full, (get_index_of_eq_none hs).mpr habs]
    rfl
  · show (s.indices ++ [(h, s.entries.length)]).length = s.indices.length + 1
    simp

/-- Specification of `insert_full` on a resident key (in-place replacement). -/
theorem insert_full_found {s : IndexedShard K V} (hs : Inv s) {h : Nat} {k : K} {i : Nat}
    (hf : s.get_index_of h k = some i) (v : V) :
    ∃ hi : i < s.entries.length,
      s.insert_full h k v
        = ((i, some (s.entries[i].value)), false,
            ⟨s.indices, s.entries.set i ⟨s.entries[i].hash, s.entries[i].key, v⟩⟩)
      ∧ Inv (⟨s.indices, s.entries.set i ⟨s.entries[i].hash, s.entries[i].key, v⟩⟩
          : IndexedShard K V) := by
  obtain ⟨hlen, hval, hcomp, hnd, huniq⟩ := hs
  obtain ⟨hi, hh, hk⟩ := get_index_of_some hval hf
  have hent : s.entries[i]? = some (s.entries[i]) := List.getElem?_eq_getElem hi
  refine ⟨hi, ?_, Inv_setValue ⟨hlen, hval, hcomp, hnd, huniq⟩ hent⟩
  simp only [IndexedShard.insert_full, hf, hent]

/-- The singleton fast path of the evictor (`indices.clear()` plus
`entries.pop()`) leaves a shard satisfying the invariant. -/
theorem Inv_singleton_drain {s : IndexedShard K V} (hs : Inv s) (h1 : s.len = 1) :
    Inv (⟨[], s.entries.dropLast⟩ : IndexedShard K V) := by
  obtain ⟨hlen, -, -, -, -⟩ := hs
  have he : s.entries.dropLast = [] := by
    have : s.entries.dropLast.length = 0 := by
      rw [List.length_dropLast]
      rw [IndexedShard.len] at h1
      omega
    exact List.eq_nil_of_length_eq_zero this
  rw [he]
  exact Inv_empty

/-- Totality plus invariant preservation for the retain loop. -/
theorem retainGo_spec (f : K → V → Bool × V) :
    ∀ fuel i (s : IndexedShard K V), Inv s → s.len - i + 1 ≤ fuel →
      ∃ s1, IndexedShard.retainGo f fuel i s = some s1 ∧ Inv s1 ∧ s1.len ≤ s.len := by
  intro fuel
  induction fuel with
  | zero => intro i s hs hfuel; omega
  | succ fuel ih =>
    intro i s hs hfuel
    rw [IndexedShard.retainGo]
    by_cases hil : i < s.len
    · rw [if_pos hil]
      have hlen1 := hs.1
      have hi : i < s.entries.length := by
        rw [IndexedShard.len] at hil; omega
      have hent : s.entries[i]? = some (s.entries[i]) := List.getElem?_eq_getElem hi
      rw [hent]
      rcases hfv : f (s.entries[i]).key (s.entries[i]).value with ⟨keep, v1⟩
      simp only [hfv]
      have hInv1 : Inv (⟨s.indices,
          s.entries.set i ⟨(s.entries[i]).hash, (s.entries[i]).key, v1⟩⟩ : IndexedShard K V) :=
        Inv_setValue hs hent
      have hlen_s1 : (⟨s.indices,
          s.entries.set i ⟨(s.entries[i]).hash, (s.entries[i]).key, v1⟩⟩
            : IndexedShard K V).len = s.len := rfl
      cases keep with
      | true =>
        simp only [if_true]
        obtain ⟨s2, heq, hInv2, hle⟩ := ih (i + 1) _ hInv1 (by
          rw [hlen_s1]; omega)
        exact ⟨s2, heq, hInv2, by rw [hlen_s1] at hle; exact hle⟩
      | false =>
        simp only [Bool.false_eq_true, if_false]
        have hi1 : i < (s.entries.set i
            ⟨(s.entries[i]).hash, (s.entries[i]).key, v1⟩).length := by
          rw [List.length_set]; exact hi
        have hhash1 : ((s.entries.set i
            ⟨(s.entries[i]).hash, (s.entries[i]).key, v1⟩)[i]).hash
              = (s.entries[i]).hash := by
          rw [List.getElem_set, if_pos rfl]
        obtain ⟨s2, heq, hInv2, hle2, hli2, -⟩ := remove_core hInv1 hi1
        rw [hhash1] at heq
        rw [heq]
        have hlen2 : s2.len + 1 = s.len := by
          rw [IndexedShard.len, IndexedShard.len]
          have : (⟨s.indices, s.entries.set i
              ⟨(s.entries[i]).hash, (s.entries[i]).key, v1⟩⟩
                : IndexedShard K V).indices.length = s.indices.length := rfl
          omega
        obtain ⟨s3, heq3, hInv3, hle3⟩ := ih i s2 hInv2 (by omega)
        exact ⟨s3, heq3, hInv3, by omega⟩
    · rw [if_neg hil]
      exact ⟨s, rfl, hs, Nat.le_refl _⟩

/-- Totality plus invariant preservation for `IndexedShard::retain`. -/
theorem retain_spec (f : K → V → Bool × V) (s : IndexedShard K V) (hs : Inv s) :
    ∃ s1, s.retain f = some s1 ∧ Inv s1 ∧ s1.len ≤ s.len :=
  retainGo_spec f (s.len + 1) 0 s hs (by omega)

/-! The LRU cache (src/lru/mod.rs).  Each shard is paired with its cached
length (the `AtomicUsize` stored beside it); `size` is the global counter. -/

/-- Model of `LruCache<K, V>`. -/
structure LruCache (K V : Type) where
  shards : List (IndexedShard K (TSValue V) × Nat)
  size : Nat
deriving Repr, DecidableEq

namespace LruCache

/-- Model of `LruCache::with_hasher` / `LruCache::new` (the hasher itself is
external and passed to each keyed operation as `hf`). -/
def with_hasher (num_shards : Nat) : LruCache K V :=
  ⟨List.replicate num_shards (IndexedShard.new, 0), 0⟩

/-- Model of `LruCache::num_shards`. -/
def num_shards (c : LruCache K V) : Nat := c.shards.length

/-- The shard at index `j` (callers establish `j < num_shards`; `getD` keeps
the accessor total). -/
def shardAt (c : LruCache K V) (j : Nat) : IndexedShard K (TSValue V) :=
  (c.shards.getD j (IndexedShard.new, 0)).1

/-- The cached length beside shard `j`. -/
def cachedAt (c : LruCache K V) (j : Nat) : Nat :=
  (c.shards.getD j (IndexedShard.new, 0)).2

/-- Model of `LruCache::hash_and_shard`; `none` models the
division-by-zero panic of `hash as usize % self.shards.len()` when the
cache was built with zero shards. -/
def hash_and_shard (hf : K → Nat) (c : LruCache K V) (k : K) : Option (Nat × Nat) :=
  if c.shards.length = 0 then none
  else some (hf k, hf k % c.shards.length)

/-- Model of `LruCache::insert`. -/
def insert (hf : K → Nat) (c : LruCache K V) (k : K) (v : V) (now : Nat) :
    Option (Option V × LruCache K V) :=
  match hash_and_shard hf c k with
  | none => none
  | some (h, j) =>
    let p := c.shards.getD j (IndexedShard.new, 0)
    let r := p.1.insert_full h k ⟨v, now⟩
    let newCached := if r.2.1 then p.2 + 1 else p.2
    let newSize := if r.2.1 then c.size + 1 else c.size
    some (r.1.2.map (·.value), ⟨c.shards.set j (r.2.2, newCached), newSize⟩)

/-- Model of `LruCache::remove`: on a hit the global size is decremented and
the cached shard length is overwritten with the exact new length. -/
def remove (hf : K → Nat) (c : LruCache K V) (k : K) :
    Option (Option V × LruCache K V) :=
  match hash_and_shard hf c k with
  | none => none
  | some (h, j) =>
    let p := c.shards.getD j (IndexedShard.new, 0)
    match p.1.swap_remove_full h k with
    | none => none
    | some (none, _) => some (none, c)
    | some (some (_, tv), s1) =>
      some (some tv.value, ⟨c.shards.set j (s1, s1.len), c.size - 1⟩)

/-- Shared lookup of `get_raw` / `peek` / `get` (the read path before any
timestamp refresh): the projected value, or `some none` on a miss. -/
def getValue? (hf : K → Nat) (c : LruCache K V) (k : K) : Option (Option V) :=
  match hash_and_shard hf c k with
  | none => none
  | some (h, j) => some (((c.shards.getD j (IndexedShard.new, 0)).1.get h k).map (·.value))

/-- Model of `LruCache::get`: the read path plus the in-place atomic
timestamp refresh (`tv.timestamp.update()` under the read lock). -/
def get (hf : K → Nat) (c : LruCache K V) (k : K) (now : Nat) :
    Option (Option V × LruCache K V) :=
  match hash_and_shard hf c k with
  | none => none
  | some (h, j) =>
    let s := (c.shards.getD j (IndexedShard.new, 0)).1
    match s.get_index_of h k with
    | none => some (none, c)
    | some i =>
      match s.entries[i]? with
      | none => none
      | some b =>
        let s1 : IndexedShard K (TSValue V) :=
          ⟨s.indices, s.entries.set i ⟨b.hash, b.key, ⟨b.value.value, now⟩⟩⟩
        some (some b.value.value,
          ⟨c.shards.set j (s1, (c.shards.getD j (IndexedShard.new, 0)).2), c.size⟩)

/-- Model of `LruCache::clear`: each shard is emptied and the global size is
reduced by that shard's length; the cached per-shard length is NOT reset. -/
def clear (c : LruCache K V) : LruCache K V :=
  ⟨c.shards.map (fun p => (IndexedShard.clear p.1, p.2)),
    c.size - (c.shards.map (fun p => p.1.len)).sum⟩

/-- Fold of `LruCache::retain` over the shard vector; returns the new shards
and the total number of removed entries. -/
def retainShards (f : K → V → Bool × V) :
    List (IndexedShard K (TSValue V) × Nat) →
      Option (List (IndexedShard K (TSValue V) × Nat) × Nat)
  | [] => some ([], 0)
  | p :: rest =>
    match p.1.retain (fun k tv =>
        let r := f k tv.value
        (r.1, ⟨r.2, tv.timestamp⟩)) with
    | none => none
    | some s1 =>
      (retainShards f rest).map fun rs => ((s1, p.2) :: rs.1, rs.2 + (p.1.len - s1.len))

/-- Model of `LruCache::retain` (the predicate receives `&mut V`, modelled by
returning the replacement value; the cached per-shard length is untouched). -/
def retain (f : K → V → Bool × V) (c : LruCache K V) : Option (LruCache K V) :=
  (retainShards f c.shards).map fun rs => ⟨rs.1, c.size - rs.2⟩

/-- Model of `LruCache::duplicate`: clone every shard under its read lock,
set each new cached length to the clone's length and accumulate the size. -/
def duplicate (c : LruCache K V) : LruCache K V :=
  ⟨c.shards.map (fun p => (p.1.clone, p.1.clone.len)),
    (c.shards.map (fun p => p.1.clone.len)).sum⟩

/-- Model of `LruCache::non_empty_shards` (by shard index): the shards whose
cached length is non-zero, in shard order. -/
def non_empty_shards (c : LruCache K V) : List Nat :=
  (List.range c.shards.length).filter (fun j => c.cachedAt j != 0)

end LruCache

/-- Core well-formedness of a quiescent cache: every shard satisfies the
`IndexedShard` invariant, the global size counter equals the sum of the true
shard lengths, and every cached per-shard length dominates the true length. -/
def WFcore (c : LruCache K V) : Prop :=
  (∀ p ∈ c.shards, Inv p.1)
  ∧ c.size = (c.shards.map (fun p => p.1.entries.length)).sum
  ∧ (∀ p ∈ c.shards, p.1.len ≤ p.2)

instance (c : LruCache K V) : Decidable (WFcore c) := by
  unfold WFcore; infer_instance

/-- Placement: every resident bucket carries the hash of its own key and
lives in the shard selected by `hash % num_shards`. -/
def Placed (hf : K → Nat) (c : LruCache K V) : Prop :=
  ∀ j, (hj : j < c.shards.length) → ∀ b ∈ (c.shards[j]).1.entries,
    b.hash = hf b.key ∧ j = b.hash % c.shards.length

instance (hf : K → Nat) (c : LruCache K V) : Decidable (Placed hf c) := by
  unfold Placed; infer_instance

/-- Full well-formedness of a quiescent cache. -/
def CacheWF (hf : K → Nat) (c : LruCache K V) : Prop := WFcore c ∧ Placed hf c

instance (hf : K → Nat) (c : LruCache K V) : Decidable (CacheWF hf c) := by
  unfold CacheWF; infer_instance

/-- The key is resident in no shard of the cache. -/
def NotIn (hf : K → Nat) (c : LruCache K V) (k : K) : Prop :=
  ∀ p ∈ c.shards, ¬ p.1.containsKey (hf k) k

instance (hf : K → Nat) (c : LruCache K V) (k : K) : Decidable (NotIn hf c k) := by
  unfold NotIn; infer_instance

/-! Random sampling machinery (src/lru/mod.rs). -/

/-- Rejection loop of `pick_indices` drawing the second index until it
differs from the first; `none` models fuel exhaustion (the real generator
terminates with probability 1). -/
def pickSecond (ρ : Nat → Nat) (len idxA : Nat) : Nat → Nat → Option (Nat × Nat)
  | 0, _ => none
  | fuel + 1, ctr =>
    let idxB := ρ ctr % len
    if idxB ≠ idxA then some (idxB, ctr + 1)
    else pickSecond ρ len idxA fuel (ctr + 1)

/-- Model of `pick_indices`: two slot indices from `[0, len)`; for `len == 1`
they coincide, for `len == 2` they are `(0, 1)` deterministically; `none`
models the `len == 0` panic (and rejection-loop fuel exhaustion). -/
def pick_indices (ρ : Nat → Nat) (pf : Nat) (len : Nat) (ctr : Nat) :
    Option ((Nat × Nat) × Nat) :=
  match len with
  | 0 => none
  | 1 => some ((0, 0), ctr)
  | 2 => some ((0, 1), ctr)
  | _ =>
    let idxA := ρ ctr % len
    (pickSecond ρ len idxA pf (ctr + 1)).map fun r => ((idxA, r.1), r.2)

/-- The two-choice victim rule shared by every sampling site of `evict` and
`evict_many_fast`: present index `a` when its timestamp `is_before` the
other's, otherwise index `b`. -/
def twoChoice (tsA tsB : Nat) (a b : Nat) : Nat :=
  if is_before tsA tsB then a else b

/-- Swap two positions of a list (no-op when either index is out of range),
the building block of the Fisher-Yates shuffle. -/
def listSwap {α : Type} (l : List α) (i j : Nat) : List α :=
  match l[i]?, l[j]? with
  | some x, some y => (l.set i y).set j x
  | _, _ => l

/-- Fisher-Yates loop of `rand::seq::SliceRandom::shuffle`: for `i` from
`len - 1` down to `1`, swap position `i` with `gen_range(0..=i)`. -/
def shuffleGo {α : Type} (ρ : Nat → Nat) : Nat → List α → Nat → List α × Nat
  | 0, l, ctr => (l, ctr)
  | i + 1, l, ctr => shuffleGo ρ i (listSwap l (i + 1) (ρ ctr % (i + 2))) (ctr + 1)

/-- Model of `non_empty.shuffle(&mut rng)`. -/
def shuffleList {α : Type} (ρ : Nat → Nat) (l : List α) (ctr : Nat) : List α × Nat :=
  shuffleGo ρ (l.length - 1) l ctr

/-- Model of the `Evict` predicate verdict; `NoneE` stands for
`Evict::None`. -/
inductive Evict where
  | Continue
  | Once
  | NoneE
deriving Repr, DecidableEq

/-- Adequacy of the abstract random stream: two consecutive draws reduced by
the same modulus `len ≥ 3` differ, so the rejection loop of `pick_indices`
succeeds on its first try (a real generator does so with probability 1). -/
def RngSep (ρ : Nat → Nat) : Prop :=
  ∀ i len, 3 ≤ len → ρ (i + 1) % len ≠ ρ i % len

/-! The eviction engine (src/lru/mod.rs `LruCache::evict`). -/

/-- Exit reason of the `'evict` loop (instrumentation of the model: the
projection that forgets it recovers the source behaviour). -/
inductive ExitReason where
  | predStop
  | sizeZero
deriving Repr, DecidableEq

/-- Running state of the eviction loops: the cache, the rng draw counter,
the accumulated evicted pairs, and the predicate's own state (the predicate
`FnMut(&K, &mut V) -> Evict` is modelled as `σ → K → V → Evict × V × σ`:
verdict, replacement value, next closure state). -/
structure EState (K V σ : Type) where
  cache : LruCache K V
  ctr : Nat
  evicted : List (K × V)
  pstate : σ

variable {σ : Type}

/-- Model of `pop_shard!()`: pop candidate shards from the back of the
shuffled stack until one is (under its lock) actually non-empty. -/
def popShard (c : LruCache K V) (ne : List Nat) : Option (Nat × List Nat) :=
  match h : ne.getLast? with
  | none => none
  | some j =>
    if 0 < (c.shardAt j).len then some (j, ne.dropLast)
    else popShard c ne.dropLast
termination_by ne.length
decreasing_by
  have hne : ne ≠ [] := by intro he; subst he; simp at h
  have : 0 < ne.length := List.length_pos.mpr hne
  simp [List.length_dropLast]
  omega

/-- One predicate test plus (on `Continue` / `Once`) the eviction of the
presented entry at slot `idx` of shard `j`: the shared tail of the
single-shard and two-shard sampling steps of `evict`. -/
def predEvictStep (P : σ → K → V → Evict × V × σ) (st : EState K V σ) (j idx : Nat) :
    Option (Evict × EState K V σ) :=
  let s := st.cache.shardAt j
  match s.entries[idx]? with
  | none => none
  | some b =>
    let r := P st.pstate b.key b.value.value
    let s1 : IndexedShard K (TSValue V) :=
      ⟨s.indices, s.entries.set idx ⟨b.hash, b.key, ⟨r.2.1, b.value.timestamp⟩⟩⟩
    match r.1 with
    | Evict.NoneE =>
      some (Evict.NoneE,
        { cache := ⟨st.cache.shards.set j (s1, st.cache.cachedAt j), st.cache.size⟩,
          ctr := st.ctr, evicted := st.evicted, pstate := r.2.2 })
    | res =>
      match s1.swap_remove_index_raw idx with
      | none => none
      | some ((k0, tv), s2) =>
        some (res,
          { cache := ⟨st.cache.shards.set j (s2, st.cache.cachedAt j), st.cache.size - 1⟩,
            ctr := st.ctr, evicted := st.evicted ++ [(k0, tv.value)], pstate := r.2.2 })

/-- Timestamp of the entry at position `r` of the combined population of the
two locked shards (`[0, len_a)` addresses shard `ja`, the rest shard `jb`). -/
def tsAtRange (c : LruCache K V) (ja jb la r : Nat) : Option Nat :=
  if r < la then ((c.shardAt ja).entries[r]?).map (·.value.timestamp)
  else ((c.shardAt jb).entries[r - la]?).map (·.value.timestamp)

/-- Model of the `'walk` loop of `LruCache::evict` (one locked shard `ja` in
hand, walking A → B → C …).  The returned flag is `true` for `break 'evict`
(the predicate returned `Once` or `None`) and `false` for `continue 'evict`
(the candidate stack was exhausted). -/
def walkLoop (P : σ → K → V → Evict × V × σ) (ρ : Nat → Nat) (pf : Nat) :
    Nat → EState K V σ → List Nat → Nat → Option (EState K V σ × Bool)
  | 0, _, _, _ => none
  | fuel + 1, st, ne, ja =>
    match popShard st.cache ne with
    | none =>
      -- single-shard case
      let s := st.cache.shardAt ja
      match s.len with
      | 1 =>
        -- sole-entry fast path: clear the indices and pop the entry
        match s.entries[0]? with
        | none => none
        | some b =>
          let r := P st.pstate b.key b.value.value
          let ent1 := s.entries.set 0 ⟨b.hash, b.key, ⟨r.2.1, b.value.timestamp⟩⟩
          match r.1 with
          | Evict.NoneE =>
            let c1 : LruCache K V :=
              ⟨st.cache.shards.set ja (⟨s.indices, ent1⟩, st.cache.cachedAt ja),
                st.cache.size⟩
            some ({ st with cache := c1, pstate := r.2.2 }, true)
          | res =>
            match ent1.getLast? with
            | none => none
            | some lastb =>
              let c1 : LruCache K V :=
                ⟨st.cache.shards.set ja (⟨[], ent1.dropLast⟩, st.cache.cachedAt ja),
                  st.cache.size - 1⟩
              some ({ cache := c1, ctr := st.ctr,
                      evicted := st.evicted ++ [(lastb.key, lastb.value.value)],
                      pstate := r.2.2 }, res == Evict.Once)
      | len =>
        match pick_indices ρ pf len st.ctr with
        | none => none
        | some ((ia, ib), ctr1) =>
          match ((st.cache.shardAt ja).entries[ia]?).map (·.value.timestamp),
              ((st.cache.shardAt ja).entries[ib]?).map (·.value.timestamp) with
          | some tsA, some tsB =>
            match predEvictStep P { st with ctr := ctr1 } ja (twoChoice tsA tsB ia ib) with
            | none => none
            | some (res, st1) =>
              some (st1, res == Evict.Once || res == Evict.NoneE)
          | _, _ => none
    | some (jb, ne1) =>
      -- two-shard case
      let la := (st.cache.shardAt ja).len
      let lb := (st.cache.shardAt jb).len
      match pick_indices ρ pf (la + lb) st.ctr with
      | none => none
      | some ((ra, rb), ctr1) =>
        match tsAtRange st.cache ja jb la ra, tsAtRange st.cache ja jb la rb with
        | some tsA, some tsB =>
          let rIdx := twoChoice tsA tsB ra rb
          let tgt := if rIdx < la then (ja, rIdx) else (jb, rIdx - la)
          match predEvictStep P { st with ctr := ctr1 } tgt.1 tgt.2 with
          | none => none
          | some (res, st1) =>
            if res == Evict.NoneE || res == Evict.Once then some (st1, true)
            else
              if (st1.cache.shardAt jb).len = 0 then
                match popShard st1.cache ne1 with
                | some (ja2, ne2) => walkLoop P ρ pf fuel st1 ne2 ja2
                | none => some (st1, false)
              else walkLoop P ρ pf fuel st1 ne1 jb
        | _, _ => none

/-- Model of the outer `'evict` loop (`while self.size() > 0`): refresh the
non-empty snapshot, shuffle it, pop a first shard, run the walk. -/
def evictLoop (P : σ → K → V → Evict × V × σ) (ρ : Nat → Nat) (pf : Nat) :
    Nat → EState K V σ → Option (EState K V σ × ExitReason)
  | 0, _ => none
  | fuel + 1, st =>
    if st.cache.size = 0 then some (st, ExitReason.sizeZero)
    else
      let sh := shuffleList ρ st.cache.non_empty_shards st.ctr
      match popShard st.cache sh.1 with
      | none => evictLoop P ρ pf fuel { st with ctr := sh.2 }
      | some (ja, ne1) =>
        match walkLoop P ρ pf (ne1.length + 1) { st with ctr := sh.2 } ne1 ja with
        | none => none
        | some (st1, true) => some (st1, ExitReason.predStop)
        | some (st1, false) => evictLoop P ρ pf fuel st1

/-- Model of `LruCache::evict` (with the exit-reason instrumentation). -/
def LruCache.evict (c : LruCache K V) (P : σ → K → V → Evict × V × σ) (σ0 : σ)
    (ρ : Nat → Nat) (pf ofuel : Nat) :
    Option (List (K × V) × LruCache K V × ExitReason) :=
  (evictLoop P ρ pf ofuel ⟨c, 0, [], σ0⟩).map fun r => (r.1.evicted, r.1.cache, r.2)

/-- The counting predicate of `LruCache::evict_many`
(`cur -= 1; match cur { 0 => Once, _ => Continue }`). -/
def countPred : Nat → K → V → Evict × V × Nat :=
  fun cur _ v => (if cur - 1 = 0 then Evict.Once else Evict.Continue, v, cur - 1)

/-- Model of `LruCache::evict_many`. -/
def LruCache.evict_many (c : LruCache K V) (count0 : Nat) (ρ : Nat → Nat) (pf ofuel : Nat) :
    Option (List (K × V) × LruCache K V) :=
  let count := min count0 c.size
  if count = 0 then some ([], c)
  else
    (evictLoop countPred ρ pf ofuel ⟨c, 0, [], count⟩).map fun r => (r.1.evicted, r.1.cache)

/-! Fast bulk eviction (src/lru/mod.rs `LruCache::evict_many_fast`). -/

/-- Model of `proportion_of` (the `u128` arithmetic is exact over `Nat`). -/
def proportion_of (size len count : Nat) : Nat := count * len / size + 1

/-- Trace entry of `evict_many_fast` (instrumentation): the visited shard,
its locked length, the accumulated pre-clamp sum, and the final per-shard
`sub_count`. -/
structure FastStep where
  shard : Nat
  len : Nat
  sum : Nat
  sub : Nat
deriving Repr, DecidableEq

/-- The sampled inner loop of `evict_many_fast`: `sub` two-choice samples
inside the single locked shard `j`, each evicting the older of two drawn
entries. -/
def fastSample (ρ : Nat → Nat) (pf : Nat) (j : Nat) :
    Nat → LruCache K V → Nat → List (K × V) → Option (LruCache K V × Nat × List (K × V))
  | 0, c, ctr, ev => some (c, ctr, ev)
  | sub + 1, c, ctr, ev =>
    let s := c.shardAt j
    match pick_indices ρ pf s.len ctr with
    | none => none
    | some ((ia, ib), ctr1) =>
      match (s.entries[ia]?).map (·.value.timestamp),
          (s.entries[ib]?).map (·.value.timestamp) with
      | some tsA, some tsB =>
        match s.swap_remove_index_raw (twoChoice tsA tsB ia ib) with
        | none => none
        | some ((k0, tv), s1) =>
          fastSample ρ pf j sub ⟨c.shards.set j (s1, c.cachedAt j), c.size - 1⟩ ctr1
            (ev ++ [(k0, tv.value)])
      | _, _ => none

/-- The per-shard loop of `evict_many_fast`: quota computation, the trailing
clamp `sub_count = sum - count - 1` once the accumulated sum exceeds
`count`, the bulk-drain fast path when the quota covers the whole shard, and
the `break` after the clamping shard. -/
def fastGo (ρ : Nat → Nat) (pf size count : Nat) :
    List Nat → LruCache K V → Nat → Nat → List (K × V) → List FastStep →
      Option (List (K × V) × LruCache K V × List FastStep)
  | [], c, _, _, ev, tr => some (ev, c, tr)
  | j :: rest, c, ctr, sum, ev, tr =>
    let s := c.shardAt j
    if s.len = 0 then fastGo ρ pf size count rest c ctr sum ev tr
    else
      let p := proportion_of size s.len count
      let sum1 := sum + p
      let sub := if sum1 > count then sum1 - count - 1 else p
      let tr1 := tr ++ [⟨j, s.len, sum1, sub⟩]
      if sub = s.len then
        let ev1 := ev ++ s.entries.map (fun b => (b.key, b.value.value))
        let c1 : LruCache K V := ⟨c.shards.set j (⟨[], []⟩, c.cachedAt j), c.size - sub⟩
        if sum1 > count then some (ev1, c1, tr1)
        else fastGo ρ pf size count rest c1 ctr sum1 ev1 tr1
      else
        match fastSample ρ pf j sub c ctr ev with
        | none => none
        | some (c1, ctr1, ev1) =>
          if sum1 > count then some (ev1, c1, tr1)
          else fastGo ρ pf size count rest c1 ctr1 sum1 ev1 tr1

/-- Model of `LruCache::evict_many_fast` (with trace instrumentation; the
projection to the first two components recovers the source behaviour). -/
def LruCache.evict_many_fast (c : LruCache K V) (count0 : Nat) (ρ : Nat → Nat) (pf : Nat) :
    Option (List (K × V) × LruCache K V × List FastStep) :=
  let count := min count0 c.size
  if count = 0 then some ([], c, [])
  else
    let sh := shuffleList ρ c.non_empty_shards 0
    fastGo ρ pf c.size count sh.1 c sh.2 0 [] []

/-! The plain sharded map (src/lib.rs `CHashMap`). -/

/-- Model of `CHashMap<K, T>`: each shard is a hashbrown `HashMap` modelled
as an association list; every resident entry was inserted under hash
`hf key`. -/
structure CHashMap (K V : Type) where
  shards : List (List (K × V))
  size : Nat
deriving Repr, DecidableEq

namespace CHashMap

/-- Model of `CHashMap::with_hasher` / `CHashMap::new`. -/
def with_hasher (num_shards : Nat) : CHashMap K V :=
  ⟨List.replicate num_shards [], 0⟩

/-- Model of `CHashMap::num_shards`. -/
def num_shards (c : CHashMap K V) : Nat := c.shards.length

/-- The shard at index `j`. -/
def shardAt (c : CHashMap K V) (j : Nat) : List (K × V) := c.shards.getD j []

/-- Model of `CHashMap::hash_and_shard`; `none` models the division-by-zero
panic for a zero-shard map. -/
def hash_and_shard (hf : K → Nat) (c : CHashMap K V) (k : K) : Option (Nat × Nat) :=
  if c.shards.length = 0 then none
  else some (hf k, hf k % c.shards.length)

/-- Model of `raw_entry().from_key_hashed_nocheck(hash, key)`: probe by the
precomputed hash, resolve by key equality.  Every stored entry's hash is
`hf key`, so inside the correct shard this is exactly a key-equality scan. -/
def shardLookup (sh : List (K × V)) (k : K) : Option (K × V) :=
  sh.find? (fun p => p.1 == k)

/-- Model of `CHashMap::contains_hash`:
`raw_entry().from_hash(hash, |_| true)` — a hash-only probe, no key
equality. -/
def contains_hash (hf : K → Nat) (c : CHashMap K V) (h : Nat) : Option Bool :=
  if c.shards.length = 0 then none
  else some ((c.shardAt (h % c.shards.length)).any (fun p => hf p.1 == h))

/-- Model of `CHashMap::contains`: hashes the key and delegates to
`contains_hash` (no key-equality check). -/
def contains (hf : K → Nat) (c : CHashMap K V) (k : K) : Option Bool :=
  match hash_and_shard hf c k with
  | none => none
  | some (h, _) => contains_hash hf c h

/-- Model of the lookup shared by `CHashMap::get` / `get_cloned`. -/
def get (hf : K → Nat) (c : CHashMap K V) (k : K) : Option (Option V) :=
  match hash_and_shard hf c k with
  | none => none
  | some (_, j) => some ((shardLookup (c.shardAt j) k).map (·.2))

/-- In-place replacement of the first entry with key `k`
(`occupied.insert(value)`). -/
def shardReplace (sh : List (K × V)) (k : K) (v : V) : List (K × V) :=
  match sh with
  | [] => []
  | p :: rest => if p.1 == k then (p.1, v) :: rest else p :: shardReplace rest k v

/-- Model of `CHashMap::insert`. -/
def insert (hf : K → Nat) (c : CHashMap K V) (k : K) (v : V) :
    Option (Option V × CHashMap K V) :=
  match hash_and_shard hf c k with
  | none => none
  | some (_, j) =>
    let sh := c.shardAt j
    match shardLookup sh k with
    | some p => some (some p.2, ⟨c.shards.set j (shardReplace sh k v), c.size⟩)
    | none => some (none, ⟨c.shards.set j (sh ++ [(k, v)]), c.size + 1⟩)

/-- Model of `CHashMap::remove`. -/
def remove (hf : K → Nat) (c : CHashMap K V) (k : K) :
    Option (Option V × CHashMap K V) :=
  match hash_and_shard hf c k with
  | none => none
  | some (_, j) =>
    let sh := c.shardAt j
    match shardLookup sh k with
    | some p =>
      some (some p.2, ⟨c.shards.set j (sh.eraseP (fun q => q.1 == k)), c.size - 1⟩)
    | none => some (none, c)

end CHashMap

/-- Insertion step of the (stable) insertion sort modelling
`sort_unstable_by_key(|(_, _, shard)| *shard)` — the caller never observes
the order among keys of one shard, so any order respecting the shard key is
a faithful refinement. -/
def sortIns (x : K × Nat × Nat) : List (K × Nat × Nat) → List (K × Nat × Nat)
  | [] => [x]
  | y :: ys => if x.2.2 ≤ y.2.2 then x :: y :: ys else y :: sortIns x ys

/-- Sort of the scratch vector by shard index. -/
def sortByShard (l : List (K × Nat × Nat)) : List (K × Nat × Nat) :=
  l.foldr sortIns []

/-- The grouped walk of `batch_read`: lock the shard of the leading item
once (recorded in the lock trace), invoke the callback for every key of that
contiguous run, continue with the remainder.  Returns the callback
invocations and the lock trace. -/
def batchGo (c : CHashMap K V) : Nat → List (K × Nat × Nat) →
    Option (List (K × Option (K × V)) × List Nat)
  | 0, _ => none
  | _, [] => some ([], [])
  | fuel + 1, it :: rest =>
    let j := it.2.2
    let grp := it :: rest.takeWhile (fun q => q.2.2 == j)
    let rest1 := rest.dropWhile (fun q => q.2.2 == j)
    (batchGo c fuel rest1).map fun r =>
      (grp.map (fun q => (q.1, CHashMap.shardLookup (c.shardAt j) q.1)) ++ r.1, j :: r.2)

/-- Model of `CHashMap::batch_read`: materialise `(key, hash, shard)`, sort
by shard, walk the runs acquiring each run's shard lock once.  An empty key
list returns before touching any shard; a non-empty list on a zero-shard map
panics inside `hash_and_shard`. -/
def CHashMap.batch_read (hf : K → Nat) (c : CHashMap K V) (keys : List K) :
    Option (List (K × Option (K × V)) × List Nat) :=
  match keys with
  | [] => some ([], [])
  | _ =>
    if c.shards.length = 0 then none
    else
      let items := keys.map fun k => (k, hf k, hf k % c.shards.length)
      batchGo c (items.length + 1) (sortByShard items)

/-! Lemmas about the sampling machinery. -/

theorem pickSecond_spec {ρ : Nat → Nat} {len idxA : Nat} :
    ∀ {fuel ctr idxB ctr1 : Nat}, pickSecond ρ len idxA fuel ctr = some (idxB, ctr1) →
      0 < len → idxB < len ∧ idxB ≠ idxA := by
  intro fuel
  induction fuel with
  | zero => intro ctr idxB ctr1 h; cases h
  | succ fuel ih =>
    intro ctr idxB ctr1 h hpos
    rw [pickSecond] at h
    split at h
    next hne =>
      have h2 : ρ ctr % len = idxB ∧ ctr + 1 = ctr1 := by
        have := Option.some.inj h
        exact ⟨congrArg Prod.fst this, congrArg Prod.snd this⟩
      rw [← h2.1]
      exact ⟨Nat.mod_lt _ hpos, hne⟩
    next => exact ih h hpos

theorem pick_indices_spec {ρ : Nat → Nat} {pf len ctr a b ctr1 : Nat}
    (h : pick_indices ρ pf len ctr = some ((a, b), ctr1)) :
    a < len ∧ b < len ∧ (2 ≤ len → a ≠ b) ∧ (len = 1 → a = 0 ∧ b = 0) := by
  rcases len with - | - | - | n
  · cases h
  · have h2 := Option.some.inj h
    have ha : a = 0 := (congrArg (fun p => p.1.1) h2).symm
    have hb : b = 0 := (congrArg (fun p => p.1.2) h2).symm
    subst ha; subst hb
    refine ⟨Nat.zero_lt_one, Nat.zero_lt_one, by omega, fun _ => ⟨rfl, rfl⟩⟩
  · have h2 := Option.some.inj h
    have ha : a = 0 := (congrArg (fun p => p.1.1) h2).symm
    have hb : b = 1 := (congrArg (fun p => p.1.2) h2).symm
    subst ha; subst hb
    refine ⟨by omega, by omega, fun _ => by omega, by omega⟩
  · rw [show pick_indices ρ pf (n + 3) ctr
        = (pickSecond ρ (n + 3) (ρ ctr % (n + 3)) pf (ctr + 1)).map
            (fun r => ((ρ ctr % (n + 3), r.1), r.2)) from rfl] at h
    cases hps : pickSecond ρ (n + 3) (ρ ctr % (n + 3)) pf (ctr + 1) with
    | none => rw [hps] at h; cases h
    | some r =>
      rw [hps] at h
      have h2 := Option.some.inj h
      have ha : a = ρ ctr % (n + 3) := (congrArg (fun p => p.1.1) h2).symm
      have hb : b = r.1 := (congrArg (fun p => p.1.2) h2).symm
      obtain ⟨hlt, hne⟩ := pickSecond_spec
        (show pickSecond ρ (n + 3) (ρ ctr % (n + 3)) pf (ctr + 1) = some (r.1, r.2) by
          rw [hps]) (by omega)
      subst ha; subst hb
      exact ⟨Nat.mod_lt _ (by omega), hlt, fun _ => fun he => hne he.symm, by omega⟩

theorem pick_indices_total {ρ : Nat → Nat} (hsep : RngSep ρ) {pf : Nat} (hpf : 1 ≤ pf)
    {len : Nat} (hlen : 1 ≤ len) (ctr : Nat) :
    ∃ a b ctr1, pick_indices ρ pf len ctr = some ((a, b), ctr1) := by
  rcases len with - | - | - | n
  · omega
  · exact ⟨0, 0, ctr, rfl⟩
  · exact ⟨0, 1, ctr, rfl⟩
  · obtain ⟨pf1, rfl⟩ : ∃ m, pf = m + 1 := ⟨pf - 1, by omega⟩
    have hne := hsep ctr (n + 3) (by omega)
    refine ⟨ρ ctr % (n + 3), ρ (ctr + 1) % (n + 3), ctr + 2, ?_⟩
    rw [show pick_indices ρ (pf1 + 1) (n + 3) ctr
        = (pickSecond ρ (n + 3) (ρ ctr % (n + 3)) (pf1 + 1) (ctr + 1)).map
            (fun r => ((ρ ctr % (n + 3), r.1), r.2)) from rfl]
    rw [pickSecond]
    rw [if_pos hne]
    rfl

/-! Generic list utilities for the cache-level proofs. -/

theorem le_sum_map {α : Type} {l : List α} (f : α → Nat) {j : Nat} (hj : j < l.length) :
    f (l[j]) ≤ (l.map f).sum := by
  induction l generalizing j with
  | nil => simp at hj
  | cons p rest ih =>
    cases j with
    | zero => simp
    | succ j =>
      rw [List.getElem_cons_succ]
      simp only [List.map_cons, List.sum_cons]
      have := ih (j := j) (by simpa using hj)
      omega

theorem sum_map_set {α : Type} {l : List α} (f : α → Nat) {j : Nat} (hj : j < l.length)
    (x : α) : ((l.set j x).map f).sum + f (l[j]) = (l.map f).sum + f x := by
  induction l generalizing j with
  | nil => simp at hj
  | cons p rest ih =>
    cases j with
    | zero => simp [List.set_cons_zero]; omega
    | succ j =>
      rw [List.set_cons_succ, List.getElem_cons_succ]
      simp only [List.map_cons, List.sum_cons]
      have := ih (j := j) (by simpa using hj)
      omega

theorem getD_set_eq {α : Type} {l : List α} {j : Nat} (hj : j < l.length) (x d : α) :
    (l.set j x).getD j d = x := by
  rw [List.getD_eq_getElem?_getD]
  simp [List.getElem?_set, hj]

theorem getD_set_ne {α : Type} {l : List α} {j j2 : Nat} (hne : j ≠ j2) (x d : α) :
    (l.set j x).getD j2 d = l.getD j2 d := by
  rw [List.getD_eq_getElem?_getD, List.getD_eq_getElem?_getD]
  simp [List.getElem?_set, hne]

/-! Accessor lemmas for the cache. -/

theorem shardAt_eq_getElem {c : LruCache K V} {j : Nat} (hj : j < c.shards.length) :
    c.shardAt j = (c.shards[j]).1 := by
  unfold LruCache.shardAt
  rw [List.getD_eq_getElem?_getD, List.getElem?_eq_getElem hj]
  rfl

theorem cachedAt_eq_getElem {c : LruCache K V} {j : Nat} (hj : j < c.shards.length) :
    c.cachedAt j = (c.shards[j]).2 := by
  unfold LruCache.cachedAt
  rw [List.getD_eq_getElem?_getD, List.getElem?_eq_getElem hj]
  rfl

theorem shardAt_default {c : LruCache K V} {j : Nat} (hj : c.shards.length ≤ j) :
    c.shardAt j = IndexedShard.new := by
  unfold LruCache.shardAt
  rw [List.getD_eq_getElem?_getD, List.getElem?_eq_none hj]
  rfl

theorem cachedAt_default {c : LruCache K V} {j : Nat} (hj : c.shards.length ≤ j) :
    c.cachedAt j = 0 := by
  unfold LruCache.cachedAt
  rw [List.getD_eq_getElem?_getD, List.getElem?_eq_none hj]
  rfl

theorem shardAt_mk_set_eq (c : LruCache K V) {j : Nat} (hj : j < c.shards.length)
    (s : IndexedShard K (TSValue V)) (m z : Nat) :
    (LruCache.mk (c.shards.set j (s, m)) z).shardAt j = s := by
  show ((c.shards.set j (s, m)).getD j (IndexedShard.new, 0)).1 = s
  rw [getD_set_eq hj]

theorem shardAt_mk_set_ne (c : LruCache K V) {j j2 : Nat} (hne : j ≠ j2)
    (s : IndexedShard K (TSValue V)) (m z : Nat) :
    (LruCache.mk (c.shards.set j (s, m)) z).shardAt j2 = c.shardAt j2 := by
  show ((c.shards.set j (s, m)).getD j2 (IndexedShard.new, 0)).1 = _
  rw [getD_set_ne hne]
  rfl

theorem cachedAt_mk_set_eq (c : LruCache K V) {j : Nat} (hj : j < c.shards.length)
    (s : IndexedShard K (TSValue V)) (m z : Nat) :
    (LruCache.mk (c.shards.set j (s, m)) z).cachedAt j = m := by
  show ((c.shards.set j (s, m)).getD j (IndexedShard.new, 0)).2 = m
  rw [getD_set_eq hj]

theorem cachedAt_mk_set_ne (c : LruCache K V) {j j2 : Nat} (hne : j ≠ j2)
    (s : IndexedShard K (TSValue V)) (m z : Nat) :
    (LruCache.mk (c.shards.set j (s, m)) z).cachedAt j2 = c.cachedAt j2 := by
  show ((c.shards.set j (s, m)).getD j2 (IndexedShard.new, 0)).2 = _
  rw [getD_set_ne hne]
  rfl

/-- Updating a shard while keeping its cached length leaves every cached
length unchanged. -/
theorem cachedAt_mk_set_keep (c : LruCache K V) {j : Nat} (hj : j < c.shards.length)
    (s : IndexedShard K (TSValue V)) (z : Nat) (j2 : Nat) :
    (LruCache.mk (c.shards.set j (s, c.cachedAt j)) z).cachedAt j2 = c.cachedAt j2 := by
  rcases eq_or_ne j j2 with rfl | hne
  · rw [cachedAt_mk_set_eq c hj]
  · rw [cachedAt_mk_set_ne c hne]

theorem WFcore_shardAt_Inv {c : LruCache K V} (h : WFcore c) (j : Nat) :
    Inv (c.shardAt j) := by
  rcases Nat.lt_or_ge j c.shards.length with hj | hj
  · rw [shardAt_eq_getElem hj]
    exact h.1 _ (List.getElem_mem _)
  · rw [shardAt_default hj]
    exact Inv_new

theorem WFcore_len_le_cached {c : LruCache K V} (h : WFcore c) (j : Nat) :
    (c.shardAt j).len ≤ c.cachedAt j := by
  rcases Nat.lt_or_ge j c.shards.length with hj | hj
  · rw [shardAt_eq_getElem hj, cachedAt_eq_getElem hj]
    exact h.2.2 _ (List.getElem_mem _)
  · rw [shardAt_default hj, cachedAt_default hj]
    exact Nat.le_refl _

theorem Placed_shardAt {hf : K → Nat} {c : LruCache K V} (h : Placed hf c) {j : Nat}
    (hj : j < c.shards.length) :
    ∀ b ∈ (c.shardAt j).entries, b.hash = hf b.key ∧ j = b.hash % c.shards.length := by
  rw [shardAt_eq_getElem hj]
  exact h j hj

theorem get_eq_none_of_not_contains {s : IndexedShard K V} (hs : Inv s) {h : Nat} {k : K}
    (habs : ¬ s.containsKey h k) : s.get h k = none := by
  rw [IndexedShard.get, (get_index_of_eq_none hs).mpr habs]
  rfl

theorem hash_and_shard_pos {hf : K → Nat} {c : LruCache K V} {k : K}
    (hN : 0 < c.shards.length) :
    LruCache.hash_and_shard hf c k = some (hf k, hf k % c.shards.length) := by
  unfold LruCache.hash_and_shard
  rw [if_neg (by omega)]

theorem getValue?_pos {hf : K → Nat} {c : LruCache K V} {k : K}
    (hN : 0 < c.shards.length) :
    LruCache.getValue? hf c k
      = some (((c.shardAt (hf k % c.shards.length)).get (hf k) k).map (·.value)) := by
  unfold LruCache.getValue?
  rw [hash_and_shard_pos hN]
  rfl

/-- A key resident nowhere is reported absent by the shared lookup. -/
theorem getValue_none_of_NotIn {hf : K → Nat} {c : LruCache K V}
    (hwf : ∀ p ∈ c.shards, Inv p.1) {k : K} (hni : NotIn hf c k)
    (hN : 0 < c.shards.length) :
    LruCache.getValue? hf c k = some none := by
  rw [getValue?_pos hN]
  have hj : hf k % c.shards.length < c.shards.length := Nat.mod_lt _ hN
  have hInv : Inv (c.shardAt (hf k % c.shards.length)) := by
    rw [shardAt_eq_getElem hj]
    exact hwf _ (List.getElem_mem _)
  have habs : ¬ (c.shardAt (hf k % c.shards.length)).containsKey (hf k) k := by
    rw [shardAt_eq_getElem hj]
    exact hni _ (List.getElem_mem _)
  rw [get_eq_none_of_not_contains hInv habs]
  rfl

/-- After removal of slot `i`, the removed (hash, key) pair is no longer
resident (shard-level key uniqueness). -/
theorem not_contains_of_pullback {s s1 : IndexedShard K V} (hs : Inv s)
    {i : Nat} (hi : i < s.entries.length)
    (hmm : ∀ b ∈ s1.entries, ∃ j, ∃ hj : j < s.entries.length, j ≠ i ∧ s.entries[j] = b) :
    ¬ s1.containsKey (s.entries[i].hash) (s.entries[i].key) := by
  rintro ⟨b, hb, hbh, hbk⟩
  obtain ⟨j2, hj2, hne, hbe⟩ := hmm b hb
  have := hs.2.2.2.2 j2 hj2 i hi (by rw [hbe, hbh]) (by rw [hbe, hbk])
  exact hne this

/-- A hash- and key-preserving value update does not change key residence. -/
theorem containsKey_setValue {s : IndexedShard K V} {i : Nat} {b : Bucket K V}
    (hb : s.entries[i]? = some b) {v : V} {h : Nat} {k : K} :
    (⟨s.indices, s.entries.set i ⟨b.hash, b.key, v⟩⟩ : IndexedShard K V).containsKey h k
      ↔ s.containsKey h k := by
  have hi : i < s.entries.length := (List.getElem?_eq_some.mp hb).1
  have hbe : s.entries[i] = b := by
    have := List.getElem?_eq_getElem hi
    rw [hb] at this; exact (Option.some.inj this).symm
  constructor
  · rintro ⟨b1, hb1, hbh, hbk⟩
    rcases List.mem_or_eq_of_mem_set hb1 with h1 | h1
    · exact ⟨b1, h1, hbh, hbk⟩
    · subst h1
      exact ⟨b, hbe ▸ List.getElem_mem hi, hbh, hbk⟩
  · rintro ⟨b1, hb1, hbh, hbk⟩
    obtain ⟨j2, hj2, hbe1⟩ := List.mem_iff_getElem.mp hb1
    rcases eq_or_ne i j2 with rfl | hne
    · refine ⟨⟨b.hash, b.key, v⟩, ?_, ?_, ?_⟩
      · have hj2s : i < (s.entries.set i ⟨b.hash, b.key, v⟩).length := by simpa using hj2
        have heq2 : (s.entries.set i ⟨b.hash, b.key, v⟩)[i]
            = ⟨b.hash, b.key, v⟩ := by
          rw [List.getElem_set, if_pos rfl]
        have hm : (s.entries.set i ⟨b.hash, b.key, v⟩)[i]
            ∈ s.entries.set i ⟨b.hash, b.key, v⟩ := List.getElem_mem _
        rw [heq2] at hm
        exact hm
      · rw [← hbh, ← hbe1, hbe]
      · rw [← hbk, ← hbe1, hbe]
    · refine ⟨b1, ?_, hbh, hbk⟩
      have hj2s : j2 < (s.entries.set i ⟨b.hash, b.key, v⟩).length := by simpa using hj2
      have heq2 : (s.entries.set i ⟨b.hash, b.key, v⟩)[j2] = b1 := by
        rw [List.getElem_set, if_neg hne]
        exact hbe1
      have hm : (s.entries.set i ⟨b.hash, b.key, v⟩)[j2]
          ∈ s.entries.set i ⟨b.hash, b.key, v⟩ := List.getElem_mem _
      rw [heq2] at hm
      exact hm

/-- Replacing shard `j` (keeping its cached length) by a shard whose buckets
all descend hash- and key-wise from the old shard preserves the cache
invariants; the new size counter `z` must balance the length change. -/
theorem setShard_WF {hf : K → Nat} {c : LruCache K V} {j : Nat} (hj : j < c.shards.length)
    (hWF : WFcore c) (hPl : Placed hf c)
    {s1 : IndexedShard K (TSValue V)} (hInv1 : Inv s1)
    (hsub : ∀ b ∈ s1.entries, ∃ b0 ∈ (c.shardAt j).entries, b0.hash = b.hash ∧ b0.key = b.key)
    {z : Nat} (hz : z + (c.shardAt j).entries.length = c.size + s1.entries.length)
    (hlen1 : s1.len ≤ c.cachedAt j) :
    WFcore (LruCache.mk (c.shards.set j (s1, c.cachedAt j)) z)
    ∧ Placed hf (LruCache.mk (c.shards.set j (s1, c.cachedAt j)) z)
    ∧ (∀ k, NotIn hf c k → NotIn hf (LruCache.mk (c.shards.set j (s1, c.cachedAt j)) z) k) := by
  obtain ⟨hInvs, hsum, hcb⟩ := hWF
  have hsum_set := sum_map_set (l := c.shards) (fun p => p.1.entries.length) hj (s1, c.cachedAt j)
  have hge := le_sum_map (l := c.shards) (fun p => p.1.entries.length) hj
  have hAtJ : (c.shards[j]).1 = c.shardAt j := (shardAt_eq_getElem hj).symm
  refine ⟨⟨?_, ?_, ?_⟩, ?_, ?_⟩
  · -- every shard satisfies the invariant
    intro p hp
    rcases List.mem_or_eq_of_mem_set hp with h1 | h1
    · exact hInvs p h1
    · rw [h1]; exact hInv1
  · -- size counter equals the sum of shard lengths
    show z = ((c.shards.set j (s1, c.cachedAt j)).map (fun p => p.1.entries.length)).sum
    simp only [hAtJ] at hsum_set hge
    omega
  · -- cached lengths dominate
    intro p hp
    rcases List.mem_or_eq_of_mem_set hp with h1 | h1
    · exact hcb p h1
    · rw [h1]; exact hlen1
  · -- placement
    intro j2 hj2 b hb
    have hj2' : j2 < c.shards.length := by simpa using hj2
    have hlen_eq : (c.shards.set j (s1, c.cachedAt j)).length = c.shards.length := by simp
    rcases eq_or_ne j j2 with rfl | hne
    · have hel : (c.shards.set j (s1, c.cachedAt j))[j] = (s1, c.cachedAt j) := by
        rw [List.getElem_set, if_pos rfl]
      rw [hel] at hb
      obtain ⟨b0, hb0, hh, hk⟩ := hsub b hb
      have := (Placed_shardAt hPl hj) b0 hb0
      rw [hlen_eq, ← hh, ← hk]
      exact this
    · have hel : (c.shards.set j (s1, c.cachedAt j))[j2] = c.shards[j2] := by
        rw [List.getElem_set, if_neg hne]
      rw [hel] at hb
      have := hPl j2 hj2' b hb
      rw [hlen_eq]
      exact this
  · -- absence is monotone
    intro k hni p hp hcont
    rcases List.mem_or_eq_of_mem_set hp with h1 | h1
    · exact hni p h1 hcont
    · rw [h1] at hcont
      obtain ⟨b, hb, hbh, hbk⟩ := hcont
      obtain ⟨b0, hb0, hh, hk⟩ := hsub b hb
      refine hni (c.shards[j]) (List.getElem_mem _) ?_
      rw [← hAtJ] at hb0
      exact ⟨b0, hb0, by rw [hh, hbh], by rw [hk, hbk]⟩

set_option maxHeartbeats 1000000 in
/-- Full specification of one predicate-test-plus-eviction step of the
evictor at a valid slot of a valid shard. -/
theorem predEvictStep_spec {σ : Type} (hf : K → Nat) (P : σ → K → V → Evict × V × σ)
    (st : EState K V σ) {j idx : Nat} (hj : j < st.cache.shards.length)
    (hWF : WFcore st.cache) (hPl : Placed hf st.cache)
    (hidx : idx < (st.cache.shardAt j).entries.length) :
    ∃ b res st1,
      (st.cache.shardAt j).entries[idx]? = some b
      ∧ predEvictStep P st j idx = some (res, st1)
      ∧ res = (P st.pstate b.key b.value.value).1
      ∧ st1.pstate = (P st.pstate b.key b.value.value).2.2
      ∧ st1.ctr = st.ctr
      ∧ st1.cache.shards.length = st.cache.shards.length
      ∧ (∀ j2, st1.cache.cachedAt j2 = st.cache.cachedAt j2)
      ∧ (∀ j2, j2 ≠ j → st1.cache.shardAt j2 = st.cache.shardAt j2)
      ∧ (∀ j2, (st1.cache.shardAt j2).len ≤ (st.cache.shardAt j2).len)
      ∧ WFcore st1.cache
      ∧ Placed hf st1.cache
      ∧ (∀ k, NotIn hf st.cache k → NotIn hf st1.cache k)
      ∧ (res = Evict.NoneE → st1.cache.size = st.cache.size ∧ st1.evicted = st.evicted)
      ∧ (res ≠ Evict.NoneE →
          st1.cache.size + 1 = st.cache.size
          ∧ st1.evicted = st.evicted ++ [(b.key, (P st.pstate b.key b.value.value).2.1)]
          ∧ NotIn hf st1.cache b.key
          ∧ (st1.cache.shardAt j).len + 1 = (st.cache.shardAt j).len) := by
  have hInvs : Inv (st.cache.shardAt j) := WFcore_shardAt_Inv hWF j
  have hent : (st.cache.shardAt j).entries[idx]? = some ((st.cache.shardAt j).entries[idx]) :=
    List.getElem?_eq_getElem hidx
  rcases hres : P st.pstate ((st.cache.shardAt j).entries[idx]).key
      ((st.cache.shardAt j).entries[idx]).value.value with ⟨res0, v1, σ1⟩
  have hInv1 : Inv (⟨(st.cache.shardAt j).indices,
      (st.cache.shardAt j).entries.set idx
        ⟨((st.cache.shardAt j).entries[idx]).hash, ((st.cache.shardAt j).entries[idx]).key,
          ⟨v1, ((st.cache.shardAt j).entries[idx]).value.timestamp⟩⟩⟩
        : IndexedShard K (TSValue V)) := Inv_setValue hInvs hent
  have hbmem : (st.cache.shardAt j).entries[idx] ∈ (st.cache.shardAt j).entries :=
    List.getElem_mem _
  have hbpl := (Placed_shardAt hPl hj) _ hbmem
  -- the value-updated shard, shared by both branches
  set b := (st.cache.shardAt j).entries[idx] with hbdef
  set s1 : IndexedShard K (TSValue V) :=
    ⟨(st.cache.shardAt j).indices,
      (st.cache.shardAt j).entries.set idx ⟨b.hash, b.key, ⟨v1, b.value.timestamp⟩⟩⟩ with hs1
  have hsub1 : ∀ b2 ∈ s1.entries,
      ∃ b0 ∈ (st.cache.shardAt j).entries, b0.hash = b2.hash ∧ b0.key = b2.key := by
    intro b2 hb2
    rcases List.mem_or_eq_of_mem_set hb2 with h1 | h1
    · exact ⟨b2, h1, rfl, rfl⟩
    · subst h1
      exact ⟨b, hbmem, rfl, rfl⟩
  cases res0 with
  | NoneE =>
    have hstep : predEvictStep P st j idx
        = some (Evict.NoneE,
            { cache := ⟨st.cache.shards.set j (s1, st.cache.cachedAt j), st.cache.size⟩,
              ctr := st.ctr, evicted := st.evicted, pstate := σ1 }) := by
      simp only [predEvictStep, hent, hres]
    have hlen1 : s1.entries.length = (st.cache.shardAt j).entries.length := by
      simp [hs1]
    obtain ⟨hWF1, hPl1, hmono⟩ := setShard_WF hj hWF hPl hInv1 hsub1
      (z := st.cache.size) (by omega) (WFcore_len_le_cached hWF j)
    refine ⟨b, Evict.NoneE, _, hent, hstep, by rw [hres], by rw [hres], rfl, by simp, ?_,
      ?_, ?_, hWF1, hPl1, hmono, fun _ => ⟨rfl, rfl⟩, fun hne => absurd rfl hne⟩
    · intro j2
      exact cachedAt_mk_set_keep st.cache hj s1 st.cache.size j2
    · intro j2 hne
      exact shardAt_mk_set_ne st.cache (fun h2 => hne h2.symm) s1 (st.cache.cachedAt j) st.cache.size
    · intro j2
      by_cases hje : j2 = j
      · rw [hje, shardAt_mk_set_eq st.cache hj s1 (st.cache.cachedAt j) st.cache.size]
        exact Nat.le_refl _
      · rw [shardAt_mk_set_ne st.cache (fun h2 => hje h2.symm) s1 (st.cache.cachedAt j) st.cache.size]
  | Continue =>
    have hidx1 : idx < s1.entries.length := by simpa [hs1] using hidx
    obtain ⟨s2, heq2, hInv2, hle2, hli2, hpull⟩ := swap_remove_index_raw_spec hInv1 hidx1
    have hatidx : s1.entries[idx] = ⟨b.hash, b.key, ⟨v1, b.value.timestamp⟩⟩ := by
      show ((st.cache.shardAt j).entries.set idx _)[idx] = _
      rw [List.getElem_set, if_pos rfl]
    rw [hatidx] at heq2
    have hstep : predEvictStep P st j idx
        = some (Evict.Continue,
            { cache := ⟨st.cache.shards.set j (s2, st.cache.cachedAt j), st.cache.size - 1⟩,
              ctr := st.ctr, evicted := st.evicted ++ [(b.key, v1)], pstate := σ1 }) := by
      simp only [predEvictStep, hent, hres]
      rw [← hs1, heq2]
    have hsub2 : ∀ b2 ∈ s2.entries,
        ∃ b0 ∈ (st.cache.shardAt j).entries, b0.hash = b2.hash ∧ b0.key = b2.key := by
      intro b2 hb2
      obtain ⟨j3, hj3, -, hbe3⟩ := hpull b2 hb2
      exact hsub1 b2 (hbe3 ▸ List.getElem_mem _)
    have hsumge := le_sum_map (l := st.cache.shards) (fun p => p.1.entries.length) hj
    have hatj : (st.cache.shards[j]).1 = st.cache.shardAt j := (shardAt_eq_getElem hj).symm
    have hszge : (st.cache.shardAt j).entries.length ≤ st.cache.size := by
      rw [hWF.2.1]
      rw [← hatj]
      exact hsumge
    have hlen1 : s1.entries.length = (st.cache.shardAt j).entries.length := by
      simp [hs1]
    obtain ⟨hWF1, hPl1, hmono⟩ := setShard_WF hj hWF hPl hInv2 hsub2
      (z := st.cache.size - 1) (by omega)
      (by
        have h5 := WFcore_len_le_cached hWF j
        have h6 : s2.len = s2.indices.length := rfl
        have h7 : s1.indices.length = (st.cache.shardAt j).len := rfl
        omega)
    have hnc2 : ¬ s2.containsKey b.hash b.key := by
      have h8 := not_contains_of_pullback hInv1 hidx1 hpull
      rw [hatidx] at h8
      exact h8
    have hnotin : NotIn hf
        (LruCache.mk (st.cache.shards.set j (s2, st.cache.cachedAt j)) (st.cache.size - 1))
        b.key := by
      intro p hp hcont
      obtain ⟨j4, hj4, hbe4⟩ := List.mem_iff_getElem.mp hp
      have hj4z : j4 < (st.cache.shards.set j (s2, st.cache.cachedAt j)).length := hj4
      have hj4s : j4 < st.cache.shards.length := by simpa using hj4z
      have hhh : b.hash = hf b.key := hbpl.1
      by_cases hje : j4 = j
      · have hpv : p = (s2, st.cache.cachedAt j) := by
          subst hje
          rw [← hbe4, List.getElem_set, if_pos rfl]
        rw [hpv] at hcont
        exact hnc2 (by rw [hhh]; exact hcont)
      · have hpv : p = st.cache.shards[j4] := by
          rw [← hbe4, List.getElem_set, if_neg (fun h2 => hje h2.symm)]
        obtain ⟨b3, hb3, hb3h, hb3k⟩ := hcont
        rw [hpv] at hb3
        have hpl3 := hPl j4 hj4s b3 hb3
        exact hje (by rw [hpl3.2, hpl3.1, hb3k, ← hhh, ← hbpl.2])
    refine ⟨b, Evict.Continue, _, hent, hstep, by rw [hres], by rw [hres], rfl, by simp, ?_,
      ?_, ?_, hWF1, hPl1, hmono, fun h2 => Evict.noConfusion h2,
      fun _ => ⟨by show st.cache.size - 1 + 1 = st.cache.size; omega, by rw [hres], hnotin, ?_⟩⟩
    · intro j2
      exact cachedAt_mk_set_keep st.cache hj s2 (st.cache.size - 1) j2
    · intro j2 hne
      exact shardAt_mk_set_ne st.cache (fun h2 => hne h2.symm) s2 (st.cache.cachedAt j) (st.cache.size - 1)
    · intro j2
      by_cases hje : j2 = j
      · rw [hje, shardAt_mk_set_eq st.cache hj s2 (st.cache.cachedAt j) (st.cache.size - 1)]
        show s2.indices.length ≤ (st.cache.shardAt j).indices.length
        have h7 : s1.indices.length = (st.cache.shardAt j).indices.length := rfl
        omega
      · rw [shardAt_mk_set_ne st.cache (fun h2 => hje h2.symm) s2 (st.cache.cachedAt j) (st.cache.size - 1)]
    · rw [shardAt_mk_set_eq st.cache hj s2 (st.cache.cachedAt j) (st.cache.size - 1)]
      show s2.indices.length + 1 = (st.cache.shardAt j).indices.length
      have : s1.indices.length = (st.cache.shardAt j).indices.length := rfl
      omega
  | Once =>
    have hidx1 : idx < s1.entries.length := by simpa [hs1] using hidx
    obtain ⟨s2, heq2, hInv2, hle2, hli2, hpull⟩ := swap_remove_index_raw_spec hInv1 hidx1
    have hatidx : s1.entries[idx] = ⟨b.hash, b.key, ⟨v1, b.value.timestamp⟩⟩ := by
      show ((st.cache.shardAt j).entries.set idx _)[idx] = _
      rw [List.getElem_set, if_pos rfl]
    rw [hatidx] at heq2
    have hstep : predEvictStep P st j idx
        = some (Evict.Once,
            { cache := ⟨st.cache.shards.set j (s2, st.cache.cachedAt j), st.cache.size - 1⟩,
              ctr := st.ctr, evicted := st.evicted ++ [(b.key, v1)], pstate := σ1 }) := by
      simp only [predEvictStep, hent, hres]
      rw [← hs1, heq2]
    have hsub2 : ∀ b2 ∈ s2.entries,
        ∃ b0 ∈ (st.cache.shardAt j).entries, b0.hash = b2.hash ∧ b0.key = b2.key := by
      intro b2 hb2
      obtain ⟨j3, hj3, -, hbe3⟩ := hpull b2 hb2
      exact hsub1 b2 (hbe3 ▸ List.getElem_mem _)
    have hsumge := le_sum_map (l := st.cache.shards) (fun p => p.1.entries.length) hj
    have hatj : (st.cache.shards[j]).1 = st.cache.shardAt j := (shardAt_eq_getElem hj).symm
    have hszge : (st.cache.shardAt j).entries.length ≤ st.cache.size := by
      rw [hWF.2.1]
      rw [← hatj]
      exact hsumge
    have hlen1 : s1.entries.length = (st.cache.shardAt j).entries.length := by
      simp [hs1]
    obtain ⟨hWF1, hPl1, hmono⟩ := setShard_WF hj hWF hPl hInv2 hsub2
      (z := st.cache.size - 1) (by omega)
      (by
        have h5 := WFcore_len_le_cached hWF j
        have h6 : s2.len = s2.indices.length := rfl
        have h7 : s1.indices.length = (st.cache.shardAt j).len := rfl
        omega)
    have hnc2 : ¬ s2.containsKey b.hash b.key := by
      have h8 := not_contains_of_pullback hInv1 hidx1 hpull
      rw [hatidx] at h8
      exact h8
    have hnotin : NotIn hf
        (LruCache.mk (st.cache.shards.set j (s2, st.cache.cachedAt j)) (st.cache.size - 1))
        b.key := by
      intro p hp hcont
      obtain ⟨j4, hj4, hbe4⟩ := List.mem_iff_getElem.mp hp
      have hj4z : j4 < (st.cache.shards.set j (s2, st.cache.cachedAt j)).length := hj4
      have hj4s : j4 < st.cache.shards.length := by simpa using hj4z
      have hhh : b.hash = hf b.key := hbpl.1
      by_cases hje : j4 = j
      · have hpv : p = (s2, st.cache.cachedAt j) := by
          subst hje
          rw [← hbe4, List.getElem_set, if_pos rfl]
        rw [hpv] at hcont
        exact hnc2 (by rw [hhh]; exact hcont)
      · have hpv : p = st.cache.shards[j4] := by
          rw [← hbe4, List.getElem_set, if_neg (fun h2 => hje h2.symm)]
        obtain ⟨b3, hb3, hb3h, hb3k⟩ := hcont
        rw [hpv] at hb3
        have hpl3 := hPl j4 hj4s b3 hb3
        exact hje (by rw [hpl3.2, hpl3.1, hb3k, ← hhh, ← hbpl.2])
    refine ⟨b, Evict.Once, _, hent, hstep, by rw [hres], by rw [hres], rfl, by simp, ?_,
      ?_, ?_, hWF1, hPl1, hmono, fun h2 => Evict.noConfusion h2,
      fun _ => ⟨by show st.cache.size - 1 + 1 = st.cache.size; omega, by rw [hres], hnotin, ?_⟩⟩
    · intro j2
      exact cachedAt_mk_set_keep st.cache hj s2 (st.cache.size - 1) j2
    · intro j2 hne
      exact shardAt_mk_set_ne st.cache (fun h2 => hne h2.symm) s2 (st.cache.cachedAt j) (st.cache.size - 1)
    · intro j2
      by_cases hje : j2 = j
      · rw [hje, shardAt_mk_set_eq st.cache hj s2 (st.cache.cachedAt j) (st.cache.size - 1)]
        show s2.indices.length ≤ (st.cache.shardAt j).indices.length
        have h7 : s1.indices.length = (st.cache.shardAt j).indices.length := rfl
        omega
      · rw [shardAt_mk_set_ne st.cache (fun h2 => hje h2.symm) s2 (st.cache.cachedAt j) (st.cache.size - 1)]
    · rw [shardAt_mk_set_eq st.cache hj s2 (st.cache.cachedAt j) (st.cache.size - 1)]
      show s2.indices.length + 1 = (st.cache.shardAt j).indices.length
      have : s1.indices.length = (st.cache.shardAt j).indices.length := rfl
      omega

/-- The identity-successor stream satisfies the separation property. -/
theorem RngSep_succ : RngSep (fun n => n + 1) := by
  intro i len hlen heq
  have h1 : (i + 1 + 1) % len = (i + 1) % len := heq
  have h2 : (i + 1 + 1) % len = ((i + 1) % len + 1 % len) % len := Nat.add_mod _ _ _
  have h3 : 1 % len = 1 := Nat.mod_eq_of_lt (by omega)
  have h4 : (i + 1) % len < len := Nat.mod_lt _ (by omega)
  rcases Nat.lt_or_ge ((i + 1) % len + 1) len with h5 | h5
  · rw [h2, h3, Nat.mod_eq_of_lt h5] at h1
    omega
  · have h6 : (i + 1) % len + 1 = len := by omega
    rw [h2, h3, h6, Nat.mod_self] at h1
    omega

/-! The candidate-stack (`pop_shard!`) and shuffle machinery. -/

theorem popShard_eq_nil (c : LruCache K V) : popShard c ([] : List Nat) = none := by
  rw [popShard]
  split
  · rfl
  next j heq => simp at heq

theorem popShard_concat (c : LruCache K V) (xs : List Nat) (x : Nat) :
    popShard c (xs ++ [x])
      = if 0 < (c.shardAt x).len then some (x, xs) else popShard c xs := by
  rw [popShard]
  simp only [List.dropLast_concat]
  split
  next heq => rw [List.getLast?_concat] at heq; cases heq
  next j heq =>
    rw [List.getLast?_concat] at heq
    rw [show j = x from (Option.some.inj heq).symm]

theorem popShard_some_spec {c : LruCache K V} {ne : List Nat} {j : Nat} {ne1 : List Nat}
    (h : popShard c ne = some (j, ne1)) :
    j ∈ ne ∧ 0 < (c.shardAt j).len ∧ ne1.length < ne.length ∧ ∀ x ∈ ne1, x ∈ ne := by
  induction ne using List.reverseRecOn generalizing j ne1 with
  | nil => rw [popShard_eq_nil] at h; cases h
  | append_singleton xs x ih =>
    rw [popShard_concat] at h
    by_cases hx : 0 < (c.shardAt x).len
    · rw [if_pos hx] at h
      have h2 := Option.some.inj h
      have hj : j = x := (congrArg Prod.fst h2).symm
      have hn : ne1 = xs := (congrArg Prod.snd h2).symm
      subst hj; subst hn
      refine ⟨List.mem_append_right _ (List.mem_singleton_self _), hx, by simp, ?_⟩
      intro y hy
      exact List.mem_append_left _ hy
    · rw [if_neg hx] at h
      obtain ⟨h1, h2, h3, h4⟩ := ih h
      refine ⟨List.mem_append_left _ h1, h2, ?_, fun y hy => List.mem_append_left _ (h4 y hy)⟩
      simp only [List.length_append, List.length_singleton]
      omega

theorem popShard_none_spec {c : LruCache K V} {ne : List Nat}
    (h : popShard c ne = none) : ∀ j ∈ ne, (c.shardAt j).len = 0 := by
  induction ne using List.reverseRecOn with
  | nil => intro j hj; cases hj
  | append_singleton xs x ih =>
    rw [popShard_concat] at h
    by_cases hx : 0 < (c.shardAt x).len
    · rw [if_pos hx] at h; cases h
    · rw [if_neg hx] at h
      intro j hj
      rcases List.mem_append.mp hj with h1 | h1
      · exact ih h j h1
      · rw [List.mem_singleton.mp h1]
        omega

theorem length_listSwap {α : Type} (l : List α) (i j : Nat) :
    (listSwap l i j).length = l.length := by
  unfold listSwap
  rcases h1 : l[i]? with - | x <;> rcases h2 : l[j]? with - | y <;> simp

theorem mem_listSwap {α : Type} {l : List α} {i j : Nat} {a : α} :
    a ∈ listSwap l i j ↔ a ∈ l := by
  unfold listSwap
  rcases h1 : l[i]? with - | x
  · rfl
  rcases h2 : l[j]? with - | y
  · rfl
  obtain ⟨hi, hx⟩ := List.getElem?_eq_some.mp h1
  obtain ⟨hj, hy⟩ := List.getElem?_eq_some.mp h2
  show a ∈ (l.set i y).set j x ↔ a ∈ l
  constructor
  · intro ha
    obtain ⟨p, hp⟩ := List.mem_iff_getElem?.mp ha
    by_cases hpj : p = j
    · rw [hpj, List.getElem?_set_self (by simpa using hj)] at hp
      rw [← Option.some.inj hp, ← hx]
      exact List.getElem_mem hi
    · rw [List.getElem?_set_ne (fun h3 => hpj h3.symm)] at hp
      by_cases hpi : p = i
      · rw [hpi, List.getElem?_set_self hi] at hp
        rw [← Option.some.inj hp, ← hy]
        exact List.getElem_mem hj
      · rw [List.getElem?_set_ne (fun h3 => hpi h3.symm)] at hp
        exact List.mem_iff_getElem?.mpr ⟨p, hp⟩
  · intro ha
    obtain ⟨p, hp⟩ := List.mem_iff_getElem?.mp ha
    by_cases hpi : p = i
    · have ha2 : a = x := by
        rw [hpi, List.getElem?_eq_getElem hi] at hp
        rw [← Option.some.inj hp, ← hx]
      refine List.mem_iff_getElem?.mpr ⟨j, ?_⟩
      rw [List.getElem?_set_self (by simpa using hj), ha2]
    · by_cases hpj : p = j
      · have ha2 : a = y := by
          rw [hpj, List.getElem?_eq_getElem hj] at hp
          rw [← Option.some.inj hp, ← hy]
        by_cases hij : i = j
        · exact absurd (hpj.trans hij.symm) hpi
        · refine List.mem_iff_getElem?.mpr ⟨i, ?_⟩
          rw [List.getElem?_set_ne (fun h3 => hij h3.symm), List.getElem?_set_self hi, ha2]
      · refine List.mem_iff_getElem?.mpr ⟨p, ?_⟩
        rw [List.getElem?_set_ne (fun h3 => hpj h3.symm),
          List.getElem?_set_ne (fun h3 => hpi h3.symm)]
        exact hp

theorem shuffleGo_spec {α : Type} (ρ : Nat → Nat) :
    ∀ (n : Nat) (l : List α) (ctr : Nat),
      (∀ a : α, a ∈ (shuffleGo ρ n l ctr).1 ↔ a ∈ l)
        ∧ (shuffleGo ρ n l ctr).1.length = l.length := by
  intro n
  induction n with
  | zero => intro l ctr; exact ⟨fun a => Iff.rfl, rfl⟩
  | succ n ih =>
    intro l ctr
    rw [shuffleGo]
    obtain ⟨hmem, hlen⟩ := ih (listSwap l (n + 1) (ρ ctr % (n + 2))) (ctr + 1)
    refine ⟨fun a => (hmem a).trans mem_listSwap, hlen.trans (length_listSwap _ _ _)⟩

theorem mem_shuffleList {α : Type} {ρ : Nat → Nat} {l : List α} {ctr : Nat} {a : α} :
    a ∈ (shuffleList ρ l ctr).1 ↔ a ∈ l :=
  (shuffleGo_spec ρ (l.length - 1) l ctr).1 a

theorem mem_non_empty_shards {c : LruCache K V} {j : Nat} :
    j ∈ c.non_empty_shards ↔ j < c.shards.length ∧ c.cachedAt j ≠ 0 := by
  unfold LruCache.non_empty_shards
  rw [List.mem_filter, List.mem_range]
  simp

/-- Under the core invariant a positive size counter guarantees a truly
non-empty shard (with a non-zero cached length). -/
theorem exists_nonempty_shard {c : LruCache K V} (hWF : WFcore c) (hsz : 0 < c.size) :
    ∃ j, j < c.shards.length ∧ 0 < (c.shardAt j).len ∧ c.cachedAt j ≠ 0 := by
  by_cases hall : ∀ j, (hj : j < c.shards.length) → (c.shardAt j).entries.length = 0
  · exfalso
    have hz : c.size = 0 := by
      rw [hWF.2.1]
      apply List.sum_eq_zero
      intro x hx
      obtain ⟨p, hp, hpe⟩ := List.mem_map.mp hx
      obtain ⟨j, hj, hje⟩ := List.mem_iff_getElem.mp hp
      rw [← hpe, ← hje]
      have := hall j hj
      rw [shardAt_eq_getElem hj] at this
      exact this
    omega
  · push_neg at hall
    obtain ⟨j, hj, hpos⟩ := hall
    have hInv : Inv (c.shardAt j) := WFcore_shardAt_Inv hWF j
    have hlen : 0 < (c.shardAt j).len := by
      show 0 < (c.shardAt j).indices.length
      rw [hInv.1]
      omega
    have hcge : (c.shardAt j).len ≤ c.cachedAt j := WFcore_len_le_cached hWF j
    exact ⟨j, hj, hlen, by omega⟩

/-! The master specification of the eviction walk. -/

/-- What one run of the walk (or of the whole `'evict` loop) guarantees about
the state transition: invariants preserved, shard geometry only shrinking,
every new evicted pair accounted in the size counter and absent afterwards,
and absence of keys is stable. -/
def WalkOut (hf : K → Nat) (st st1 : EState K V σ) : Prop :=
  WFcore st1.cache ∧ Placed hf st1.cache
  ∧ st1.cache.shards.length = st.cache.shards.length
  ∧ (∀ j2, st1.cache.cachedAt j2 = st.cache.cachedAt j2)
  ∧ (∀ j2, (st1.cache.shardAt j2).len ≤ (st.cache.shardAt j2).len)
  ∧ (∃ tail, st1.evicted = st.evicted ++ tail
      ∧ st1.cache.size + tail.length = st.cache.size
      ∧ ∀ q ∈ tail, NotIn hf st1.cache q.1)
  ∧ (∀ k, NotIn hf st.cache k → NotIn hf st1.cache k)

theorem WalkOut.refl {hf : K → Nat} {st : EState K V σ}
    (hWF : WFcore st.cache) (hPl : Placed hf st.cache) : WalkOut hf st st :=
  ⟨hWF, hPl, rfl, fun _ => rfl, fun _ => Nat.le_refl _,
    ⟨[], by simp, by simp, by simp⟩, fun _ h => h⟩

theorem WalkOut.trans {hf : K → Nat} {st st1 st2 : EState K V σ}
    (h1 : WalkOut hf st st1) (h2 : WalkOut hf st1 st2) : WalkOut hf st st2 := by
  obtain ⟨hW1, hP1, hL1, hC1, hS1, ⟨t1, he1, hz1, hn1⟩, hm1⟩ := h1
  obtain ⟨hW2, hP2, hL2, hC2, hS2, ⟨t2, he2, hz2, hn2⟩, hm2⟩ := h2
  refine ⟨hW2, hP2, hL2.trans hL1, fun j2 => (hC2 j2).trans (hC1 j2),
    fun j2 => (hS2 j2).trans (hS1 j2), ⟨t1 ++ t2, ?_, ?_, ?_⟩,
    fun k hk => hm2 k (hm1 k hk)⟩
  · rw [he2, he1, List.append_assoc]
  · rw [List.length_append]
    omega
  · intro q hq
    rcases List.mem_append.mp hq with h3 | h3
    · exact hm2 q.1 (hn1 q h3)
    · exact hn2 q h3

theorem twoChoice_or (tsA tsB a b : Nat) : twoChoice tsA tsB a b = a ∨ twoChoice tsA tsB a b = b := by
  unfold twoChoice
  split
  · exact Or.inl rfl
  · exact Or.inr rfl

theorem walkout_of_step {hf : K → Nat} {st st1 : EState K V σ} {q : K} {w : V}
    (hWF1 : WFcore st1.cache) (hPl1 : Placed hf st1.cache)
    (hL : st1.cache.shards.length = st.cache.shards.length)
    (hC : ∀ j2, st1.cache.cachedAt j2 = st.cache.cachedAt j2)
    (hS : ∀ j2, (st1.cache.shardAt j2).len ≤ (st.cache.shardAt j2).len)
    (hmono : ∀ k, NotIn hf st.cache k → NotIn hf st1.cache k)
    (hcase : (st1.cache.size = st.cache.size ∧ st1.evicted = st.evicted)
      ∨ (st1.cache.size + 1 = st.cache.size ∧ st1.evicted = st.evicted ++ [(q, w)]
          ∧ NotIn hf st1.cache q)) :
    WalkOut hf st st1 := by
  refine ⟨hWF1, hPl1, hL, hC, hS, ?_, hmono⟩
  rcases hcase with ⟨h1, h2⟩ | ⟨h1, h2, h3⟩
  · exact ⟨[], by rw [h2]; simp, by simpa using h1, by simp⟩
  · refine ⟨[(q, w)], h2, by simpa using h1, ?_⟩
    intro q hq
    rw [List.mem_singleton.mp hq]
    exact h3

theorem tsAtRange_total {c : LruCache K V} {ja jb la r : Nat}
    (hla : la = (c.shardAt ja).entries.length)
    (hlb : r < la + (c.shardAt jb).entries.length) :
    ∃ ts, tsAtRange c ja jb la r = some ts := by
  unfold tsAtRange
  by_cases h : r < la
  · rw [if_pos h]
    have h4 : r < (c.shardAt ja).entries.length := by omega
    rw [List.getElem?_eq_getElem h4]
    exact ⟨_, rfl⟩
  · rw [if_neg h]
    have h4 : r - la < (c.shardAt jb).entries.length := by omega
    rw [List.getElem?_eq_getElem h4]
    exact ⟨_, rfl⟩

set_option maxHeartbeats 4000000 in
/-- Master specification of the random-walk loop (`'walk`) of `LruCache::evict`:
with enough fuel (one unit per candidate shard plus one) the walk terminates,
preserves the cache invariants, accounts every evicted pair in the size
counter, leaves every evicted key absent, and its exit flag reflects the
predicate verdict through the abstract views `J` / `QO` / `QN`. -/
theorem walkLoop_spec {σ : Type} (hf : K → Nat) (P : σ → K → V → Evict × V × σ)
    {ρ : Nat → Nat} (hsep : RngSep ρ) {pf : Nat} (hpf : 1 ≤ pf)
    (J QO QN : σ → Nat → Prop)
    (HJ : ∀ s k v n, J s n →
      ((P s k v).1 = Evict.Continue → J (P s k v).2.2 (n + 1))
      ∧ ((P s k v).1 = Evict.Once → QO (P s k v).2.2 (n + 1))
      ∧ ((P s k v).1 = Evict.NoneE → QN (P s k v).2.2 n)) :
    ∀ (fuel : Nat) (st : EState K V σ) (ne : List Nat) (ja : Nat),
      ne.length < fuel →
      ja < st.cache.shards.length →
      0 < (st.cache.shardAt ja).len →
      (∀ x ∈ ne, x < st.cache.shards.length) →
      WFcore st.cache → Placed hf st.cache →
      J st.pstate st.evicted.length →
      ∃ st1 flag, walkLoop P ρ pf fuel st ne ja = some (st1, flag)
        ∧ WalkOut hf st st1
        ∧ (flag = false → st1.cache.size < st.cache.size ∧ J st1.pstate st1.evicted.length)
        ∧ (flag = true → QO st1.pstate st1.evicted.length ∨ QN st1.pstate st1.evicted.length) := by
  intro fuel
  induction fuel with
  | zero =>
    intro st ne ja hfuel
    exact absurd hfuel (Nat.not_lt_zero _)
  | succ fuel ih =>
    intro st ne ja hfuel hja hpos hnemem hWF hPl hJ
    have hInvj : Inv (st.cache.shardAt ja) := WFcore_shardAt_Inv hWF ja
    have hlenE : (st.cache.shardAt ja).indices.length = (st.cache.shardAt ja).entries.length :=
      hInvj.1
    have hleni : (st.cache.shardAt ja).len = (st.cache.shardAt ja).indices.length := rfl
    have hsumge := le_sum_map (l := st.cache.shards) (fun p => p.1.entries.length) hja
    have hatja : (st.cache.shards[ja]).1 = st.cache.shardAt ja := (shardAt_eq_getElem hja).symm
    have hszge : (st.cache.shardAt ja).entries.length ≤ st.cache.size := by
      rw [hWF.2.1, ← hatja]
      exact hsumge
    cases hpop : popShard st.cache ne with
    | none =>
      rcases Nat.lt_or_ge (st.cache.shardAt ja).len 2 with h2 | h2
      · -- sole-entry fast path (`len == 1`; zero is excluded by `hpos`)
        have hone : (st.cache.shardAt ja).entries.length = 1 := by omega
        have hl1 : (st.cache.shardAt ja).len = 1 := by omega
        obtain ⟨b, hsb⟩ := List.length_eq_one.mp hone
        have hb0 : (st.cache.shardAt ja).entries[0]? = some b := by rw [hsb]; rfl
        have hbmem : b ∈ (st.cache.shardAt ja).entries := by
          rw [hsb]
          exact List.mem_singleton_self _
        have hbpl := (Placed_shardAt hPl hja) b hbmem
        rcases hres : P st.pstate b.key b.value.value with ⟨res0, v1, σ1⟩
        cases res0 with
        | NoneE =>
          -- write the value back, no eviction, break the outer loop
          have hInv1 : Inv (⟨(st.cache.shardAt ja).indices,
              (st.cache.shardAt ja).entries.set 0 ⟨b.hash, b.key, ⟨v1, b.value.timestamp⟩⟩⟩
                : IndexedShard K (TSValue V)) := Inv_setValue hInvj hb0
          have hsub1 : ∀ b2 ∈ ((st.cache.shardAt ja).entries.set 0
                ⟨b.hash, b.key, ⟨v1, b.value.timestamp⟩⟩ : List (Bucket K (TSValue V))),
              ∃ b0 ∈ (st.cache.shardAt ja).entries, b0.hash = b2.hash ∧ b0.key = b2.key := by
            intro b2 hb2
            rcases List.mem_or_eq_of_mem_set hb2 with h1 | h1
            · exact ⟨b2, h1, rfl, rfl⟩
            · subst h1
              exact ⟨b, hbmem, rfl, rfl⟩
          obtain ⟨hWF1, hPl1, hmono⟩ := setShard_WF hja hWF hPl hInv1 hsub1
            (z := st.cache.size) (by simp) (WFcore_len_le_cached hWF ja)
          refine ⟨⟨⟨st.cache.shards.set ja
                (⟨(st.cache.shardAt ja).indices,
                  (st.cache.shardAt ja).entries.set 0
                    ⟨b.hash, b.key, ⟨v1, b.value.timestamp⟩⟩⟩,
                  st.cache.cachedAt ja),
                st.cache.size⟩,
              st.ctr, st.evicted, σ1⟩,
            true, ?_, ?_, fun h => Bool.noConfusion h, fun _ => Or.inr ?_⟩
          · simp only [walkLoop, hpop, hl1, hb0, hres]
          · refine walkout_of_step (q := b.key) (w := v1) hWF1 hPl1 (by simp)
              (fun j2 => cachedAt_mk_set_keep st.cache hja _ _ j2) ?_ hmono
              (Or.inl ⟨rfl, rfl⟩)
            intro j2
            by_cases hje : j2 = ja
            · rw [hje, shardAt_mk_set_eq st.cache hja _ (st.cache.cachedAt ja) st.cache.size]
              exact Nat.le_refl _
            · rw [shardAt_mk_set_ne st.cache (fun h3 => hje h3.symm) _
                (st.cache.cachedAt ja) st.cache.size]
          · have h5 := (HJ st.pstate b.key b.value.value st.evicted.length hJ).2.2
            rw [hres] at h5
            exact h5 rfl
        | Continue =>
          -- evict the sole entry, keep the outer loop going
          have hd : (((st.cache.shardAt ja).entries.set 0
                ⟨b.hash, b.key, ⟨v1, b.value.timestamp⟩⟩ : List (Bucket K (TSValue V)))).dropLast
              = [] := by
            rw [hsb]
            rfl
          have hgl : (((st.cache.shardAt ja).entries.set 0
                ⟨b.hash, b.key, ⟨v1, b.value.timestamp⟩⟩ : List (Bucket K (TSValue V)))).getLast?
              = some ⟨b.hash, b.key, ⟨v1, b.value.timestamp⟩⟩ := by
            rw [hsb]
            rfl
          have hsub1 : ∀ b2 ∈ (([] : List (Bucket K (TSValue V)))),
              ∃ b0 ∈ (st.cache.shardAt ja).entries, b0.hash = b2.hash ∧ b0.key = b2.key := by
            intro b2 hb2
            cases hb2
          obtain ⟨hWF1, hPl1, hmono⟩ := setShard_WF hja hWF hPl Inv_empty hsub1
            (z := st.cache.size - 1)
            (by
              have h9 : ((⟨[], []⟩ : IndexedShard K (TSValue V))).entries.length = 0 := rfl
              omega)
            (Nat.zero_le _)
          have hnotin : NotIn hf
              (LruCache.mk (st.cache.shards.set ja
                ((⟨[], []⟩ : IndexedShard K (TSValue V)), st.cache.cachedAt ja))
                (st.cache.size - 1)) b.key := by
            intro p hp hcont
            obtain ⟨j4, hj4, hbe4⟩ := List.mem_iff_getElem.mp hp
            have hj4z : j4 < (st.cache.shards.set ja
                ((⟨[], []⟩ : IndexedShard K (TSValue V)), st.cache.cachedAt ja)).length := hj4
            have hj4s : j4 < st.cache.shards.length := by simpa using hj4z
            by_cases hje : j4 = ja
            · have hpv : p = ((⟨[], []⟩ : IndexedShard K (TSValue V)), st.cache.cachedAt ja) := by
                subst hje
                rw [← hbe4, List.getElem_set, if_pos rfl]
              rw [hpv] at hcont
              obtain ⟨b3, hb3, -, -⟩ := hcont
              cases hb3
            · have hpv : p = st.cache.shards[j4] := by
                rw [← hbe4, List.getElem_set, if_neg (fun h3 => hje h3.symm)]
              obtain ⟨b3, hb3, hb3h, hb3k⟩ := hcont
              rw [hpv] at hb3
              have hpl3 := hPl j4 hj4s b3 hb3
              have hhh : b.hash = hf b.key := hbpl.1
              exact hje (by rw [hpl3.2, hpl3.1, hb3k, ← hhh, ← hbpl.2])
          refine ⟨⟨⟨st.cache.shards.set ja
                ((⟨[], []⟩ : IndexedShard K (TSValue V)), st.cache.cachedAt ja),
                st.cache.size - 1⟩,
              st.ctr, st.evicted ++ [(b.key, v1)], σ1⟩,
            false, ?_, ?_,
            fun _ => ⟨by show st.cache.size - 1 < st.cache.size; omega, ?_⟩,
            fun h => Bool.noConfusion h⟩
          · simp only [walkLoop, hpop, hl1, hb0, hres, hgl, hd]
            rfl
          · refine walkout_of_step (q := b.key) (w := v1) hWF1 hPl1 (by simp)
              (fun j2 => cachedAt_mk_set_keep st.cache hja _ _ j2) ?_ hmono
              (Or.inr ⟨by show st.cache.size - 1 + 1 = st.cache.size; omega, rfl, hnotin⟩)
            intro j2
            by_cases hje : j2 = ja
            · rw [hje, shardAt_mk_set_eq st.cache hja _ (st.cache.cachedAt ja) (st.cache.size - 1)]
              exact Nat.zero_le _
            · rw [shardAt_mk_set_ne st.cache (fun h3 => hje h3.symm) _
                (st.cache.cachedAt ja) (st.cache.size - 1)]
          · have h5 := (HJ st.pstate b.key b.value.value st.evicted.length hJ).1
            rw [hres] at h5
            have h6 := h5 rfl
            simpa using h6
        | Once =>
          -- evict the sole entry and break the outer loop
          have hd : (((st.cache.shardAt ja).entries.set 0
                ⟨b.hash, b.key, ⟨v1, b.value.timestamp⟩⟩ : List (Bucket K (TSValue V)))).dropLast
              = [] := by
            rw [hsb]
            rfl
          have hgl : (((st.cache.shardAt ja).entries.set 0
                ⟨b.hash, b.key, ⟨v1, b.value.timestamp⟩⟩ : List (Bucket K (TSValue V)))).getLast?
              = some ⟨b.hash, b.key, ⟨v1, b.value.timestamp⟩⟩ := by
            rw [hsb]
            rfl
          have hsub1 : ∀ b2 ∈ (([] : List (Bucket K (TSValue V)))),
              ∃ b0 ∈ (st.cache.shardAt ja).entries, b0.hash = b2.hash ∧ b0.key = b2.key := by
            intro b2 hb2
            cases hb2
          obtain ⟨hWF1, hPl1, hmono⟩ := setShard_WF hja hWF hPl Inv_empty hsub1
            (z := st.cache.size - 1)
            (by
              have h9 : ((⟨[], []⟩ : IndexedShard K (TSValue V))).entries.length = 0 := rfl
              omega)
            (Nat.zero_le _)
          have hnotin : NotIn hf
              (LruCache.mk (st.cache.shards.set ja
                ((⟨[], []⟩ : IndexedShard K (TSValue V)), st.cache.cachedAt ja))
                (st.cache.size - 1)) b.key := by
            intro p hp hcont
            obtain ⟨j4, hj4, hbe4⟩ := List.mem_iff_getElem.mp hp
            have hj4z : j4 < (st.cache.shards.set ja
                ((⟨[], []⟩ : IndexedShard K (TSValue V)), st.cache.cachedAt ja)).length := hj4
            have hj4s : j4 < st.cache.shards.length := by simpa using hj4z
            by_cases hje : j4 = ja
            · have hpv : p = ((⟨[], []⟩ : IndexedShard K (TSValue V)), st.cache.cachedAt ja) := by
                subst hje
                rw [← hbe4, List.getElem_set, if_pos rfl]
              rw [hpv] at hcont
              obtain ⟨b3, hb3, -, -⟩ := hcont
              cases hb3
            · have hpv : p = st.cache.shards[j4] := by
                rw [← hbe4, List.getElem_set, if_neg (fun h3 => hje h3.symm)]
              obtain ⟨b3, hb3, hb3h, hb3k⟩ := hcont
              rw [hpv] at hb3
              have hpl3 := hPl j4 hj4s b3 hb3
              have hhh : b.hash = hf b.key := hbpl.1
              exact hje (by rw [hpl3.2, hpl3.1, hb3k, ← hhh, ← hbpl.2])
          refine ⟨⟨⟨st.cache.shards.set ja
                ((⟨[], []⟩ : IndexedShard K (TSValue V)), st.cache.cachedAt ja),
                st.cache.size - 1⟩,
              st.ctr, st.evicted ++ [(b.key, v1)], σ1⟩,
            true, ?_, ?_, fun h => Bool.noConfusion h, fun _ => Or.inl ?_⟩
          · simp only [walkLoop, hpop, hl1, hb0, hres, hgl, hd]
            rfl
          · refine walkout_of_step (q := b.key) (w := v1) hWF1 hPl1 (by simp)
              (fun j2 => cachedAt_mk_set_keep st.cache hja _ _ j2) ?_ hmono
              (Or.inr ⟨by show st.cache.size - 1 + 1 = st.cache.size; omega, rfl, hnotin⟩)
            intro j2
            by_cases hje : j2 = ja
            · rw [hje, shardAt_mk_set_eq st.cache hja _ (st.cache.cachedAt ja) (st.cache.size - 1)]
              exact Nat.zero_le _
            · rw [shardAt_mk_set_ne st.cache (fun h3 => hje h3.symm) _
                (st.cache.cachedAt ja) (st.cache.size - 1)]
          · have h5 := (HJ st.pstate b.key b.value.value st.evicted.length hJ).2.1
            rw [hres] at h5
            have h6 := h5 rfl
            simpa using h6
      · -- two-choice sampling inside the sole locked shard (`len ≥ 2`)
        obtain ⟨lmm, hl2⟩ : ∃ m, (st.cache.shardAt ja).len = m + 2 :=
          ⟨(st.cache.shardAt ja).len - 2, by omega⟩
        have hlen2 : (st.cache.shardAt ja).entries.length = lmm + 2 := by omega
        obtain ⟨ia, ib, ctr1, hpi⟩ :=
          pick_indices_total hsep hpf (show (1 : Nat) ≤ lmm + 2 by omega) st.ctr
        obtain ⟨hia, hib, -, -⟩ := pick_indices_spec hpi
        have hia2 : ia < (st.cache.shardAt ja).entries.length := by omega
        have hib2 : ib < (st.cache.shardAt ja).entries.length := by omega
        have htsa : (((st.cache.shardAt ja).entries[ia]?).map (fun b => b.value.timestamp))
            = some ((st.cache.shardAt ja).entries[ia]).value.timestamp := by
          rw [List.getElem?_eq_getElem hia2]
          rfl
        have htsb : (((st.cache.shardAt ja).entries[ib]?).map (fun b => b.value.timestamp))
            = some ((st.cache.shardAt ja).entries[ib]).value.timestamp := by
          rw [List.getElem?_eq_getElem hib2]
          rfl
        have hidx : twoChoice ((st.cache.shardAt ja).entries[ia]).value.timestamp
            ((st.cache.shardAt ja).entries[ib]).value.timestamp ia ib
              < (st.cache.shardAt ja).entries.length := by
          rcases twoChoice_or ((st.cache.shardAt ja).entries[ia]).value.timestamp
            ((st.cache.shardAt ja).entries[ib]).value.timestamp ia ib with h3 | h3 <;>
            rw [h3] <;> omega
        obtain ⟨b, res, st1, hent, hstep, hrq, hps, hctr, hlen1, hcach, hshne, hlens,
            hWF1, hPl1, hmono, hNon, hEv⟩ :=
          predEvictStep_spec hf P { st with ctr := ctr1 } hja hWF hPl hidx
        have hw0 : walkLoop P ρ pf (fuel + 1) st ne ja
            = some (st1, res == Evict.Once || res == Evict.NoneE) := by
          simp only [walkLoop, hpop, hl2, hpi, htsa, htsb, hstep]
        have hlen1a : st1.cache.shards.length = st.cache.shards.length := hlen1
        have hcacha : ∀ j2, st1.cache.cachedAt j2 = st.cache.cachedAt j2 := hcach
        have hlensa : ∀ j2, (st1.cache.shardAt j2).len ≤ (st.cache.shardAt j2).len := hlens
        have hmonoa : ∀ k, NotIn hf st.cache k → NotIn hf st1.cache k := hmono
        have hpsa : st1.pstate = (P st.pstate b.key b.value.value).2.2 := hps
        cases res with
        | Continue =>
          obtain ⟨hsz1, hev1, hni1, -⟩ := hEv (fun h => Evict.noConfusion h)
          have hsz2 : st1.cache.size + 1 = st.cache.size := hsz1
          have hev2 : st1.evicted
              = st.evicted ++ [(b.key, (P st.pstate b.key b.value.value).2.1)] := hev1
          refine ⟨st1, false, hw0, ?_, fun _ => ⟨by omega, ?_⟩, fun h => Bool.noConfusion h⟩
          · exact walkout_of_step hWF1 hPl1 hlen1a hcacha hlensa hmonoa
              (Or.inr ⟨hsz2, hev2, hni1⟩)
          · have h5 := (HJ st.pstate b.key b.value.value st.evicted.length hJ).1
            have h6 := h5 hrq.symm
            rw [← hpsa] at h6
            have h7 : st1.evicted.length = st.evicted.length + 1 := by
              rw [hev2]
              simp
            rw [← h7] at h6
            exact h6
        | Once =>
          obtain ⟨hsz1, hev1, hni1, -⟩ := hEv (fun h => Evict.noConfusion h)
          have hsz2 : st1.cache.size + 1 = st.cache.size := hsz1
          have hev2 : st1.evicted
              = st.evicted ++ [(b.key, (P st.pstate b.key b.value.value).2.1)] := hev1
          refine ⟨st1, true, hw0, ?_, fun h => Bool.noConfusion h, fun _ => Or.inl ?_⟩
          · exact walkout_of_step hWF1 hPl1 hlen1a hcacha hlensa hmonoa
              (Or.inr ⟨hsz2, hev2, hni1⟩)
          · have h5 := (HJ st.pstate b.key b.value.value st.evicted.length hJ).2.1
            have h6 := h5 hrq.symm
            rw [← hpsa] at h6
            have h7 : st1.evicted.length = st.evicted.length + 1 := by
              rw [hev2]
              simp
            rw [← h7] at h6
            exact h6
        | NoneE =>
          obtain ⟨hsz1, hev1⟩ := hNon rfl
          have hsz2 : st1.cache.size = st.cache.size := hsz1
          have hev2 : st1.evicted = st.evicted := hev1
          refine ⟨st1, true, hw0, ?_, fun h => Bool.noConfusion h, fun _ => Or.inr ?_⟩
          · exact walkout_of_step (q := b.key) (w := b.value.value) hWF1 hPl1
              hlen1a hcacha hlensa hmonoa (Or.inl ⟨hsz2, hev2⟩)
          · have h5 := (HJ st.pstate b.key b.value.value st.evicted.length hJ).2.2
            have h6 := h5 hrq.symm
            rw [← hpsa] at h6
            have h7 : st1.evicted.length = st.evicted.length := by rw [hev2]
            rw [← h7] at h6
            exact h6
    | some pr =>
      rcases pr with ⟨jb, ne1⟩
      obtain ⟨hjbm, hjbpos, hlt1, hsub1⟩ := popShard_some_spec hpop
      have hjb : jb < st.cache.shards.length := hnemem jb hjbm
      have hInvb : Inv (st.cache.shardAt jb) := WFcore_shardAt_Inv hWF jb
      have hlenEb : (st.cache.shardAt jb).indices.length = (st.cache.shardAt jb).entries.length :=
        hInvb.1
      have hlenib : (st.cache.shardAt jb).len = (st.cache.shardAt jb).indices.length := rfl
      obtain ⟨ra, rb, ctr1, hpi⟩ :=
        pick_indices_total hsep hpf
          (show (1 : Nat) ≤ (st.cache.shardAt ja).len + (st.cache.shardAt jb).len by omega) st.ctr
      obtain ⟨hra, hrb, -, -⟩ := pick_indices_spec hpi
      have hlaE : (st.cache.shardAt ja).len = (st.cache.shardAt ja).entries.length := by omega
      have hlbE : (st.cache.shardAt jb).len = (st.cache.shardAt jb).entries.length := by omega
      obtain ⟨tsa, htsa⟩ := tsAtRange_total hlaE
        (show ra < (st.cache.shardAt ja).len + (st.cache.shardAt jb).entries.length by omega)
      obtain ⟨tsb, htsb⟩ := tsAtRange_total hlaE
        (show rb < (st.cache.shardAt ja).len + (st.cache.shardAt jb).entries.length by omega)
      have hrc : twoChoice tsa tsb ra rb < (st.cache.shardAt ja).len + (st.cache.shardAt jb).len := by
        rcases twoChoice_or tsa tsb ra rb with h3 | h3 <;> rw [h3] <;> omega
      have hjq : (if twoChoice tsa tsb ra rb < (st.cache.shardAt ja).len
            then (ja, twoChoice tsa tsb ra rb)
            else (jb, twoChoice tsa tsb ra rb - (st.cache.shardAt ja).len)).1
          < st.cache.shards.length := by
        by_cases hsplit : twoChoice tsa tsb ra rb < (st.cache.shardAt ja).len
        · rw [if_pos hsplit]
          exact hja
        · rw [if_neg hsplit]
          exact hjb
      have hidxq : (if twoChoice tsa tsb ra rb < (st.cache.shardAt ja).len
            then (ja, twoChoice tsa tsb ra rb)
            else (jb, twoChoice tsa tsb ra rb - (st.cache.shardAt ja).len)).2
          < (st.cache.shardAt
              (if twoChoice tsa tsb ra rb < (st.cache.shardAt ja).len
                then (ja, twoChoice tsa tsb ra rb)
                else (jb, twoChoice tsa tsb ra rb - (st.cache.shardAt ja).len)).1).entries.length := by
        by_cases hsplit : twoChoice tsa tsb ra rb < (st.cache.shardAt ja).len
        · rw [if_pos hsplit]
          show twoChoice tsa tsb ra rb < (st.cache.shardAt ja).entries.length
          omega
        · rw [if_neg hsplit]
          show twoChoice tsa tsb ra rb - (st.cache.shardAt ja).len
              < (st.cache.shardAt jb).entries.length
          omega
      obtain ⟨b, res, st1, hent, hstep, hrq, hps, hctr, hlen1, hcach, hshne, hlens,
          hWF1, hPl1, hmono, hNon, hEv⟩ :=
        predEvictStep_spec hf P { st with ctr := ctr1 } hjq hWF hPl hidxq
      have hlen1a : st1.cache.shards.length = st.cache.shards.length := hlen1
      have hcacha : ∀ j2, st1.cache.cachedAt j2 = st.cache.cachedAt j2 := hcach
      have hlensa : ∀ j2, (st1.cache.shardAt j2).len ≤ (st.cache.shardAt j2).len := hlens
      have hmonoa : ∀ k, NotIn hf st.cache k → NotIn hf st1.cache k := hmono
      have hpsa : st1.pstate = (P st.pstate b.key b.value.value).2.2 := hps
      cases res with
      | NoneE =>
        obtain ⟨hsz1, hev1⟩ := hNon rfl
        have hsz2 : st1.cache.size = st.cache.size := hsz1
        have hev2 : st1.evicted = st.evicted := hev1
        have hw0 : walkLoop P ρ pf (fuel + 1) st ne ja = some (st1, true) := by
          simp only [walkLoop, hpop, hpi, htsa, htsb, hstep]
          rfl
        refine ⟨st1, true, hw0, ?_, fun h => Bool.noConfusion h, fun _ => Or.inr ?_⟩
        · exact walkout_of_step (q := b.key) (w := b.value.value) hWF1 hPl1
            hlen1a hcacha hlensa hmonoa (Or.inl ⟨hsz2, hev2⟩)
        · have h5 := (HJ st.pstate b.key b.value.value st.evicted.length hJ).2.2
          have h6 := h5 hrq.symm
          rw [← hpsa] at h6
          have h7 : st1.evicted.length = st.evicted.length := by rw [hev2]
          rw [← h7] at h6
          exact h6
      | Once =>
        obtain ⟨hsz1, hev1, hni1, -⟩ := hEv (fun h => Evict.noConfusion h)
        have hsz2 : st1.cache.size + 1 = st.cache.size := hsz1
        have hev2 : st1.evicted
            = st.evicted ++ [(b.key, (P st.pstate b.key b.value.value).2.1)] := hev1
        have hw0 : walkLoop P ρ pf (fuel + 1) st ne ja = some (st1, true) := by
          simp only [walkLoop, hpop, hpi, htsa, htsb, hstep]
          rfl
        refine ⟨st1, true, hw0, ?_, fun h => Bool.noConfusion h, fun _ => Or.inl ?_⟩
        · exact walkout_of_step hWF1 hPl1 hlen1a hcacha hlensa hmonoa
            (Or.inr ⟨hsz2, hev2, hni1⟩)
        · have h5 := (HJ st.pstate b.key b.value.value st.evicted.length hJ).2.1
          have h6 := h5 hrq.symm
          rw [← hpsa] at h6
          have h7 : st1.evicted.length = st.evicted.length + 1 := by
            rw [hev2]
            simp
          rw [← h7] at h6
          exact h6
      | Continue =>
        obtain ⟨hsz1, hev1, hni1, -⟩ := hEv (fun h => Evict.noConfusion h)
        have hsz2 : st1.cache.size + 1 = st.cache.size := hsz1
        have hev2 : st1.evicted
            = st.evicted ++ [(b.key, (P st.pstate b.key b.value.value).2.1)] := hev1
        have hWO1 : WalkOut hf st st1 :=
          walkout_of_step hWF1 hPl1 hlen1a hcacha hlensa hmonoa
            (Or.inr ⟨hsz2, hev2, hni1⟩)
        have hJ1 : J st1.pstate st1.evicted.length := by
          have h5 := (HJ st.pstate b.key b.value.value st.evicted.length hJ).1
          have h6 := h5 hrq.symm
          rw [← hpsa] at h6
          have h7 : st1.evicted.length = st.evicted.length + 1 := by
            rw [hev2]
            simp
          rw [← h7] at h6
          exact h6
        by_cases hjb0 : (st1.cache.shardAt jb).len = 0
        · cases hpop2 : popShard st1.cache ne1 with
          | some pr2 =>
            rcases pr2 with ⟨ja2, ne2⟩
            obtain ⟨hj2m, hj2pos, hlt2, hsub2⟩ := popShard_some_spec hpop2
            have hw0 : walkLoop P ρ pf (fuel + 1) st ne ja
                = walkLoop P ρ pf fuel st1 ne2 ja2 := by
              simp only [walkLoop, hpop, hpi, htsa, htsb, hstep]
              rw [if_neg (by decide), if_pos hjb0, hpop2]
            have hja2 : ja2 < st1.cache.shards.length := by
              rw [hlen1a]
              exact hnemem ja2 (hsub1 ja2 hj2m)
            have hne2 : ∀ x ∈ ne2, x < st1.cache.shards.length := by
              intro x hx
              rw [hlen1a]
              exact hnemem x (hsub1 x (hsub2 x hx))
            have hfuel2 : ne2.length < fuel := by omega
            obtain ⟨st2, flag2, hw2, hWO2, hF2, hT2⟩ :=
              ih st1 ne2 ja2 hfuel2 hja2 hj2pos hne2 hWF1 hPl1 hJ1
            refine ⟨st2, flag2, hw0.trans hw2, hWO1.trans hWO2, ?_, hT2⟩
            intro hfl
            obtain ⟨hslt, hJ2⟩ := hF2 hfl
            exact ⟨by omega, hJ2⟩
          | none =>
            have hw0 : walkLoop P ρ pf (fuel + 1) st ne ja = some (st1, false) := by
              simp only [walkLoop, hpop, hpi, htsa, htsb, hstep]
              rw [if_neg (by decide), if_pos hjb0, hpop2]
            exact ⟨st1, false, hw0, hWO1, fun _ => ⟨by omega, hJ1⟩,
              fun h => Bool.noConfusion h⟩
        · have hw0 : walkLoop P ρ pf (fuel + 1) st ne ja
              = walkLoop P ρ pf fuel st1 ne1 jb := by
            simp only [walkLoop, hpop, hpi, htsa, htsb, hstep]
            rw [if_neg (by decide), if_neg hjb0]
          have hjb1 : jb < st1.cache.shards.length := by
            rw [hlen1a]
            exact hjb
          have hpos1 : 0 < (st1.cache.shardAt jb).len := Nat.pos_of_ne_zero hjb0
          have hne1m : ∀ x ∈ ne1, x < st1.cache.shards.length := by
            intro x hx
            rw [hlen1a]
            exact hnemem x (hsub1 x hx)
          have hfuel1 : ne1.length < fuel := by omega
          obtain ⟨st2, flag2, hw2, hWO2, hF2, hT2⟩ :=
            ih st1 ne1 jb hfuel1 hjb1 hpos1 hne1m hWF1 hPl1 hJ1
          refine ⟨st2, flag2, hw0.trans hw2, hWO1.trans hWO2, ?_, hT2⟩
          intro hfl
          obtain ⟨hslt, hJ2⟩ := hF2 hfl
          exact ⟨by omega, hJ2⟩

set_option maxHeartbeats 2000000 in
/-- Master specification of the outer `'evict` loop: with fuel exceeding the
cache size it terminates, the exit reason is either an exhausted cache
(`sizeZero`) or a predicate stop (`predStop`), and the predicate views
`J` / `QO` / `QN` are threaded through exactly as in `walkLoop_spec`. -/
theorem evictLoop_spec {σ : Type} (hf : K → Nat) (P : σ → K → V → Evict × V × σ)
    {ρ : Nat → Nat} (hsep : RngSep ρ) {pf : Nat} (hpf : 1 ≤ pf)
    (J QO QN : σ → Nat → Prop)
    (HJ : ∀ s k v n, J s n →
      ((P s k v).1 = Evict.Continue → J (P s k v).2.2 (n + 1))
      ∧ ((P s k v).1 = Evict.Once → QO (P s k v).2.2 (n + 1))
      ∧ ((P s k v).1 = Evict.NoneE → QN (P s k v).2.2 n)) :
    ∀ (fuel : Nat) (st : EState K V σ),
      st.cache.size < fuel →
      WFcore st.cache → Placed hf st.cache →
      J st.pstate st.evicted.length →
      ∃ st1 reason, evictLoop P ρ pf fuel st = some (st1, reason)
        ∧ WalkOut hf st st1
        ∧ (reason = ExitReason.sizeZero →
            st1.cache.size = 0 ∧ J st1.pstate st1.evicted.length)
        ∧ (reason = ExitReason.predStop →
            QO st1.pstate st1.evicted.length ∨ QN st1.pstate st1.evicted.length) := by
  intro fuel
  induction fuel with
  | zero =>
    intro st hfuel
    exact absurd hfuel (Nat.not_lt_zero _)
  | succ fuel ih =>
    intro st hfuel hWF hPl hJ
    by_cases hsz : st.cache.size = 0
    · refine ⟨st, ExitReason.sizeZero, ?_, WalkOut.refl hWF hPl, fun _ => ⟨hsz, hJ⟩,
        fun h => ExitReason.noConfusion h⟩
      simp only [evictLoop, if_pos hsz]
    · obtain ⟨j0, hj0, hj0pos, hj0c⟩ := exists_nonempty_shard hWF (Nat.pos_of_ne_zero hsz)
      have hj0m : j0 ∈ (shuffleList ρ st.cache.non_empty_shards st.ctr).1 :=
        mem_shuffleList.mpr (mem_non_empty_shards.mpr ⟨hj0, hj0c⟩)
      cases hpop : popShard st.cache (shuffleList ρ st.cache.non_empty_shards st.ctr).1 with
      | none =>
        exfalso
        have h5 := popShard_none_spec hpop j0 hj0m
        omega
      | some pr =>
        rcases pr with ⟨ja, ne1⟩
        obtain ⟨hjam, hjapos, hlt1, hsubne⟩ := popShard_some_spec hpop
        have hja : ja < st.cache.shards.length :=
          (mem_non_empty_shards.mp (mem_shuffleList.mp hjam)).1
        have hnemem : ∀ x ∈ ne1, x < st.cache.shards.length := by
          intro x hx
          exact (mem_non_empty_shards.mp (mem_shuffleList.mp (hsubne x hx))).1
        obtain ⟨st1, flag, hw, hWO, hF, hT⟩ := walkLoop_spec hf P hsep hpf J QO QN HJ
          (ne1.length + 1)
          { st with ctr := (shuffleList ρ st.cache.non_empty_shards st.ctr).2 }
          ne1 ja (Nat.lt_succ_self _) hja hjapos hnemem hWF hPl hJ
        have hWO1 : WalkOut hf st st1 := hWO
        cases flag with
        | true =>
          refine ⟨st1, ExitReason.predStop, ?_, hWO1, fun h => ExitReason.noConfusion h,
            fun _ => hT rfl⟩
          simp only [evictLoop, if_neg hsz, hpop, hw]
        | false =>
          obtain ⟨hlt, hJ1⟩ := hF rfl
          have hlt2 : st1.cache.size < st.cache.size := hlt
          have heq : evictLoop P ρ pf (fuel + 1) st = evictLoop P ρ pf fuel st1 := by
            simp only [evictLoop, if_neg hsz, hpop, hw]
          obtain ⟨st2, reason, hw2, hWO2, hZ2, hP2⟩ :=
            ih st1 (by omega) hWO1.1 hWO1.2.1 hJ1
          exact ⟨st2, reason, heq.trans hw2, hWO1.trans hWO2, hZ2, hP2⟩

/-- A key resident nowhere is reported absent by `LruCache::get`, and the
cache is left untouched. -/
theorem get_none_of_NotIn {hf : K → Nat} {c : LruCache K V}
    (hwf : ∀ p ∈ c.shards, Inv p.1) {k : K} (hni : NotIn hf c k)
    (hN : 0 < c.shards.length) (now : Nat) :
    LruCache.get hf c k now = some (none, c) := by
  have hj : hf k % c.shards.length < c.shards.length := Nat.mod_lt _ hN
  have hInv : Inv (c.shardAt (hf k % c.shards.length)) := by
    rw [shardAt_eq_getElem hj]
    exact hwf _ (List.getElem_mem _)
  have hnc : ¬ (c.shardAt (hf k % c.shards.length)).containsKey (hf k) k := by
    rw [shardAt_eq_getElem hj]
    exact hni _ (List.getElem_mem _)
  have hix : ((c.shards.getD (hf k % c.shards.length) (IndexedShard.new, 0)).1).get_index_of
      (hf k) k = none := (get_index_of_eq_none hInv).mpr hnc
  simp only [LruCache.get, hash_and_shard_pos hN, hix]

set_option maxHeartbeats 1000000 in
/-- C1: for every count and adequately separated rng, `evict_many(count, rng)`
on a quiescent well-formed cache returns exactly `min count size_before`
pairs, the size counter drops by exactly that number, the invariants are
preserved, and a subsequent `get` of every returned key reports it absent. -/
theorem C1_evict_many (hf : K → Nat) (c : LruCache K V) (count0 : Nat)
    {ρ : Nat → Nat} (hsep : RngSep ρ) (hWF : CacheWF hf c) (hN : 0 < c.shards.length) :
    ∃ ev c1, LruCache.evict_many c count0 ρ 1 (c.size + 1) = some (ev, c1)
      ∧ ev.length = min count0 c.size
      ∧ c1.size + ev.length = c.size
      ∧ CacheWF hf c1
      ∧ ∀ q ∈ ev, ∀ now, LruCache.get hf c1 q.1 now = some (none, c1) := by
  by_cases hcnt : min count0 c.size = 0
  · refine ⟨[], c, ?_, by simp [hcnt], by simp, hWF, by simp⟩
    simp only [LruCache.evict_many, if_pos hcnt]
  · have hcpos : 1 ≤ min count0 c.size := Nat.pos_of_ne_zero hcnt
    have hcle : min count0 c.size ≤ c.size := Nat.min_le_right _ _
    obtain ⟨st2, reason, heq, hWO, hZ, hP⟩ := evictLoop_spec hf countPred hsep (Nat.le_refl 1)
      (fun s n => 1 ≤ s ∧ s + n = min count0 c.size)
      (fun _ n => n = min count0 c.size)
      (fun _ _ => False)
      (by
        intro s k v n hJn
        refine ⟨?_, ?_, ?_⟩
        · intro hcont
          by_cases h0 : s - 1 = 0
          · exfalso
            have h5 : (countPred s k v).1 = Evict.Once := by simp [countPred, h0]
            rw [hcont] at h5
            cases h5
          · have h1 : (countPred s k v).2.2 = s - 1 := rfl
            rw [h1]
            omega
        · intro honce
          by_cases h0 : s - 1 = 0
          · show n + 1 = min count0 c.size
            omega
          · exfalso
            have h5 : (countPred s k v).1 = Evict.Continue := by simp [countPred, h0]
            rw [honce] at h5
            cases h5
        · intro hnone
          by_cases h0 : s - 1 = 0 <;> simp [countPred, h0] at hnone)
      (c.size + 1) ⟨c, 0, [], min count0 c.size⟩
      (by show c.size < c.size + 1; omega)
      hWF.1 hWF.2 ⟨hcpos, by simp⟩
    obtain ⟨hWF2, hPl2, hL2, hC2, hS2, ⟨tail, hev, hzacc, hni⟩, hmono⟩ := hWO
    have hzacc2 : st2.cache.size + tail.length = c.size := hzacc
    have hev2 : st2.evicted = tail := by
      have h6 : st2.evicted = [] ++ tail := hev
      rw [h6]
      simp
    have hL3 : st2.cache.shards.length = c.shards.length := hL2
    cases reason with
    | sizeZero =>
      exfalso
      obtain ⟨hz0, hJe⟩ := hZ rfl
      have hJe2 : 1 ≤ st2.pstate ∧ st2.pstate + st2.evicted.length = min count0 c.size := hJe
      have hlen : st2.evicted.length = tail.length := by rw [hev2]
      omega
    | predStop =>
      rcases hP rfl with hQO | hQN
      · have hQO2 : st2.evicted.length = min count0 c.size := hQO
        refine ⟨st2.evicted, st2.cache, ?_, hQO2, ?_, ⟨hWF2, hPl2⟩, ?_⟩
        · simp only [LruCache.evict_many, if_neg hcnt]
          rw [heq]
          rfl
        · have hlen : st2.evicted.length = tail.length := by rw [hev2]
          omega
        · intro q hq now
          have hqt : q ∈ tail := by rw [← hev2]; exact hq
          exact get_none_of_NotIn hWF2.1 (hni q hqt) (by omega) now
      · cases hQN

set_option maxHeartbeats 1000000 in
/-- C4: under the cache invariants and an adequately separated rng the
`'evict` loop always terminates, and it exits exactly through the stated
conditions: on `sizeZero` the cache really is empty, and on `predStop` the
last predicate verdict (recorded by the instrumented predicate) was `Once`
or `None`; the loop never fails to terminate within `size + 1` rounds. -/
theorem C4_evict_terminates {σ : Type} (hf : K → Nat) (c : LruCache K V)
    (P : σ → K → V → Evict × V × σ) (σ0 : σ) {ρ : Nat → Nat} (hsep : RngSep ρ)
    (hWF : CacheWF hf c) :
    (∃ ev c1 reason, LruCache.evict c P σ0 ρ 1 (c.size + 1) = some (ev, c1, reason)
       ∧ CacheWF hf c1 ∧ c1.size + ev.length = c.size
       ∧ (reason = ExitReason.sizeZero → c1.size = 0))
    ∧ (∃ st1 reason,
        evictLoop (fun s k v =>
            ((P s.1 k v).1, (P s.1 k v).2.1, ((P s.1 k v).2.2, some (P s.1 k v).1)))
          ρ 1 (c.size + 1) ⟨c, 0, [], (σ0, none)⟩ = some (st1, reason)
        ∧ (reason = ExitReason.predStop →
            st1.pstate.2 = some Evict.Once ∨ st1.pstate.2 = some Evict.NoneE)
        ∧ (reason = ExitReason.sizeZero → st1.cache.size = 0)) := by
  constructor
  · obtain ⟨st2, reason, heq, hWO, hZ, hP⟩ := evictLoop_spec hf P hsep (Nat.le_refl 1)
      (fun _ _ => True) (fun _ _ => True) (fun _ _ => True)
      (fun s k v n _ => ⟨fun _ => trivial, fun _ => trivial, fun _ => trivial⟩)
      (c.size + 1) ⟨c, 0, [], σ0⟩
      (by show c.size < c.size + 1; omega)
      hWF.1 hWF.2 trivial
    obtain ⟨hWF2, hPl2, hL2, hC2, hS2, ⟨tail, hev, hzacc, hni⟩, hmono⟩ := hWO
    have hzacc2 : st2.cache.size + tail.length = c.size := hzacc
    have hev2 : st2.evicted = tail := by
      have h6 : st2.evicted = [] ++ tail := hev
      rw [h6]
      simp
    refine ⟨st2.evicted, st2.cache, reason, ?_, ⟨hWF2, hPl2⟩, ?_, ?_⟩
    · simp only [LruCache.evict]
      rw [heq]
      rfl
    · rw [hev2]
      omega
    · intro hsz
      exact (hZ hsz).1
  · obtain ⟨st2, reason, heq, hWO, hZ, hP⟩ := evictLoop_spec hf
      (fun s k v => ((P s.1 k v).1, (P s.1 k v).2.1, ((P s.1 k v).2.2, some (P s.1 k v).1)))
      hsep (Nat.le_refl 1)
      (fun _ _ => True)
      (fun s _ => s.2 = some Evict.Once)
      (fun s _ => s.2 = some Evict.NoneE)
      (by
        intro s k v n _
        refine ⟨fun _ => trivial, ?_, ?_⟩
        · intro h1
          show some (P s.1 k v).1 = some Evict.Once
          exact congrArg some h1
        · intro h1
          show some (P s.1 k v).1 = some Evict.NoneE
          exact congrArg some h1)
      (c.size + 1) ⟨c, 0, [], (σ0, none)⟩
      (by show c.size < c.size + 1; omega)
      hWF.1 hWF.2 trivial
    exact ⟨st2, reason, heq, fun hps => hP hps, fun hsz => (hZ hsz).1⟩

theorem C1_evict_many_witness :
    CacheWF (fun k => k) (⟨[(⟨[(5, 0)], [⟨5, 5, ⟨50, 0⟩⟩]⟩, 1)], 1⟩ : LruCache Nat Nat)
    ∧ 0 < (⟨[(⟨[(5, 0)], [⟨5, 5, ⟨50, 0⟩⟩]⟩, 1)], 1⟩ : LruCache Nat Nat).shards.length
    ∧ ∃ ev c1, LruCache.evict_many
        (⟨[(⟨[(5, 0)], [⟨5, 5, ⟨50, 0⟩⟩]⟩, 1)], 1⟩ : LruCache Nat Nat) 1 (fun n => n + 1) 1
        ((⟨[(⟨[(5, 0)], [⟨5, 5, ⟨50, 0⟩⟩]⟩, 1)], 1⟩ : LruCache Nat Nat).size + 1)
        = some (ev, c1)
      ∧ ev.length = min 1 (⟨[(⟨[(5, 0)], [⟨5, 5, ⟨50, 0⟩⟩]⟩, 1)], 1⟩ : LruCache Nat Nat).size
      ∧ c1.size + ev.length = (⟨[(⟨[(5, 0)], [⟨5, 5, ⟨50, 0⟩⟩]⟩, 1)], 1⟩ : LruCache Nat Nat).size
      ∧ CacheWF (fun k => k) c1
      ∧ ∀ q ∈ ev, ∀ now, LruCache.get (fun k => k) c1 q.1 now = some (none, c1) :=
  ⟨by decide, by decide,
    C1_evict_many (fun k => k) _ 1 RngSep_succ (by decide) (by decide)⟩

theorem C4_evict_terminates_witness :
    CacheWF (fun k : Nat => k) (LruCache.with_hasher 1 : LruCache Nat Nat)
    ∧ ((∃ ev c1 reason, LruCache.evict (LruCache.with_hasher 1 : LruCache Nat Nat)
          (fun s k v => (Evict.Once, v, s)) (0 : Nat) (fun n => n + 1) 1
          ((LruCache.with_hasher 1 : LruCache Nat Nat).size + 1) = some (ev, c1, reason)
        ∧ CacheWF (fun k : Nat => k) c1
        ∧ c1.size + ev.length = (LruCache.with_hasher 1 : LruCache Nat Nat).size
        ∧ (reason = ExitReason.sizeZero → c1.size = 0))
      ∧ (∃ st1 reason, evictLoop (fun (s : Nat × Option Evict) (k : Nat) (v : Nat) =>
            (Evict.Once, v, (s.1, some Evict.Once)))
          (fun n => n + 1) 1 ((LruCache.with_hasher 1 : LruCache Nat Nat).size + 1)
          ⟨LruCache.with_hasher 1, 0, [], ((0 : Nat), none)⟩ = some (st1, reason)
        ∧ (reason = ExitReason.predStop →
            st1.pstate.2 = some Evict.Once ∨ st1.pstate.2 = some Evict.NoneE)
        ∧ (reason = ExitReason.sizeZero → st1.cache.size = 0))) :=
  ⟨by decide,
    C4_evict_terminates (fun k => k) (LruCache.with_hasher 1) (fun s k v => (Evict.Once, v, s))
      0 RngSep_succ (by decide)⟩

/-- C2: every `IndexedShard` operation — `insert_full` (both paths),
`swap_remove_full`, `swap_remove_index_raw`, `retain`, `clear`, `clone`, and
the evictor's single-entry fast path (`indices.clear()` + `entries.pop()`) —
preserves the structural invariant `Inv` (`|indices| = |entries|`, every
index pair valid and complete, slots unique), under which looking up
`entries[i].hash` (disambiguated by key equality) yields exactly `i`. -/
theorem C2_shard_invariant {K V : Type} [DecidableEq K] (s : IndexedShard K V) (hs : Inv s) :
    (∀ i, (hi : i < s.entries.length) →
        s.get_index_of (s.entries[i].hash) (s.entries[i].key) = some i)
    ∧ Inv (IndexedShard.new : IndexedShard K V)
    ∧ Inv s.clear
    ∧ Inv s.clone
    ∧ (∀ h k v, Inv (s.insert_full h k v).2.2)
    ∧ (∀ h k, ∃ r s1, s.swap_remove_full h k = some (r, s1) ∧ Inv s1)
    ∧ (∀ i, i < s.entries.length → ∃ r s1, s.swap_remove_index_raw i = some (r, s1) ∧ Inv s1)
    ∧ (∀ f, ∃ s1, s.retain f = some s1 ∧ Inv s1)
    ∧ (s.len = 1 → Inv (⟨[], s.entries.dropLast⟩ : IndexedShard K V)) := by
  refine ⟨fun i hi => get_index_of_resident hs hi, Inv_new, Inv_empty, hs, ?_, ?_, ?_, ?_,
    fun h1 => Inv_singleton_drain hs h1⟩
  · intro h k v
    cases hix : s.get_index_of h k with
    | none =>
      have habs : ¬ s.containsKey h k := (get_index_of_eq_none hs).mp hix
      obtain ⟨heq, hInv1, -, -⟩ := insert_full_vacant hs habs (v := v)
      rw [heq]
      exact hInv1
    | some i =>
      obtain ⟨hi, heq, hInv1⟩ := insert_full_found hs hix v
      rw [heq]
      exact hInv1
  · intro h k
    cases hix : s.get_index_of h k with
    | none =>
      have habs : ¬ s.containsKey h k := (get_index_of_eq_none hs).mp hix
      exact ⟨none, s, swap_remove_full_none hs habs, hs⟩
    | some i =>
      obtain ⟨hi, s1, heq, hInv1, -⟩ := swap_remove_full_found hs hix
      exact ⟨_, s1, heq, hInv1⟩
  · intro i hi
    obtain ⟨s1, heq, hInv1, -⟩ := swap_remove_index_raw_spec hs hi
    exact ⟨_, s1, heq, hInv1⟩
  · intro f
    obtain ⟨s1, heq, hInv1, -⟩ := retain_spec f s hs
    exact ⟨s1, heq, hInv1⟩

theorem C2_shard_invariant_witness :
    Inv (⟨[(7, 0)], [⟨7, 3, 30⟩]⟩ : IndexedShard Nat Nat)
    ∧ ((∀ i, (hi : i < (⟨[(7, 0)], [⟨7, 3, 30⟩]⟩ : IndexedShard Nat Nat).entries.length) →
          (⟨[(7, 0)], [⟨7, 3, 30⟩]⟩ : IndexedShard Nat Nat).get_index_of
            ((⟨[(7, 0)], [⟨7, 3, 30⟩]⟩ : IndexedShard Nat Nat).entries[i].hash)
            ((⟨[(7, 0)], [⟨7, 3, 30⟩]⟩ : IndexedShard Nat Nat).entries[i].key) = some i)
      ∧ Inv (IndexedShard.new : IndexedShard Nat Nat)
      ∧ Inv (⟨[(7, 0)], [⟨7, 3, 30⟩]⟩ : IndexedShard Nat Nat).clear
      ∧ Inv (⟨[(7, 0)], [⟨7, 3, 30⟩]⟩ : IndexedShard Nat Nat).clone
      ∧ (∀ h k v, Inv ((⟨[(7, 0)], [⟨7, 3, 30⟩]⟩ : IndexedShard Nat Nat).insert_full h k v).2.2)
      ∧ (∀ h k, ∃ r s1, (⟨[(7, 0)], [⟨7, 3, 30⟩]⟩ : IndexedShard Nat Nat).swap_remove_full h k
            = some (r, s1) ∧ Inv s1)
      ∧ (∀ i, i < (⟨[(7, 0)], [⟨7, 3, 30⟩]⟩ : IndexedShard Nat Nat).entries.length →
          ∃ r s1, (⟨[(7, 0)], [⟨7, 3, 30⟩]⟩ : IndexedShard Nat Nat).swap_remove_index_raw i
            = some (r, s1) ∧ Inv s1)
      ∧ (∀ f, ∃ s1, (⟨[(7, 0)], [⟨7, 3, 30⟩]⟩ : IndexedShard Nat Nat).retain f = some s1 ∧ Inv s1)
      ∧ ((⟨[(7, 0)], [⟨7, 3, 30⟩]⟩ : IndexedShard Nat Nat).len = 1 →
          Inv (⟨[], (⟨[(7, 0)], [⟨7, 3, 30⟩]⟩ : IndexedShard Nat Nat).entries.dropLast⟩
            : IndexedShard Nat Nat))) :=
  ⟨by decide, C2_shard_invariant _ (by decide)⟩

/-- C3: every two-choice sampling draw of `evict` / `evict_many_fast` over a
population of `len ≥ 2` yields two distinct in-range slot indices, the
`twoChoice` rule presents the index whose timestamp is not after the
other's (the older wins under `is_before`, ties go to the second), and for
`len = 1` the two indices coincide on the sole slot. -/
theorem C3_sampling {ρ : Nat → Nat} {pf len ctr a b ctr1 : Nat}
    (h : pick_indices ρ pf len ctr = some ((a, b), ctr1)) :
    a < len ∧ b < len ∧ (2 ≤ len → a ≠ b) ∧ (len = 1 → a = 0 ∧ b = 0)
    ∧ ∀ tsA tsB : Nat,
        (twoChoice tsA tsB a b = a ∧ tsA ≤ tsB) ∨ (twoChoice tsA tsB a b = b ∧ tsB ≤ tsA) := by
  obtain ⟨h1, h2, h3, h4⟩ := pick_indices_spec h
  refine ⟨h1, h2, h3, h4, ?_⟩
  intro tsA tsB
  unfold twoChoice
  by_cases h5 : tsA < tsB
  · left
    rw [if_pos (show is_before tsA tsB = true by simp [is_before]; omega)]
    exact ⟨rfl, Nat.le_of_lt h5⟩
  · right
    rw [if_neg (show ¬ is_before tsA tsB = true by simp [is_before]; omega)]
    exact ⟨rfl, Nat.le_of_not_lt h5⟩

theorem C3_sampling_witness :
    pick_indices (fun n => n + 1) 1 3 0 = some ((1, 2), 2)
    ∧ (1 < 3 ∧ 2 < 3 ∧ (2 ≤ 3 → 1 ≠ 2) ∧ (3 = 1 → 1 = 0 ∧ 2 = 0)
      ∧ ∀ tsA tsB : Nat,
          (twoChoice tsA tsB 1 2 = 1 ∧ tsA ≤ tsB) ∨ (twoChoice tsA tsB 1 2 = 2 ∧ tsB ≤ tsA)) :=
  ⟨by decide, @C3_sampling (fun n => n + 1) 1 3 0 1 2 2 (by decide)⟩

/-- C6 counterexample: on a one-shard map holding only the key `2` under the
hash function `k % 2`, `contains 0` answers `true` although no key equal to
`0` is present — `contains` delegates to the hash-only probe. -/
theorem C6_contains_counterexample :
    CHashMap.contains (fun k => k % 2) (⟨[[(2, 12)]], 1⟩ : CHashMap Nat Nat) 0 = some true
    ∧ (∀ p ∈ (⟨[[(2, 12)]], 1⟩ : CHashMap Nat Nat).shards, ∀ q ∈ p, q.1 ≠ 0) := by
  decide

/-- C6 (amended): `contains k` is exactly the hash-only probe of
`contains_hash` at `hash(k)` — it answers `true` iff some resident key of
the selected shard has the same hash as `k`, with no key-equality check, so
a hash collision yields a false positive. -/
theorem C6_contains_amended (hf : K → Nat) (c : CHashMap K V) (k : K) :
    CHashMap.contains hf c k
      = if c.shards.length = 0 then none
        else some ((c.shardAt (hf k % c.shards.length)).any (fun p => hf p.1 == hf k)) := by
  by_cases h0 : c.shards.length = 0
  · rw [if_pos h0]
    unfold CHashMap.contains
    rw [show CHashMap.hash_and_shard hf c k = none from by
      unfold CHashMap.hash_and_shard; rw [if_pos h0]]
  · rw [if_neg h0]
    unfold CHashMap.contains
    rw [show CHashMap.hash_and_shard hf c k = some (hf k, hf k % c.shards.length) from by
      unfold CHashMap.hash_and_shard; rw [if_neg h0]]
    show CHashMap.contains_hash hf c (hf k) = _
    unfold CHashMap.contains_hash
    rw [if_neg h0]

/-- C10: both constructors accept `num_shards = 0`, but on the resulting
zero-shard maps every keyed operation panics (models as `none`) because
shard selection computes `hash % 0`; `batch_read` with a non-empty key list
panics as well. -/
theorem C10_zero_shards {K V : Type} [DecidableEq K] (hf : K → Nat) (k : K) (v : V)
    (now : Nat) (keys : List K) (hk : keys ≠ []) :
    (CHashMap.with_hasher 0 : CHashMap K V).num_shards = 0
    ∧ CHashMap.hash_and_shard hf (CHashMap.with_hasher 0 : CHashMap K V) k = none
    ∧ CHashMap.get hf (CHashMap.with_hasher 0 : CHashMap K V) k = none
    ∧ CHashMap.insert hf (CHashMap.with_hasher 0 : CHashMap K V) k v = none
    ∧ CHashMap.remove hf (CHashMap.with_hasher 0 : CHashMap K V) k = none
    ∧ CHashMap.contains hf (CHashMap.with_hasher 0 : CHashMap K V) k = none
    ∧ CHashMap.batch_read hf (CHashMap.with_hasher 0 : CHashMap K V) keys = none
    ∧ (LruCache.with_hasher 0 : LruCache K V).num_shards = 0
    ∧ LruCache.hash_and_shard hf (LruCache.with_hasher 0 : LruCache K V) k = none
    ∧ LruCache.insert hf (LruCache.with_hasher 0 : LruCache K V) k v now = none
    ∧ LruCache.remove hf (LruCache.with_hasher 0 : LruCache K V) k = none
    ∧ LruCache.getValue? hf (LruCache.with_hasher 0 : LruCache K V) k = none
    ∧ LruCache.get hf (LruCache.with_hasher 0 : LruCache K V) k now = none := by
  obtain ⟨k0, ks, rfl⟩ := List.exists_cons_of_ne_nil hk
  exact ⟨rfl, rfl, rfl, rfl, rfl, rfl, rfl, rfl, rfl, rfl, rfl, rfl, rfl⟩

theorem C10_zero_shards_witness :
    ([0] : List Nat) ≠ []
    ∧ ((CHashMap.with_hasher 0 : CHashMap Nat Nat).num_shards = 0
      ∧ CHashMap.hash_and_shard (fun k => k) (CHashMap.with_hasher 0 : CHashMap Nat Nat) 0 = none
      ∧ CHashMap.get (fun k => k) (CHashMap.with_hasher 0 : CHashMap Nat Nat) 0 = none
      ∧ CHashMap.insert (fun k => k) (CHashMap.with_hasher 0 : CHashMap Nat Nat) 0 0 = none
      ∧ CHashMap.remove (fun k => k) (CHashMap.with_hasher 0 : CHashMap Nat Nat) 0 = none
      ∧ CHashMap.contains (fun k => k) (CHashMap.with_hasher 0 : CHashMap Nat Nat) 0 = none
      ∧ CHashMap.batch_read (fun k => k) (CHashMap.with_hasher 0 : CHashMap Nat Nat) [0] = none
      ∧ (LruCache.with_hasher 0 : LruCache Nat Nat).num_shards = 0
      ∧ LruCache.hash_and_shard (fun k => k) (LruCache.with_hasher 0 : LruCache Nat Nat) 0 = none
      ∧ LruCache.insert (fun k => k) (LruCache.with_hasher 0 : LruCache Nat Nat) 0 0 0 = none
      ∧ LruCache.remove (fun k => k) (LruCache.with_hasher 0 : LruCache Nat Nat) 0 = none
      ∧ LruCache.getValue? (fun k => k) (LruCache.with_hasher 0 : LruCache Nat Nat) 0 = none
      ∧ LruCache.get (fun k => k) (LruCache.with_hasher 0 : LruCache Nat Nat) 0 0 = none) :=
  ⟨by decide, C10_zero_shards (fun k => k) 0 0 0 [0] (by decide)⟩

theorem shardLookup_append_self {K V : Type} [DecidableEq K] (sh : List (K × V)) (k : K) (v : V)
    (hab : CHashMap.shardLookup sh k = none) :
    CHashMap.shardLookup (sh ++ [(k, v)]) k = some (k, v) := by
  unfold CHashMap.shardLookup at hab ⊢
  induction sh with
  | nil => simp
  | cons p rest ih =>
    cases hpk : (p.1 == k) with
    | true =>
      rw [List.find?_cons, hpk] at hab
      cases hab
    | false =>
      rw [List.find?_cons, hpk] at hab
      rw [List.cons_append, List.find?_cons, hpk]
      exact ih hab

set_option maxHeartbeats 1000000 in
/-- C7: inserting an absent key returns `none` and grows `size` by one; a
second insert of the same key returns the first value and leaves `size`
unchanged — for both `CHashMap` and `LruCache`. -/
theorem C7_insert_idempotent_shape {K V : Type} [DecidableEq K] (hf : K → Nat)
    (cm : CHashMap K V) (cl : LruCache K V) (k : K) (v1 v2 : V) (n1 n2 : Nat)
    (hNm : 0 < cm.shards.length)
    (habm : ∀ p ∈ cm.shardAt (hf k % cm.shards.length), p.1 ≠ k)
    (hWF : CacheWF hf cl) (hNl : 0 < cl.shards.length) (habl : NotIn hf cl k) :
    (∃ cm1, CHashMap.insert hf cm k v1 = some (none, cm1)
      ∧ cm1.size = cm.size + 1
      ∧ ∃ cm2, CHashMap.insert hf cm1 k v2 = some (some v1, cm2) ∧ cm2.size = cm1.size)
    ∧ (∃ cl1, LruCache.insert hf cl k v1 n1 = some (none, cl1)
      ∧ cl1.size = cl.size + 1
      ∧ ∃ cl2, LruCache.insert hf cl1 k v2 n2 = some (some v1, cl2) ∧ cl2.size = cl1.size) := by
  constructor
  · -- the plain sharded map
    have hjm : hf k % cm.shards.length < cm.shards.length := Nat.mod_lt _ hNm
    have hhs : CHashMap.hash_and_shard hf cm k = some (hf k, hf k % cm.shards.length) := by
      unfold CHashMap.hash_and_shard
      rw [if_neg (by omega)]
    have hlook : CHashMap.shardLookup (cm.shardAt (hf k % cm.shards.length)) k = none := by
      unfold CHashMap.shardLookup
      apply List.find?_eq_none.mpr
      intro p hp
      simpa using habm p hp
    have heq1 : CHashMap.insert hf cm k v1
        = some (none, ⟨cm.shards.set (hf k % cm.shards.length)
            (cm.shardAt (hf k % cm.shards.length) ++ [(k, v1)]), cm.size + 1⟩) := by
      simp only [CHashMap.insert, hhs, hlook]
    refine ⟨_, heq1, rfl, ?_⟩
    have hlen1 : (⟨cm.shards.set (hf k % cm.shards.length)
        (cm.shardAt (hf k % cm.shards.length) ++ [(k, v1)]), cm.size + 1⟩
          : CHashMap K V).shards.length = cm.shards.length := by
      simp
    have hhs2 : CHashMap.hash_and_shard hf (⟨cm.shards.set (hf k % cm.shards.length)
        (cm.shardAt (hf k % cm.shards.length) ++ [(k, v1)]), cm.size + 1⟩ : CHashMap K V) k
          = some (hf k, hf k % cm.shards.length) := by
      unfold CHashMap.hash_and_shard
      rw [if_neg (by rw [hlen1]; omega), hlen1]
    have hsh1 : (⟨cm.shards.set (hf k % cm.shards.length)
        (cm.shardAt (hf k % cm.shards.length) ++ [(k, v1)]), cm.size + 1⟩
          : CHashMap K V).shardAt (hf k % cm.shards.length)
        = cm.shardAt (hf k % cm.shards.length) ++ [(k, v1)] := by
      show (cm.shards.set (hf k % cm.shards.length)
        (cm.shardAt (hf k % cm.shards.length) ++ [(k, v1)])).getD (hf k % cm.shards.length) []
          = _
      rw [getD_set_eq hjm]
    have hlook2 : CHashMap.shardLookup ((⟨cm.shards.set (hf k % cm.shards.length)
        (cm.shardAt (hf k % cm.shards.length) ++ [(k, v1)]), cm.size + 1⟩
          : CHashMap K V).shardAt (hf k % cm.shards.length)) k = some (k, v1) := by
      rw [hsh1]
      exact shardLookup_append_self _ k v1 hlook
    have heq2 : CHashMap.insert hf (⟨cm.shards.set (hf k % cm.shards.length)
        (cm.shardAt (hf k % cm.shards.length) ++ [(k, v1)]), cm.size + 1⟩ : CHashMap K V) k v2
        = some (some v1, ⟨(⟨cm.shards.set (hf k % cm.shards.length)
            (cm.shardAt (hf k % cm.shards.length) ++ [(k, v1)]), cm.size + 1⟩
              : CHashMap K V).shards.set (hf k % cm.shards.length)
            (CHashMap.shardReplace ((⟨cm.shards.set (hf k % cm.shards.length)
              (cm.shardAt (hf k % cm.shards.length) ++ [(k, v1)]), cm.size + 1⟩
                : CHashMap K V).shardAt (hf k % cm.shards.length)) k v2),
            cm.size + 1⟩) := by
      simp only [CHashMap.insert, hhs2, hlook2]
    exact ⟨_, heq2, rfl⟩
  · -- the LRU cache
    have hjl : hf k % cl.shards.length < cl.shards.length := Nat.mod_lt _ hNl
    have hInv : Inv (cl.shardAt (hf k % cl.shards.length)) := WFcore_shardAt_Inv hWF.1 _
    have hnc : ¬ (cl.shardAt (hf k % cl.shards.length)).containsKey (hf k) k := by
      rw [shardAt_eq_getElem hjl]
      exact habl _ (List.getElem_mem _)
    obtain ⟨hifv, hInvP, hentP, hlenP⟩ := insert_full_vacant hInv hnc (v := (⟨v1, n1⟩ : TSValue V))
    have hif : ((cl.shards.getD (hf k % cl.shards.length) (IndexedShard.new, 0)).1).insert_full
        (hf k) k ⟨v1, n1⟩
          = (((cl.shardAt (hf k % cl.shards.length)).entries.length, none), true,
              ((cl.shardAt (hf k % cl.shards.length)).push (hf k) k ⟨v1, n1⟩).2) := hifv
    have heq1 : LruCache.insert hf cl k v1 n1
        = some (none, ⟨cl.shards.set (hf k % cl.shards.length)
            (((cl.shardAt (hf k % cl.shards.length)).push (hf k) k ⟨v1, n1⟩).2,
              (cl.shards.getD (hf k % cl.shards.length) (IndexedShard.new, 0)).2 + 1),
            cl.size + 1⟩) := by
      simp only [LruCache.insert, hash_and_shard_pos hNl, hif]
      rfl
    refine ⟨_, heq1, rfl, ?_⟩
    set c1 : LruCache K V := ⟨cl.shards.set (hf k % cl.shards.length)
        (((cl.shardAt (hf k % cl.shards.length)).push (hf k) k ⟨v1, n1⟩).2,
          (cl.shards.getD (hf k % cl.shards.length) (IndexedShard.new, 0)).2 + 1),
        cl.size + 1⟩ with hc1
    have hlen1 : c1.shards.length = cl.shards.length := by
      rw [hc1]
      simp
    have hhs2 : LruCache.hash_and_shard hf c1 k = some (hf k, hf k % cl.shards.length) := by
      unfold LruCache.hash_and_shard
      rw [if_neg (by rw [hlen1]; omega), hlen1]
    have hsh1 : (c1.shards.getD (hf k % cl.shards.length) (IndexedShard.new, 0)).1
        = ((cl.shardAt (hf k % cl.shards.length)).push (hf k) k ⟨v1, n1⟩).2 := by
      rw [hc1]
      show ((cl.shards.set (hf k % cl.shards.length) _).getD (hf k % cl.shards.length)
        (IndexedShard.new, 0)).1 = _
      rw [getD_set_eq hjl]
    have hi2 : (cl.shardAt (hf k % cl.shards.length)).entries.length
        < ((cl.shardAt (hf k % cl.shards.length)).push (hf k) k ⟨v1, n1⟩).2.entries.length := by
      rw [hentP]
      simp
    have hgetl : ((cl.shardAt (hf k % cl.shards.length)).push (hf k) k
        ⟨v1, n1⟩).2.entries[(cl.shardAt (hf k % cl.shards.length)).entries.length]
          = ⟨hf k, k, ⟨v1, n1⟩⟩ := by
      have h9 := List.getElem_concat_length
        ((cl.shardAt (hf k % cl.shards.length)).entries)
        (⟨hf k, k, ⟨v1, n1⟩⟩ : Bucket K (TSValue V))
        ((cl.shardAt (hf k % cl.shards.length)).entries.length) rfl
        (by simp)
      rw [← h9]
      rfl
    have hix2 : ((cl.shardAt (hf k % cl.shards.length)).push (hf k) k ⟨v1, n1⟩).2.get_index_of
        (hf k) k = some ((cl.shardAt (hf k % cl.shards.length)).entries.length) := by
      have h9 := get_index_of_resident hInvP hi2
      rw [hgetl] at h9
      exact h9
    obtain ⟨hi3, hif2, hInv3⟩ := insert_full_found hInvP hix2 (⟨v2, n2⟩ : TSValue V)
    have hval3 : ((cl.shardAt (hf k % cl.shards.length)).push (hf k) k
        ⟨v1, n1⟩).2.entries[(cl.shardAt (hf k % cl.shards.length)).entries.length].value
          = ⟨v1, n1⟩ := by
      rw [hgetl]
    have hh4 : ((cl.shardAt (hf k % cl.shards.length)).push (hf k) k
        ⟨v1, n1⟩).2.entries[(cl.shardAt (hf k % cl.shards.length)).entries.length].hash
          = hf k := by
      rw [hgetl]
    have hk4 : ((cl.shardAt (hf k % cl.shards.length)).push (hf k) k
        ⟨v1, n1⟩).2.entries[(cl.shardAt (hf k % cl.shards.length)).entries.length].key
          = k := by
      rw [hgetl]
    have heq2 : LruCache.insert hf c1 k v2 n2
        = some (some v1,
            ⟨c1.shards.set (hf k % cl.shards.length)
              (⟨((cl.shardAt (hf k % cl.shards.length)).push (hf k) k ⟨v1, n1⟩).2.indices,
                ((cl.shardAt (hf k % cl.shards.length)).push (hf k) k
                    ⟨v1, n1⟩).2.entries.set
                  ((cl.shardAt (hf k % cl.shards.length)).entries.length)
                  ⟨hf k, k, ⟨v2, n2⟩⟩⟩,
                (c1.shards.getD (hf k % cl.shards.length) (IndexedShard.new, 0)).2),
              c1.size⟩) := by
      simp only [LruCache.insert, hhs2, hsh1, hif2, hval3, hh4, hk4]
      rfl
    exact ⟨_, heq2, rfl⟩

theorem C7_insert_idempotent_shape_witness :
    0 < (CHashMap.with_hasher 1 : CHashMap Nat Nat).shards.length
    ∧ (∀ p ∈ (CHashMap.with_hasher 1 : CHashMap Nat Nat).shardAt
        (1 % (CHashMap.with_hasher 1 : CHashMap Nat Nat).shards.length), p.1 ≠ 1)
    ∧ CacheWF (fun k => k) (LruCache.with_hasher 1 : LruCache Nat Nat)
    ∧ 0 < (LruCache.with_hasher 1 : LruCache Nat Nat).shards.length
    ∧ NotIn (fun k => k) (LruCache.with_hasher 1 : LruCache Nat Nat) 1
    ∧ ((∃ cm1, CHashMap.insert (fun k => k) (CHashMap.with_hasher 1 : CHashMap Nat Nat) 1 10
          = some (none, cm1)
        ∧ cm1.size = (CHashMap.with_hasher 1 : CHashMap Nat Nat).size + 1
        ∧ ∃ cm2, CHashMap.insert (fun k => k) cm1 1 20 = some (some 10, cm2)
            ∧ cm2.size = cm1.size)
      ∧ (∃ cl1, LruCache.insert (fun k => k) (LruCache.with_hasher 1 : LruCache Nat Nat) 1 10 0
            = some (none, cl1)
          ∧ cl1.size = (LruCache.with_hasher 1 : LruCache Nat Nat).size + 1
          ∧ ∃ cl2, LruCache.insert (fun k => k) cl1 1 20 1 = some (some 10, cl2)
              ∧ cl2.size = cl1.size)) :=
  ⟨by decide, by decide, by decide, by decide, by decide,
    C7_insert_idempotent_shape (fun k => k) (CHashMap.with_hasher 1) (LruCache.with_hasher 1)
      1 10 20 0 1 (by decide) (by decide) (by decide) (by decide) (by decide)⟩

/-! Length bookkeeping of the mutating shard operations, used for the cached
per-shard length invariant. -/

theorem insert_full_cases (s : IndexedShard K V) (h : Nat) (k : K) (v : V) :
    ((s.insert_full h k v).2.2.len = s.len ∧ (s.insert_full h k v).2.1 = false)
    ∨ ((s.insert_full h k v).2.2.len = s.len + 1 ∧ (s.insert_full h k v).2.1 = true) := by
  cases hix : s.get_index_of h k with
  | some i =>
    cases he : s.entries[i]? with
    | some b =>
      have heq : s.insert_full h k v
          = ((i, some b.value), false,
              ⟨s.indices, s.entries.set i ⟨b.hash, b.key, v⟩⟩) := by
        simp only [IndexedShard.insert_full, hix, he]
      rw [heq]
      exact Or.inl ⟨rfl, rfl⟩
    | none =>
      have heq : s.insert_full h k v = ((i, none), false, s) := by
        simp only [IndexedShard.insert_full, hix, he]
      rw [heq]
      exact Or.inl ⟨rfl, rfl⟩
  | none =>
    have heq : s.insert_full h k v = ((s.entries.length, none), true, (s.push h k v).2) := by
      simp only [IndexedShard.insert_full, hix]
      rfl
    rw [heq]
    right
    refine ⟨?_, rfl⟩
    show (s.indices ++ [(h, s.entries.length)]).length = s.indices.length + 1
    simp

theorem swap_remove_finish_lenle {s : IndexedShard K V} {i : Nat} {r : K × V}
    {s1 : IndexedShard K V} (h : s.swap_remove_finish i = some (r, s1)) :
    s1.indices.length = s.indices.length ∧ s1.entries.length + 1 = s.entries.length := by
  cases he : s.entries[i]? with
  | none =>
    simp only [IndexedShard.swap_remove_finish, he] at h
    exact Option.noConfusion h
  | some entry =>
    simp only [IndexedShard.swap_remove_finish, he] at h
    have hnp : 0 < s.entries.length := by
      have := (List.getElem?_eq_some.mp he).1
      omega
    have hlen1 : (swapRemoveVec s.entries i).length = s.entries.length - 1 :=
      length_swapRemoveVec _ _ hnp
    cases hm : (swapRemoveVec s.entries i)[i]? with
    | some moved =>
      simp only [hm] at h
      cases hu : tableUpdate s.indices moved.hash
          (fun idx => idx == (swapRemoveVec s.entries i).length) i with
      | none =>
        simp only [hu] at h
        exact Option.noConfusion h
      | some ind1 =>
        simp only [hu] at h
        have h2 := Option.some.inj h
        have hs1 : s1 = ⟨ind1, swapRemoveVec s.entries i⟩ := (congrArg Prod.snd h2).symm
        obtain ⟨l1, q, l2, hteq, ht1eq, -, -⟩ := tableUpdate_spec hu
        rw [hs1]
        refine ⟨?_, ?_⟩
        · show ind1.length = s.indices.length
          rw [hteq, ht1eq]
          simp
        · show (swapRemoveVec s.entries i).length + 1 = s.entries.length
          omega
    | none =>
      simp only [hm] at h
      have h2 := Option.some.inj h
      have hs1 : s1 = ⟨s.indices, swapRemoveVec s.entries i⟩ := (congrArg Prod.snd h2).symm
      rw [hs1]
      exact ⟨rfl, by show (swapRemoveVec s.entries i).length + 1 = s.entries.length; omega⟩

theorem swap_remove_index_raw_lenle {s : IndexedShard K V} {i : Nat} {r : K × V}
    {s1 : IndexedShard K V} (h : s.swap_remove_index_raw i = some (r, s1)) :
    s1.indices.length ≤ s.indices.length ∧ s1.entries.length + 1 = s.entries.length := by
  cases he : s.entries[i]? with
  | none =>
    simp only [IndexedShard.swap_remove_index_raw, he] at h
    exact Option.noConfusion h
  | some b =>
    simp only [IndexedShard.swap_remove_index_raw, he] at h
    obtain ⟨h1, h2⟩ := swap_remove_finish_lenle h
    refine ⟨?_, h2⟩
    rw [h1]
    exact (tableErase_sublist _ _ _).length_le

theorem retainGo_lenle (f : K → V → Bool × V) :
    ∀ fuel i (s s1 : IndexedShard K V), IndexedShard.retainGo f fuel i s = some s1 →
      s1.len ≤ s.len := by
  intro fuel
  induction fuel with
  | zero => intro i s s1 h; cases h
  | succ fuel ih =>
    intro i s s1 h
    rw [IndexedShard.retainGo] at h
    by_cases hil : i < s.len
    · rw [if_pos hil] at h
      cases he : s.entries[i]? with
      | none =>
        simp only [he] at h
        exact Option.noConfusion h
      | some b =>
        simp only [he] at h
        rcases hfv : f b.key b.value with ⟨keep, v1⟩
        rw [hfv] at h
        cases keep with
        | true =>
          simp only [if_true] at h
          exact ih (i + 1) ⟨s.indices, s.entries.set i ⟨b.hash, b.key, v1⟩⟩ s1 h
        | false =>
          simp only [Bool.false_eq_true, if_false] at h
          cases hm : (IndexedShard.mk
              (tableErase s.indices b.hash (fun idx => idx == i))
              (s.entries.set i ⟨b.hash, b.key, v1⟩)).swap_remove_finish i with
          | none =>
            simp only [hm] at h
            exact Option.noConfusion h
          | some r2 =>
            simp only [hm] at h
            rcases r2 with ⟨r0, s2⟩
            have h5 := ih i s2 s1 h
            obtain ⟨h6, -⟩ := swap_remove_finish_lenle hm
            have h7 : s2.indices.length ≤ s.indices.length := by
              rw [h6]
              exact (tableErase_sublist _ _ _).length_le
            show s1.indices.length ≤ s.indices.length
            have h8 : s1.indices.length ≤ s2.indices.length := h5
            omega
    · rw [if_neg hil] at h
      have h2 := Option.some.inj h
      rw [← h2]

theorem retain_lenle {f : K → V → Bool × V} {s s1 : IndexedShard K V}
    (h : s.retain f = some s1) : s1.len ≤ s.len :=
  retainGo_lenle f (s.len + 1) 0 s s1 h

/-- The cached-length accounting invariant of the LRU cache: every shard's
cached length (the `AtomicUsize` stored beside it) dominates the shard's
true length. This is exactly the third conjunct of `WFcore`. -/
def CachedOK (c : LruCache K V) : Prop := ∀ p ∈ c.shards, p.1.len ≤ p.2

instance (c : LruCache K V) : Decidable (CachedOK c) := by
  unfold CachedOK; infer_instance

theorem retainShards_cachedOK (f : K → V → Bool × V) :
    ∀ (l : List (IndexedShard K (TSValue V) × Nat)) (l1 : List (IndexedShard K (TSValue V) × Nat))
      (n : Nat), LruCache.retainShards f l = some (l1, n) →
      (∀ p ∈ l, p.1.len ≤ p.2) → ∀ p ∈ l1, p.1.len ≤ p.2 := by
  intro l
  induction l with
  | nil =>
    intro l1 n h hC p hp
    simp only [LruCache.retainShards] at h
    have h2 := Option.some.inj h
    have hl1 : ([] : List (IndexedShard K (TSValue V) × Nat)) = l1 := congrArg Prod.fst h2
    rw [← hl1] at hp
    exact absurd hp (List.not_mem_nil p)
  | cons q rest ih =>
    intro l1 n h hC p hp
    cases hr : q.1.retain (fun k tv =>
        ((f k tv.value).1, ⟨(f k tv.value).2, tv.timestamp⟩)) with
    | none =>
      simp only [LruCache.retainShards, hr] at h
      exact Option.noConfusion h
    | some s1 =>
      simp only [LruCache.retainShards, hr] at h
      cases h2 : LruCache.retainShards f rest with
      | none =>
        rw [h2] at h
        exact Option.noConfusion h
      | some rs =>
        rw [h2] at h
        simp only [Option.map] at h
        have h3 := Option.some.inj h
        have hl1 : (s1, q.2) :: rs.1 = l1 := congrArg Prod.fst h3
        rw [← hl1] at hp
        rcases List.mem_cons.mp hp with h4 | h4
        · rw [h4]
          show s1.len ≤ q.2
          have h5 : s1.len ≤ q.1.len := retain_lenle hr
          have h6 : q.1.len ≤ q.2 := hC q (List.mem_cons_self _ _)
          omega
        · exact ih rs.1 rs.2 (by rw [h2]) (fun p2 hp2 => hC p2 (List.mem_cons_of_mem _ hp2)) p h4

theorem fastSample_cachedOK (ρ : Nat → Nat) (pf j : Nat) :
    ∀ (sub : Nat) (c : LruCache K V) (ctr : Nat) (ev : List (K × V))
      (c1 : LruCache K V) (ctr1 : Nat) (ev1 : List (K × V)),
      fastSample ρ pf j sub c ctr ev = some (c1, ctr1, ev1) →
      CachedOK c → CachedOK c1 := by
  intro sub
  induction sub with
  | zero =>
    intro c ctr ev c1 ctr1 ev1 h hC
    simp only [fastSample] at h
    have h2 := Option.some.inj h
    rw [show c1 = (c1, ctr1, ev1).1 from rfl, ← h2]
    exact hC
  | succ sub ih =>
    intro c ctr ev c1 ctr1 ev1 h hC
    cases hpi : pick_indices ρ pf (c.shardAt j).len ctr with
    | none =>
      simp only [fastSample, hpi] at h
      exact Option.noConfusion h
    | some pr =>
      rcases pr with ⟨⟨ia, ib⟩, ctr2⟩
      cases hta : ((c.shardAt j).entries[ia]?).map (fun b => b.value.timestamp) with
      | none =>
        cases htb : ((c.shardAt j).entries[ib]?).map (fun b => b.value.timestamp) with
        | none =>
          simp only [fastSample, hpi, hta, htb] at h
          exact Option.noConfusion h
        | some tsb =>
          simp only [fastSample, hpi, hta, htb] at h
          exact Option.noConfusion h
      | some tsa =>
        cases htb : ((c.shardAt j).entries[ib]?).map (fun b => b.value.timestamp) with
        | none =>
          simp only [fastSample, hpi, hta, htb] at h
          exact Option.noConfusion h
        | some tsb =>
          simp only [fastSample, hpi, hta, htb] at h
          cases hsw : (c.shardAt j).swap_remove_index_raw (twoChoice tsa tsb ia ib) with
          | none =>
            simp only [hsw] at h
            exact Option.noConfusion h
          | some r2 =>
            rcases r2 with ⟨⟨k0, tv⟩, s1⟩
            simp only [hsw] at h
            refine ih _ _ _ _ _ _ h ?_
            intro p hp
            rcases List.mem_or_eq_of_mem_set hp with h1 | h1
            · exact hC p h1
            · rw [h1]
              show s1.len ≤ c.cachedAt j
              obtain ⟨h5, -⟩ := swap_remove_index_raw_lenle hsw
              have hlpos : 0 < (c.shardAt j).len := by
                by_contra h0
                have hz : (c.shardAt j).len = 0 := by omega
                rw [hz] at hpi
                simp only [pick_indices] at hpi
                exact Option.noConfusion hpi
              have hjlt : j < c.shards.length := by
                by_contra hge
                have hz2 : c.shardAt j = IndexedShard.new := shardAt_default (by omega)
                rw [hz2] at hlpos
                have hz3 : (IndexedShard.new : IndexedShard K (TSValue V)).len = 0 := rfl
                omega
              have h6 : (c.shardAt j).len ≤ c.cachedAt j := by
                rw [shardAt_eq_getElem hjlt, cachedAt_eq_getElem hjlt]
                exact hC _ (List.getElem_mem hjlt)
              have h7 : (c.shardAt j).len = (c.shardAt j).indices.length := rfl
              show s1.indices.length ≤ c.cachedAt j
              omega

theorem fastGo_cachedOK (ρ : Nat → Nat) (pf size count : Nat) :
    ∀ (l : List Nat) (c : LruCache K V) (ctr sum : Nat) (ev : List (K × V))
      (tr : List FastStep) (ev1 : List (K × V)) (c1 : LruCache K V) (tr1 : List FastStep),
      fastGo ρ pf size count l c ctr sum ev tr = some (ev1, c1, tr1) →
      CachedOK c → CachedOK c1 := by
  intro l
  induction l with
  | nil =>
    intro c ctr sum ev tr ev1 c1 tr1 h hC
    simp only [fastGo] at h
    have h2 := Option.some.inj h
    rw [show c1 = (ev1, c1, tr1).2.1 from rfl, ← h2]
    exact hC
  | cons j rest ih =>
    intro c ctr sum ev tr ev1 c1 tr1 h hC
    simp only [fastGo] at h
    by_cases hz : (c.shardAt j).len = 0
    · rw [if_pos hz] at h
      exact ih c ctr sum ev tr ev1 c1 tr1 h hC
    · rw [if_neg hz] at h
      by_cases hsub : (if sum + proportion_of size (c.shardAt j).len count > count
            then sum + proportion_of size (c.shardAt j).len count - count - 1
            else proportion_of size (c.shardAt j).len count) = (c.shardAt j).len
      · rw [if_pos hsub] at h
        by_cases hgt : sum + proportion_of size (c.shardAt j).len count > count
        · rw [if_pos hgt] at h
          have h2 := Option.some.inj h
          rw [show c1 = (ev1, c1, tr1).2.1 from rfl, ← h2]
          intro p hp
          rcases List.mem_or_eq_of_mem_set hp with h1 | h1
          · exact hC p h1
          · rw [h1]
            exact Nat.zero_le _
        · rw [if_neg hgt] at h
          refine ih _ _ _ _ _ _ _ _ h ?_
          intro p hp
          rcases List.mem_or_eq_of_mem_set hp with h1 | h1
          · exact hC p h1
          · rw [h1]
            exact Nat.zero_le _
      · rw [if_neg hsub] at h
        cases hfs : fastSample ρ pf j
            (if sum + proportion_of size (c.shardAt j).len count > count
              then sum + proportion_of size (c.shardAt j).len count - count - 1
              else proportion_of size (c.shardAt j).len count) c ctr ev with
        | none =>
          simp only [hfs] at h
          exact Option.noConfusion h
        | some r2 =>
          rcases r2 with ⟨c2, ctr2, ev2⟩
          simp only [hfs] at h
          have hC2 : CachedOK c2 := fastSample_cachedOK ρ pf j _ c ctr ev c2 ctr2 ev2 hfs hC
          by_cases hgt : sum + proportion_of size (c.shardAt j).len count > count
          · rw [if_pos hgt] at h
            have h2 := Option.some.inj h
            rw [show c1 = (ev1, c1, tr1).2.1 from rfl, ← h2]
            exact hC2
          · rw [if_neg hgt] at h
            exact ih _ _ _ _ _ _ _ _ h hC2

/-- C9: after every `LruCache` operation (`insert`, `remove`, `clear`,
`retain`, `evict`, `evict_many`, `evict_many_fast`, `duplicate`) each
shard's cached length dominates the shard's true length; `remove` stores
the exact new length on a hit; a shard whose cached length is zero is
truly empty; and `non_empty_shards` never skips a shard that still holds
entries. -/
theorem C9_cached_length (hf : K → Nat) (c : LruCache K V) (k : K) (v : V)
    (now : Nat) (f : K → V → Bool × V) (P : σ → K → V → Evict × V × σ) (σ0 : σ)
    (count0 : Nat) (ρ : Nat → Nat) (pf ofuel : Nat)
    (hWF : CacheWF hf c) (hsep : RngSep ρ) (hpf : 1 ≤ pf) (hofuel : c.size < ofuel) :
    (∀ o c1, LruCache.insert hf c k v now = some (o, c1) → CachedOK c1)
    ∧ (∀ o c1, LruCache.remove hf c k = some (o, c1) → CachedOK c1)
    ∧ (∀ w c1, LruCache.remove hf c k = some (some w, c1) →
        c1.cachedAt (hf k % c.shards.length)
          = (c1.shardAt (hf k % c.shards.length)).len)
    ∧ CachedOK (LruCache.clear c)
    ∧ (∀ c1, LruCache.retain f c = some c1 → CachedOK c1)
    ∧ CachedOK (LruCache.duplicate c)
    ∧ (∃ ev c1 reason, c.evict P σ0 ρ pf ofuel = some (ev, c1, reason) ∧ CachedOK c1)
    ∧ (∃ ev c1, c.evict_many count0 ρ pf ofuel = some (ev, c1) ∧ CachedOK c1)
    ∧ (∀ ev c1 tr, c.evict_many_fast count0 ρ pf = some (ev, c1, tr) → CachedOK c1)
    ∧ (∀ j, j < c.shards.length → c.cachedAt j = 0 → (c.shardAt j).entries = [])
    ∧ (∀ j, j < c.shards.length → 0 < (c.shardAt j).len → j ∈ c.non_empty_shards) := by
  have hCok : CachedOK c := hWF.1.2.2
  refine ⟨?_, ?_, ?_, ?_, ?_, ?_, ?_, ?_, ?_, ?_, ?_⟩
  · -- insert
    intro o c1 h
    by_cases h0 : c.shards.length = 0
    · have hh : LruCache.hash_and_shard hf c k = none := by
        simp only [LruCache.hash_and_shard, if_pos h0]
      simp only [LruCache.insert, hh] at h
      exact Option.noConfusion h
    · have hj : hf k % c.shards.length < c.shards.length :=
        Nat.mod_lt _ (Nat.pos_of_ne_zero h0)
      have hh : LruCache.hash_and_shard hf c k
          = some (hf k, hf k % c.shards.length) :=
        hash_and_shard_pos (Nat.pos_of_ne_zero h0)
      simp only [LruCache.insert, hh] at h
      have h2 := Option.some.inj h
      rw [show c1 = (o, c1).2 from rfl, ← h2]
      intro p hp
      rcases List.mem_or_eq_of_mem_set hp with h1 | h1
      · exact hCok p h1
      · rw [h1]
        have hpe : c.shards.getD (hf k % c.shards.length) (IndexedShard.new, 0)
            = c.shards[hf k % c.shards.length] := by
          rw [List.getD_eq_getElem?_getD, List.getElem?_eq_getElem hj]
          rfl
        have hle : (c.shards[hf k % c.shards.length]).1.len
            ≤ (c.shards[hf k % c.shards.length]).2 :=
          hCok _ (List.getElem_mem hj)
        rcases insert_full_cases
            (c.shards.getD (hf k % c.shards.length) (IndexedShard.new, 0)).1
            (hf k) k ⟨v, now⟩ with ⟨hl, hb⟩ | ⟨hl, hb⟩
        · show (((c.shards.getD (hf k % c.shards.length) (IndexedShard.new, 0)).1.insert_full
              (hf k) k ⟨v, now⟩).2.2).len ≤ _
          rw [hl, hb, hpe]
          rw [if_neg (show ¬ (false = true) from by decide)]
          exact hle
        · show (((c.shards.getD (hf k % c.shards.length) (IndexedShard.new, 0)).1.insert_full
              (hf k) k ⟨v, now⟩).2.2).len ≤ _
          rw [hl, hb, hpe]
          rw [if_pos rfl]
          omega
  · -- remove (domination)
    intro o c1 h
    by_cases h0 : c.shards.length = 0
    · have hh : LruCache.hash_and_shard hf c k = none := by
        simp only [LruCache.hash_and_shard, if_pos h0]
      simp only [LruCache.remove, hh] at h
      exact Option.noConfusion h
    · have hh : LruCache.hash_and_shard hf c k
          = some (hf k, hf k % c.shards.length) :=
        hash_and_shard_pos (Nat.pos_of_ne_zero h0)
      simp only [LruCache.remove, hh] at h
      cases hsr : (c.shards.getD (hf k % c.shards.length) (IndexedShard.new, 0)).1.swap_remove_full
          (hf k) k with
      | none =>
        simp only [hsr] at h
        exact Option.noConfusion h
      | some pr =>
        rcases pr with ⟨o2, s1⟩
        cases o2 with
        | none =>
          simp only [hsr] at h
          have h2 := Option.some.inj h
          rw [show c1 = ((o, c1).2 : LruCache K V) from rfl, ← h2]
          exact hCok
        | some kv =>
          rcases kv with ⟨k0, tv⟩
          simp only [hsr] at h
          have h2 := Option.some.inj h
          rw [show c1 = ((o, c1).2 : LruCache K V) from rfl, ← h2]
          intro p hp
          rcases List.mem_or_eq_of_mem_set hp with h1 | h1
          · exact hCok p h1
          · rw [h1]
  · -- remove stores the exact length on a hit
    intro w c1 h
    by_cases h0 : c.shards.length = 0
    · have hh : LruCache.hash_and_shard hf c k = none := by
        simp only [LruCache.hash_and_shard, if_pos h0]
      simp only [LruCache.remove, hh] at h
      exact Option.noConfusion h
    · have hj : hf k % c.shards.length < c.shards.length :=
        Nat.mod_lt _ (Nat.pos_of_ne_zero h0)
      have hh : LruCache.hash_and_shard hf c k
          = some (hf k, hf k % c.shards.length) :=
        hash_and_shard_pos (Nat.pos_of_ne_zero h0)
      simp only [LruCache.remove, hh] at h
      cases hsr : (c.shards.getD (hf k % c.shards.length) (IndexedShard.new, 0)).1.swap_remove_full
          (hf k) k with
      | none =>
        simp only [hsr] at h
        exact Option.noConfusion h
      | some pr =>
        rcases pr with ⟨o2, s1⟩
        cases o2 with
        | none =>
          simp only [hsr] at h
          have h2 := Option.some.inj h
          have h3 : (none : Option V) = some w := congrArg Prod.fst h2
          exact Option.noConfusion h3
        | some kv =>
          rcases kv with ⟨k0, tv⟩
          simp only [hsr] at h
          have h2 := Option.some.inj h
          rw [show c1 = ((some w, c1) : Option V × LruCache K V).2 from rfl, ← h2]
          rw [cachedAt_mk_set_eq c hj, shardAt_mk_set_eq c hj]
  · -- clear
    intro p hp
    obtain ⟨a, ha, haq⟩ := List.mem_map.mp hp
    rw [← haq]
    exact Nat.zero_le _
  · -- retain
    intro c1 h
    cases hrs : LruCache.retainShards f c.shards with
    | none =>
      simp only [LruCache.retain, hrs, Option.map] at h
      exact Option.noConfusion h
    | some rs =>
      simp only [LruCache.retain, hrs, Option.map] at h
      have h2 := Option.some.inj h
      rw [← h2]
      intro p hp
      exact retainShards_cachedOK f c.shards rs.1 rs.2 (by rw [hrs]) hCok p hp
  · -- duplicate
    intro p hp
    obtain ⟨a, ha, haq⟩ := List.mem_map.mp hp
    rw [← haq]
  · -- evict
    obtain ⟨st1, reason, hloop, hWO, -, -⟩ :=
      evictLoop_spec hf P hsep hpf (fun _ _ => True) (fun _ _ => True) (fun _ _ => True)
        (fun s k v n _ => ⟨fun _ => trivial, fun _ => trivial, fun _ => trivial⟩)
        ofuel ⟨c, 0, [], σ0⟩ hofuel hWF.1 hWF.2 trivial
    refine ⟨st1.evicted, st1.cache, reason, ?_, hWO.1.2.2⟩
    unfold LruCache.evict
    rw [hloop]
    rfl
  · -- evict_many
    by_cases hc0 : min count0 c.size = 0
    · refine ⟨[], c, ?_, hCok⟩
      simp only [LruCache.evict_many]
      rw [if_pos hc0]
    · obtain ⟨st1, reason, hloop, hWO, -, -⟩ :=
        evictLoop_spec hf countPred hsep hpf (fun _ _ => True) (fun _ _ => True)
          (fun _ _ => True)
          (fun s k v n _ => ⟨fun _ => trivial, fun _ => trivial, fun _ => trivial⟩)
          ofuel ⟨c, 0, [], min count0 c.size⟩ hofuel hWF.1 hWF.2 trivial
      refine ⟨st1.evicted, st1.cache, ?_, hWO.1.2.2⟩
      simp only [LruCache.evict_many]
      rw [if_neg hc0, hloop]
      rfl
  · -- evict_many_fast
    intro ev c1 tr h
    simp only [LruCache.evict_many_fast] at h
    by_cases hc0 : min count0 c.size = 0
    · rw [if_pos hc0] at h
      have h2 := Option.some.inj h
      rw [show c1 = (ev, c1, tr).2.1 from rfl, ← h2]
      exact hCok
    · rw [if_neg hc0] at h
      exact fastGo_cachedOK ρ pf c.size (min count0 c.size) _ c _ _ _ _ _ _ _ h hCok
  · -- cached length zero means truly empty
    intro j hj hz
    have h1 : (c.shards[j]).1.len ≤ (c.shards[j]).2 := hCok _ (List.getElem_mem hj)
    have h2 : c.cachedAt j = (c.shards[j]).2 := cachedAt_eq_getElem hj
    have hInv : Inv (c.shards[j]).1 := hWF.1.1 _ (List.getElem_mem hj)
    have h3 : (c.shards[j]).1.len = (c.shards[j]).1.indices.length := rfl
    have h4 : (c.shards[j]).1.indices.length = (c.shards[j]).1.entries.length := hInv.1
    rw [shardAt_eq_getElem hj]
    have h5 : (c.shards[j]).1.entries.length = 0 := by omega
    exact List.length_eq_zero.mp h5
  · -- non_empty_shards never skips a non-empty shard
    intro j hj hl
    have h1 : (c.shards[j]).1.len ≤ (c.shards[j]).2 := hCok _ (List.getElem_mem hj)
    rw [shardAt_eq_getElem hj] at hl
    refine mem_non_empty_shards.mpr ⟨hj, ?_⟩
    rw [cachedAt_eq_getElem hj]
    omega

theorem C9_cached_length_witness :
    CacheWF (fun z : Nat => z) (LruCache.with_hasher 1 : LruCache Nat Nat)
    ∧ ((∀ o c1, LruCache.insert (fun z : Nat => z) (LruCache.with_hasher 1 : LruCache Nat Nat)
          5 7 0 = some (o, c1) → CachedOK c1)
      ∧ (∀ o c1, LruCache.remove (fun z : Nat => z) (LruCache.with_hasher 1 : LruCache Nat Nat)
          5 = some (o, c1) → CachedOK c1)
      ∧ (∀ w c1, LruCache.remove (fun z : Nat => z) (LruCache.with_hasher 1 : LruCache Nat Nat)
          5 = some (some w, c1) →
          c1.cachedAt (5 % (LruCache.with_hasher 1 : LruCache Nat Nat).shards.length)
            = (c1.shardAt (5 % (LruCache.with_hasher 1 : LruCache Nat Nat).shards.length)).len)
      ∧ CachedOK (LruCache.clear (LruCache.with_hasher 1 : LruCache Nat Nat))
      ∧ (∀ c1, LruCache.retain (fun _ v => (true, v))
          (LruCache.with_hasher 1 : LruCache Nat Nat) = some c1 → CachedOK c1)
      ∧ CachedOK (LruCache.duplicate (LruCache.with_hasher 1 : LruCache Nat Nat))
      ∧ (∃ ev c1 reason, (LruCache.with_hasher 1 : LruCache Nat Nat).evict
            (fun (s : Nat) (_ : Nat) (v : Nat) => (Evict.Once, v, s)) 0 (fun n => n + 1) 1 1
            = some (ev, c1, reason) ∧ CachedOK c1)
      ∧ (∃ ev c1, (LruCache.with_hasher 1 : LruCache Nat Nat).evict_many 1 (fun n => n + 1) 1 1
            = some (ev, c1) ∧ CachedOK c1)
      ∧ (∀ ev c1 tr, (LruCache.with_hasher 1 : LruCache Nat Nat).evict_many_fast 1
            (fun n => n + 1) 1 = some (ev, c1, tr) → CachedOK c1)
      ∧ (∀ j, j < (LruCache.with_hasher 1 : LruCache Nat Nat).shards.length →
          (LruCache.with_hasher 1 : LruCache Nat Nat).cachedAt j = 0 →
          ((LruCache.with_hasher 1 : LruCache Nat Nat).shardAt j).entries = [])
      ∧ (∀ j, j < (LruCache.with_hasher 1 : LruCache Nat Nat).shards.length →
          0 < ((LruCache.with_hasher 1 : LruCache Nat Nat).shardAt j).len →
          j ∈ (LruCache.with_hasher 1 : LruCache Nat Nat).non_empty_shards)) :=
  ⟨by decide,
    C9_cached_length (fun z : Nat => z) (LruCache.with_hasher 1 : LruCache Nat Nat) 5 7 0
      (fun _ v => (true, v)) (fun (s : Nat) (_ : Nat) (v : Nat) => (Evict.Once, v, s)) 0 1
      (fun n => n + 1) 1 1 (by decide) RngSep_succ (by decide) (by decide)⟩

/-- Trace accuracy for `evict_many_fast`: every visited shard was non-empty,
its recorded running sum accumulates the quota `proportion_of size len count`,
its recorded per-shard `sub_count` is the quota, clamped to
`sum - count - 1` once the running sum exceeds `count`, and the loop breaks
right after the clamping shard. -/
def FastTraceOK (size count : Nat) : Nat → List FastStep → Prop
  | _, [] => True
  | sum0, t :: rest =>
      0 < t.len
      ∧ t.sum = sum0 + proportion_of size t.len count
      ∧ t.sub = (if t.sum > count then t.sum - count - 1 else proportion_of size t.len count)
      ∧ (t.sum > count → rest = [])
      ∧ FastTraceOK size count t.sum rest

instance instDecFastTraceOK (size count : Nat) :
    (sum0 : Nat) → (tr : List FastStep) → Decidable (FastTraceOK size count sum0 tr)
  | _, [] => isTrue trivial
  | sum0, t :: rest =>
    haveI := instDecFastTraceOK size count t.sum rest
    decidable_of_iff (0 < t.len
      ∧ t.sum = sum0 + proportion_of size t.len count
      ∧ t.sub = (if t.sum > count then t.sum - count - 1 else proportion_of size t.len count)
      ∧ (t.sum > count → rest = [])
      ∧ FastTraceOK size count t.sum rest) Iff.rfl

theorem fastSample_length (ρ : Nat → Nat) (pf j : Nat) :
    ∀ (sub : Nat) (c : LruCache K V) (ctr : Nat) (ev : List (K × V))
      (c1 : LruCache K V) (ctr1 : Nat) (ev1 : List (K × V)),
      fastSample ρ pf j sub c ctr ev = some (c1, ctr1, ev1) →
      ev1.length = ev.length + sub := by
  intro sub
  induction sub with
  | zero =>
    intro c ctr ev c1 ctr1 ev1 h
    simp only [fastSample] at h
    have h2 := Option.some.inj h
    have hev : ev = ev1 := congrArg (fun r => r.2.2) h2
    rw [← hev]
    omega
  | succ sub ih =>
    intro c ctr ev c1 ctr1 ev1 h
    cases hpi : pick_indices ρ pf (c.shardAt j).len ctr with
    | none =>
      simp only [fastSample, hpi] at h
      exact Option.noConfusion h
    | some pr =>
      rcases pr with ⟨⟨ia, ib⟩, ctr2⟩
      cases hta : ((c.shardAt j).entries[ia]?).map (fun b => b.value.timestamp) with
      | none =>
        cases htb : ((c.shardAt j).entries[ib]?).map (fun b => b.value.timestamp) with
        | none =>
          simp only [fastSample, hpi, hta, htb] at h
          exact Option.noConfusion h
        | some tsb =>
          simp only [fastSample, hpi, hta, htb] at h
          exact Option.noConfusion h
      | some tsa =>
        cases htb : ((c.shardAt j).entries[ib]?).map (fun b => b.value.timestamp) with
        | none =>
          simp only [fastSample, hpi, hta, htb] at h
          exact Option.noConfusion h
        | some tsb =>
          simp only [fastSample, hpi, hta, htb] at h
          cases hsw : (c.shardAt j).swap_remove_index_raw (twoChoice tsa tsb ia ib) with
          | none =>
            simp only [hsw] at h
            exact Option.noConfusion h
          | some r2 =>
            rcases r2 with ⟨⟨k0, tv⟩, s1⟩
            simp only [hsw] at h
            have h3 := ih _ _ _ _ _ _ h
            rw [h3]
            simp only [List.length_append, List.length_cons, List.length_nil]
            omega

theorem fastSample_invAll (ρ : Nat → Nat) (pf j : Nat) :
    ∀ (sub : Nat) (c : LruCache K V) (ctr : Nat) (ev : List (K × V))
      (c1 : LruCache K V) (ctr1 : Nat) (ev1 : List (K × V)),
      fastSample ρ pf j sub c ctr ev = some (c1, ctr1, ev1) →
      (∀ p ∈ c.shards, Inv p.1) → ∀ p ∈ c1.shards, Inv p.1 := by
  intro sub
  induction sub with
  | zero =>
    intro c ctr ev c1 ctr1 ev1 h hIA
    simp only [fastSample] at h
    have h2 := Option.some.inj h
    have hc : c = c1 := congrArg (fun r => r.1) h2
    rw [← hc]
    exact hIA
  | succ sub ih =>
    intro c ctr ev c1 ctr1 ev1 h hIA
    cases hpi : pick_indices ρ pf (c.shardAt j).len ctr with
    | none =>
      simp only [fastSample, hpi] at h
      exact Option.noConfusion h
    | some pr =>
      rcases pr with ⟨⟨ia, ib⟩, ctr2⟩
      cases hta : ((c.shardAt j).entries[ia]?).map (fun b => b.value.timestamp) with
      | none =>
        cases htb : ((c.shardAt j).entries[ib]?).map (fun b => b.value.timestamp) with
        | none =>
          simp only [fastSample, hpi, hta, htb] at h
          exact Option.noConfusion h
        | some tsb =>
          simp only [fastSample, hpi, hta, htb] at h
          exact Option.noConfusion h
      | some tsa =>
        cases htb : ((c.shardAt j).entries[ib]?).map (fun b => b.value.timestamp) with
        | none =>
          simp only [fastSample, hpi, hta, htb] at h
          exact Option.noConfusion h
        | some tsb =>
          simp only [fastSample, hpi, hta, htb] at h
          cases hsw : (c.shardAt j).swap_remove_index_raw (twoChoice tsa tsb ia ib) with
          | none =>
            simp only [hsw] at h
            exact Option.noConfusion h
          | some r2 =>
            rcases r2 with ⟨⟨k0, tv⟩, s1⟩
            simp only [hsw] at h
            have hInvj : Inv (c.shardAt j) := by
              by_cases hj : j < c.shards.length
              · rw [shardAt_eq_getElem hj]
                exact hIA _ (List.getElem_mem hj)
              · rw [shardAt_default (by omega)]
                exact Inv_new
            have hi : twoChoice tsa tsb ia ib < (c.shardAt j).entries.length := by
              cases he : (c.shardAt j).entries[twoChoice tsa tsb ia ib]? with
              | none =>
                rw [IndexedShard.swap_remove_index_raw, he] at hsw
                exact Option.noConfusion hsw
              | some b =>
                obtain ⟨hlt, -⟩ := List.getElem?_eq_some.mp he
                exact hlt
            obtain ⟨s2, heq2, hInv2, -, -, -⟩ := swap_remove_index_raw_spec hInvj hi
            rw [hsw] at heq2
            have hs12 : s1 = s2 := congrArg (fun r => r.2) (Option.some.inj heq2)
            refine ih _ _ _ _ _ _ h ?_
            intro p hp
            rcases List.mem_or_eq_of_mem_set hp with h1 | h1
            · exact hIA p h1
            · rw [h1]
              show Inv s1
              rw [hs12]
              exact hInv2

theorem fastGo_spec (ρ : Nat → Nat) (pf size count : Nat) :
    ∀ (l : List Nat) (c : LruCache K V) (ctr sum : Nat) (ev : List (K × V))
      (tr : List FastStep) (ev1 : List (K × V)) (c1 : LruCache K V) (tr1 : List FastStep),
      fastGo ρ pf size count l c ctr sum ev tr = some (ev1, c1, tr1) →
      (∀ p ∈ c.shards, Inv p.1) →
      ∃ tnew, tr1 = tr ++ tnew ∧ FastTraceOK size count sum tnew
        ∧ ev1.length = ev.length + (tnew.map FastStep.sub).sum
        ∧ (∀ p ∈ c1.shards, Inv p.1) := by
  intro l
  induction l with
  | nil =>
    intro c ctr sum ev tr ev1 c1 tr1 h hIA
    simp only [fastGo] at h
    have h2 := Option.some.inj h
    have hev : ev = ev1 := congrArg (fun r => r.1) h2
    have hc : c = c1 := congrArg (fun r => r.2.1) h2
    have ht : tr = tr1 := congrArg (fun r => r.2.2) h2
    refine ⟨[], by rw [← ht, List.append_nil], trivial, ?_, by rw [← hc]; exact hIA⟩
    rw [← hev]
    simp
  | cons j rest ih =>
    intro c ctr sum ev tr ev1 c1 tr1 h hIA
    simp only [fastGo] at h
    by_cases hz : (c.shardAt j).len = 0
    · rw [if_pos hz] at h
      exact ih c ctr sum ev tr ev1 c1 tr1 h hIA
    · rw [if_neg hz] at h
      have hInvj : Inv (c.shardAt j) := by
        by_cases hj : j < c.shards.length
        · rw [shardAt_eq_getElem hj]
          exact hIA _ (List.getElem_mem hj)
        · rw [shardAt_default (by omega)]
          exact Inv_new
      have hEnt : (c.shardAt j).len = (c.shardAt j).entries.length := hInvj.1
      have hts : FastStep.sub ⟨j, (c.shardAt j).len,
          sum + proportion_of size (c.shardAt j).len count,
          if sum + proportion_of size (c.shardAt j).len count > count
            then sum + proportion_of size (c.shardAt j).len count - count - 1
            else proportion_of size (c.shardAt j).len count⟩
          = (if sum + proportion_of size (c.shardAt j).len count > count
            then sum + proportion_of size (c.shardAt j).len count - count - 1
            else proportion_of size (c.shardAt j).len count) := rfl
      by_cases hsub : (if sum + proportion_of size (c.shardAt j).len count > count
            then sum + proportion_of size (c.shardAt j).len count - count - 1
            else proportion_of size (c.shardAt j).len count) = (c.shardAt j).len
      · rw [if_pos hsub] at h
        have hIAd : ∀ p ∈ (c.shards.set j
            ((⟨[], []⟩ : IndexedShard K (TSValue V)), c.cachedAt j)), Inv p.1 := by
          intro p hp
          rcases List.mem_or_eq_of_mem_set hp with h1 | h1
          · exact hIA p h1
          · rw [h1]
            exact Inv_empty
        by_cases hgt : sum + proportion_of size (c.shardAt j).len count > count
        · rw [if_pos hgt] at h
          have h2 := Option.some.inj h
          have hev : ev ++ (c.shardAt j).entries.map (fun b => (b.key, b.value.value)) = ev1 :=
            congrArg (fun r => r.1) h2
          have ht : tr ++ [⟨j, (c.shardAt j).len,
              sum + proportion_of size (c.shardAt j).len count,
              if sum + proportion_of size (c.shardAt j).len count > count
                then sum + proportion_of size (c.shardAt j).len count - count - 1
                else proportion_of size (c.shardAt j).len count⟩] = tr1 :=
            congrArg (fun r => r.2.2) h2
          have hc : (⟨c.shards.set j ((⟨[], []⟩ : IndexedShard K (TSValue V)), c.cachedAt j),
              c.size - (if sum + proportion_of size (c.shardAt j).len count > count
                then sum + proportion_of size (c.shardAt j).len count - count - 1
                else proportion_of size (c.shardAt j).len count)⟩ : LruCache K V) = c1 :=
            congrArg (fun r => r.2.1) h2
          refine ⟨_, ht.symm, ⟨(show 0 < (c.shardAt j).len by omega), rfl, rfl,
            fun _ => rfl, trivial⟩, ?_, ?_⟩
          · rw [← hev, List.map_cons, List.map_nil, List.sum_cons, List.sum_nil, hts,
              List.length_append, List.length_map]
            omega
          · rw [← hc]
            exact hIAd
        · rw [if_neg hgt] at h
          obtain ⟨tnew, htr, hok, hlen, hIA1⟩ := ih _ _ _ _ _ _ _ _ h hIAd
          refine ⟨⟨j, (c.shardAt j).len,
              sum + proportion_of size (c.shardAt j).len count,
              if sum + proportion_of size (c.shardAt j).len count > count
                then sum + proportion_of size (c.shardAt j).len count - count - 1
                else proportion_of size (c.shardAt j).len count⟩ :: tnew,
            by rw [htr, List.append_assoc, List.singleton_append], ⟨(show 0 < (c.shardAt j).len by omega), rfl, rfl,
              fun hgt2 => absurd hgt2 hgt, hok⟩, ?_, hIA1⟩
          rw [hlen, List.map_cons, List.sum_cons, hts, List.length_append, List.length_map]
          omega
      · rw [if_neg hsub] at h
        cases hfs : fastSample ρ pf j
            (if sum + proportion_of size (c.shardAt j).len count > count
              then sum + proportion_of size (c.shardAt j).len count - count - 1
              else proportion_of size (c.shardAt j).len count) c ctr ev with
        | none =>
          simp only [hfs] at h
          exact Option.noConfusion h
        | some r2 =>
          rcases r2 with ⟨c2, ctr2, ev2⟩
          simp only [hfs] at h
          have hlen2 := fastSample_length ρ pf j _ c ctr ev c2 ctr2 ev2 hfs
          have hIA2 := fastSample_invAll ρ pf j _ c ctr ev c2 ctr2 ev2 hfs hIA
          by_cases hgt : sum + proportion_of size (c.shardAt j).len count > count
          · rw [if_pos hgt] at h
            have h2 := Option.some.inj h
            have hev : ev2 = ev1 := congrArg (fun r => r.1) h2
            have hc : c2 = c1 := congrArg (fun r => r.2.1) h2
            have ht : tr ++ [⟨j, (c.shardAt j).len,
                sum + proportion_of size (c.shardAt j).len count,
                if sum + proportion_of size (c.shardAt j).len count > count
                  then sum + proportion_of size (c.shardAt j).len count - count - 1
                  else proportion_of size (c.shardAt j).len count⟩] = tr1 :=
              congrArg (fun r => r.2.2) h2
            refine ⟨_, ht.symm, ⟨(show 0 < (c.shardAt j).len by omega), rfl, rfl,
              fun _ => rfl, trivial⟩, ?_, by rw [← hc]; exact hIA2⟩
            rw [← hev, hlen2, List.map_cons, List.map_nil, List.sum_cons, List.sum_nil, hts]
            omega
          · rw [if_neg hgt] at h
            obtain ⟨tnew, htr, hok, hlen, hIA1⟩ := ih _ _ _ _ _ _ _ _ h hIA2
            refine ⟨⟨j, (c.shardAt j).len,
                sum + proportion_of size (c.shardAt j).len count,
                if sum + proportion_of size (c.shardAt j).len count > count
                  then sum + proportion_of size (c.shardAt j).len count - count - 1
                  else proportion_of size (c.shardAt j).len count⟩ :: tnew,
              by rw [htr, List.append_assoc, List.singleton_append], ⟨(show 0 < (c.shardAt j).len by omega), rfl, rfl,
                fun hgt2 => absurd hgt2 hgt, hok⟩, ?_, hIA1⟩
            rw [hlen, hlen2, List.map_cons, List.sum_cons, hts]
            omega

/-- The cache exhibiting the clamp's under-eviction: one shard, two entries. -/
def fastCex : LruCache Nat Nat :=
  ⟨[(⟨[(1, 0), (2, 1)], [⟨1, 1, ⟨10, 0⟩⟩, ⟨2, 2, ⟨20, 1⟩⟩]⟩, 2)], 2⟩

/-- C5 counterexample: on a well-formed single-shard cache holding 2 entries,
`evict_many_fast 2` computes the quota `2 * 2 / 2 + 1 = 3`, clamps the
sub-count to `3 - 2 - 1 = 0`, and returns having evicted nothing — the total
number of evicted entries differs from `count = 2` by 2, not by at most one. -/
theorem C5_fast_counterexample :
    CacheWF (fun z : Nat => z) fastCex
    ∧ min 2 fastCex.size = 2
    ∧ fastCex.evict_many_fast 2 (fun n => n + 1) 1 = some ([], fastCex, [⟨0, 2, 3, 0⟩])
    ∧ ([] : List (Nat × Nat)).length + 1 < 2 := by decide

/-- C5 (amended): for a quiescent well-formed cache, whenever
`evict_many_fast(count, rng)` returns, its per-shard trace shows each visited
shard non-empty with quota `count * len / size + 1` accumulated into the
running sum, the final shard's sub-count clamped to `sum - count - 1` as soon
as the running sum exceeds `count` (the loop breaking there), and the number
of evicted entries equals the sum of the per-shard sub-counts — which may
fall short of `count` by more than one. -/
theorem C5_fast_quota (hf : K → Nat) (c : LruCache K V) (count0 : Nat) (ρ : Nat → Nat)
    (pf : Nat) (ev : List (K × V)) (c1 : LruCache K V) (tr : List FastStep)
    (hWF : CacheWF hf c)
    (h : c.evict_many_fast count0 ρ pf = some (ev, c1, tr)) :
    FastTraceOK c.size (min count0 c.size) 0 tr
    ∧ ev.length = (tr.map FastStep.sub).sum := by
  simp only [LruCache.evict_many_fast] at h
  by_cases hc0 : min count0 c.size = 0
  · rw [if_pos hc0] at h
    have h2 := Option.some.inj h
    have hev : ([] : List (K × V)) = ev := congrArg (fun r => r.1) h2
    have htr : ([] : List FastStep) = tr := congrArg (fun r => r.2.2) h2
    rw [← hev, ← htr]
    exact ⟨trivial, rfl⟩
  · rw [if_neg hc0] at h
    obtain ⟨tnew, htr, hok, hlen, -⟩ :=
      fastGo_spec ρ pf c.size (min count0 c.size) _ c _ 0 [] [] ev c1 tr h hWF.1.1
    have htr2 : tr = tnew := by rw [htr]; rfl
    rw [htr2]
    refine ⟨hok, ?_⟩
    rw [hlen]
    simp

theorem sortIns_perm (x : K × Nat × Nat) :
    ∀ (l : List (K × Nat × Nat)), List.Perm (sortIns x l) (x :: l) := by
  intro l
  induction l with
  | nil => exact List.Perm.refl _
  | cons y ys ih =>
    by_cases h : x.2.2 ≤ y.2.2
    · simp only [sortIns]
      rw [if_pos h]
    · simp only [sortIns]
      rw [if_neg h]
      exact (List.Perm.cons y ih).trans (List.Perm.swap x y ys)

theorem sortByShard_perm :
    ∀ (l : List (K × Nat × Nat)), List.Perm (sortByShard l) l := by
  intro l
  induction l with
  | nil => exact List.Perm.refl _
  | cons y ys ih =>
    show List.Perm (sortIns y (sortByShard ys)) (y :: ys)
    exact (sortIns_perm y _).trans (List.Perm.cons y ih)

theorem sortIns_pairwise (x : K × Nat × Nat) :
    ∀ (l : List (K × Nat × Nat)), l.Pairwise (fun a b => a.2.2 ≤ b.2.2) →
      (sortIns x l).Pairwise (fun a b => a.2.2 ≤ b.2.2) := by
  intro l
  induction l with
  | nil =>
    intro h
    exact List.pairwise_singleton _ _
  | cons y ys ih =>
    intro h
    obtain ⟨hy, hys⟩ := List.pairwise_cons.mp h
    by_cases hxy : x.2.2 ≤ y.2.2
    · simp only [sortIns]
      rw [if_pos hxy]
      refine List.pairwise_cons.mpr ⟨?_, h⟩
      intro b hb
      rcases List.mem_cons.mp hb with h2 | h2
      · rw [h2]
        exact hxy
      · have := hy b h2
        omega
    · simp only [sortIns]
      rw [if_neg hxy]
      refine List.pairwise_cons.mpr ⟨?_, ih hys⟩
      intro b hb
      have hbmem : b ∈ x :: ys := (sortIns_perm x ys).subset hb
      rcases List.mem_cons.mp hbmem with h2 | h2
      · rw [h2]
        omega
      · exact hy b h2

theorem sortByShard_pairwise :
    ∀ (l : List (K × Nat × Nat)), (sortByShard l).Pairwise (fun a b => a.2.2 ≤ b.2.2) := by
  intro l
  induction l with
  | nil => exact List.Pairwise.nil
  | cons y ys ih =>
    show (sortIns y (sortByShard ys)).Pairwise _
    exact sortIns_pairwise y _ ih

theorem dropWhile_head_false {α : Type} (p : α → Bool) :
    ∀ (l : List α) (a : α) (l1 : List α), l.dropWhile p = a :: l1 → p a = false := by
  intro l
  induction l with
  | nil =>
    intro a l1 h
    exact List.noConfusion h
  | cons x xs ih =>
    intro a l1 h
    by_cases hp : p x = true
    · rw [List.dropWhile_cons_of_pos hp] at h
      exact ih a l1 h
    · rw [List.dropWhile_cons_of_neg hp] at h
      injection h with h1 h2
      rw [← h1]
      exact Bool.of_not_eq_true hp

theorem batchGo_spec (c : CHashMap K V) :
    ∀ (fuel : Nat) (l : List (K × Nat × Nat)), l.length < fuel →
      l.Pairwise (fun a b => a.2.2 ≤ b.2.2) →
      ∃ out, batchGo c fuel l = some out
        ∧ out.1 = l.map (fun q => (q.1, CHashMap.shardLookup (c.shardAt q.2.2) q.1))
        ∧ out.2.Pairwise (fun a b => a < b)
        ∧ (∀ z ∈ out.2, ∃ q ∈ l, z = q.2.2) := by
  intro fuel
  induction fuel with
  | zero =>
    intro l h
    exact absurd h (Nat.not_lt_zero _)
  | succ fuel ih =>
    intro l hlen hpw
    cases l with
    | nil =>
      exact ⟨([], []), rfl, rfl, List.Pairwise.nil, fun z hz => absurd hz (List.not_mem_nil z)⟩
    | cons it rest =>
      obtain ⟨hpwIt, hpwRest⟩ := List.pairwise_cons.mp hpw
      have hsubl : List.Sublist (rest.dropWhile (fun q => q.2.2 == it.2.2)) rest :=
        List.dropWhile_sublist _
      have hpw1 : (rest.dropWhile (fun q => q.2.2 == it.2.2)).Pairwise
          (fun a b => a.2.2 ≤ b.2.2) := hpwRest.sublist hsubl
      have hlen1 : (rest.dropWhile (fun q => q.2.2 == it.2.2)).length < fuel := by
        have h1 := hsubl.length_le
        have h2 : rest.length + 1 < fuel + 1 := by simpa using hlen
        omega
      obtain ⟨out, hgo, hmap, htr, hmem⟩ := ih _ hlen1 hpw1
      have hgtAll : ∀ q ∈ rest.dropWhile (fun q => q.2.2 == it.2.2), it.2.2 < q.2.2 := by
        intro q hq
        cases hdw : rest.dropWhile (fun q => q.2.2 == it.2.2) with
        | nil =>
          rw [hdw] at hq
          exact absurd hq (List.not_mem_nil q)
        | cons q0 qs =>
          rw [hdw] at hq
          have hq0r : q0 ∈ rest := hsubl.subset (by rw [hdw]; exact List.mem_cons_self _ _)
          have hle0 : it.2.2 ≤ q0.2.2 := hpwIt q0 hq0r
          have hne0 : (q0.2.2 == it.2.2) = false := dropWhile_head_false _ rest q0 qs hdw
          have hne1 : q0.2.2 ≠ it.2.2 := ne_of_beq_false hne0
          have hpc := hpw1
          rw [hdw] at hpc
          rcases List.mem_cons.mp hq with h2 | h2
          · rw [h2]
            omega
          · have := (List.pairwise_cons.mp hpc).1 q h2
            omega
      refine ⟨((it :: rest.takeWhile (fun q => q.2.2 == it.2.2)).map
          (fun q => (q.1, CHashMap.shardLookup (c.shardAt it.2.2) q.1)) ++ out.1,
          it.2.2 :: out.2), ?_, ?_, ?_, ?_⟩
      · simp only [batchGo, hgo, Option.map]
      · show (it :: rest.takeWhile (fun q => q.2.2 == it.2.2)).map
            (fun q => (q.1, CHashMap.shardLookup (c.shardAt it.2.2) q.1)) ++ out.1
            = (it :: rest).map (fun q => (q.1, CHashMap.shardLookup (c.shardAt q.2.2) q.1))
        rw [hmap]
        conv_rhs => rw [← List.takeWhile_append_dropWhile (l := rest) (p := fun q => q.2.2 == it.2.2)]
        rw [show (it :: (rest.takeWhile (fun q => q.2.2 == it.2.2)
              ++ rest.dropWhile (fun q => q.2.2 == it.2.2)))
            = (it :: rest.takeWhile (fun q => q.2.2 == it.2.2))
              ++ rest.dropWhile (fun q => q.2.2 == it.2.2) from rfl]
        rw [List.map_append]
        congr 1
        apply List.map_congr_left
        intro q hq
        rcases List.mem_cons.mp hq with h2 | h2
        · rw [h2]
        · have h3 := List.mem_takeWhile_imp h2
          have h4 : q.2.2 = it.2.2 := eq_of_beq h3
          rw [h4]
      · refine List.pairwise_cons.mpr ⟨?_, htr⟩
        intro z hz
        obtain ⟨q, hq, hqe⟩ := hmem z hz
        rw [hqe]
        exact hgtAll q hq
      · intro z hz
        rcases List.mem_cons.mp hz with h2 | h2
        · exact ⟨it, List.mem_cons_self _ _, h2⟩
        · obtain ⟨q, hq, hqe⟩ := hmem z h2
          exact ⟨q, List.mem_cons_of_mem _ (hsubl.subset hq), hqe⟩

/-- C8: `batch_read` invokes the callback exactly once per input key (the
invocation keys are a permutation of the input), each invocation passes the
shard-resident entry matching the key (`none` on a miss), and each shard's
lock appears at most once in the lock-acquisition trace (the model holds at
most one lock at a time by construction, locking each run's shard once). -/
theorem C8_batch_read (hf : K → Nat) (c : CHashMap K V) (keys : List K)
    (hN : 0 < c.shards.length) :
    ∃ inv locks, CHashMap.batch_read hf c keys = some (inv, locks)
      ∧ inv.length = keys.length
      ∧ List.Perm (inv.map (fun p => p.1)) keys
      ∧ (∀ p ∈ inv, p.2 = CHashMap.shardLookup
          (c.shardAt (hf p.1 % c.shards.length)) p.1)
      ∧ locks.Nodup := by
  cases keys with
  | nil =>
    exact ⟨[], [], rfl, rfl, List.Perm.nil, fun p hp => absurd hp (List.not_mem_nil p),
      List.nodup_nil⟩
  | cons k0 ks =>
    have hperm0 : List.Perm (sortByShard ((k0 :: ks).map
        (fun k => (k, hf k, hf k % c.shards.length))))
        ((k0 :: ks).map (fun k => (k, hf k, hf k % c.shards.length))) :=
      sortByShard_perm _
    have hpw := sortByShard_pairwise ((k0 :: ks).map
        (fun k => (k, hf k, hf k % c.shards.length)))
    have hlen : (sortByShard ((k0 :: ks).map
        (fun k => (k, hf k, hf k % c.shards.length)))).length
        < ((k0 :: ks).map (fun k => (k, hf k, hf k % c.shards.length))).length + 1 := by
      rw [hperm0.length_eq]
      omega
    obtain ⟨out, hgo, hmap, htr, hmem⟩ := batchGo_spec c _ _ hlen hpw
    refine ⟨out.1, out.2, ?_, ?_, ?_, ?_, ?_⟩
    · show CHashMap.batch_read hf c (k0 :: ks) = some (out.1, out.2)
      simp only [CHashMap.batch_read]
      rw [if_neg (by omega), hgo]
    · rw [hmap, List.length_map, hperm0.length_eq, List.length_map]
    · rw [hmap]
      have h1 : (List.map (fun q => (q.1, CHashMap.shardLookup (c.shardAt q.2.2) q.1))
          (sortByShard ((k0 :: ks).map (fun k => (k, hf k, hf k % c.shards.length))))).map
          (fun p => p.1)
          = (sortByShard ((k0 :: ks).map (fun k => (k, hf k, hf k % c.shards.length)))).map
            (fun q => q.1) := by
        rw [List.map_map]
        rfl
      rw [h1]
      have h2 : ((k0 :: ks).map (fun k => (k, hf k, hf k % c.shards.length))).map
          (fun q => q.1) = k0 :: ks := by
        rw [List.map_map]
        show List.map (fun k : K => k) (k0 :: ks) = k0 :: ks
        exact List.map_id _
      have h3 := hperm0.map (fun q => q.1)
      rw [h2] at h3
      exact h3
    · intro p hp
      rw [hmap] at hp
      obtain ⟨q, hq, hqe⟩ := List.mem_map.mp hp
      have hq2 : q ∈ (k0 :: ks).map (fun k => (k, hf k, hf k % c.shards.length)) :=
        hperm0.subset hq
      obtain ⟨k1, hk1, hk1e⟩ := List.mem_map.mp hq2
      rw [← hqe, ← hk1e]
    · exact htr.imp (fun h => Nat.ne_of_lt h)

theorem C8_batch_read_witness :
    0 < (⟨[[(2, 20)], [(1, 10)]], 2⟩ : CHashMap Nat Nat).shards.length
    ∧ ∃ inv locks, CHashMap.batch_read (fun z : Nat => z)
        (⟨[[(2, 20)], [(1, 10)]], 2⟩ : CHashMap Nat Nat) [5, 2, 3, 1] = some (inv, locks)
      ∧ inv.length = [5, 2, 3, 1].length
      ∧ List.Perm (inv.map (fun p => p.1)) [5, 2, 3, 1]
      ∧ (∀ p ∈ inv, p.2 = CHashMap.shardLookup
          ((⟨[[(2, 20)], [(1, 10)]], 2⟩ : CHashMap Nat Nat).shardAt
            ((fun z : Nat => z) p.1 % (⟨[[(2, 20)], [(1, 10)]], 2⟩
              : CHashMap Nat Nat).shards.length)) p.1)
      ∧ locks.Nodup :=
  ⟨by decide,
    C8_batch_read (fun z : Nat => z) (⟨[[(2, 20)], [(1, 10)]], 2⟩ : CHashMap Nat Nat)
      [5, 2, 3, 1] (by decide)⟩

theorem C5_fast_quota_witness :
    CacheWF (fun z : Nat => z) fastCex
    ∧ fastCex.evict_many_fast 2 (fun n => n + 1) 1 = some ([], fastCex, [⟨0, 2, 3, 0⟩])
    ∧ (FastTraceOK fastCex.size (min 2 fastCex.size) 0 [⟨0, 2, 3, 0⟩]
        ∧ ([] : List (Nat × Nat)).length = ([(⟨0, 2, 3, 0⟩ : FastStep)].map FastStep.sub).sum) :=
  ⟨by decide, by decide,
    C5_fast_quota (fun z : Nat => z) fastCex 2 (fun n => n + 1) 1 [] fastCex [⟨0, 2, 3, 0⟩]
      (by decide) (by decide)⟩

end QHC

